import Mathlib

/-!
# demo-chaincode: a shallow embedding of `demo-chaincode.go`

The chaincode keeps one JSON-encoded `item` per ledger key and offers five
operations (`addItem`, `modifyPrice`, `removeItem`, `queryItem`, `history`)
behind the dispatcher `Invoke`.

Modelling conventions.

* A Go `string` / `[]byte` is a finite sequence of bytes: `Bytes := List Nat`,
  every element meant to be below 256.  A numeral that is not a byte is handled
  like an invalid UTF-8 byte by every function below.
* `fmt.Println` / `fmt.Printf` only write to the process log and are left out.
* The ledger is an in-memory world state with a per-key history, most recent
  entry first; its reads and writes do not fail, but the handlers keep the
  error branches of the source.  A handler takes the stub of its transaction
  and returns its response together with the ledger after the transaction.
* `time.Unix(seconds, nanos).String()` depends on the time zone of the process;
  it is the parameter `timeString` of `history` and `Invoke`.
* The library functions the handlers call (`strings.TrimSpace`,
  `json.Marshal`, `json.Unmarshal`, `utf8.DecodeRune`, `utf8.AppendRune`) are
  modelled after the Go standard library.
-/

namespace DemoChaincode

/-! ## Bytes and UTF-8 -/

/-- A Go string or byte slice. -/
abbrev Bytes := List Nat

/-- The bytes of an ASCII string literal of the source. -/
def ascii (s : String) : Bytes := s.data.map Char.toNat

/-- The constant `utf8.RuneError` (U+FFFD). -/
def RuneError : Nat := 0xFFFD

/-- A UTF-8 continuation byte, `0x80 ≤ b ≤ 0xBF`. -/
def isCont (b : Nat) : Bool := decide (0x80 ≤ b) && decide (b ≤ 0xBF)

/-- The part of Go's `utf8.DecodeRune` after the look-up of the first byte
`p0` in the table `first`: `sz` is the width that byte announces and
`lo .. hi` the range its `acceptRange` allows for the second byte; `n` is the
length of the slice and `b1 b2 b3` are the bytes after `p0`. -/
def decodeSeq (n sz lo hi p0 b1 b2 b3 : Nat) : Nat × Nat :=
  if n < sz then (RuneError, 1)
  else if b1 < lo ∨ hi < b1 then (RuneError, 1)
  else if sz ≤ 2 then ((p0 - 0xC0) * 0x40 + (b1 - 0x80), 2)
  else if b2 < 0x80 ∨ 0xBF < b2 then (RuneError, 1)
  else if sz ≤ 3 then ((p0 - 0xE0) * 0x1000 + (b1 - 0x80) * 0x40 + (b2 - 0x80), 3)
  else if b3 < 0x80 ∨ 0xBF < b3 then (RuneError, 1)
  else ((p0 - 0xF0) * 0x40000 + (b1 - 0x80) * 0x1000 + (b2 - 0x80) * 0x40 + (b3 - 0x80), 4)

/-- The body of Go's `utf8.DecodeRune` on a slice of length `n` whose first
four bytes are `p0 b1 b2 b3` (a byte beyond the end of the slice is not looked
at).  The table `first` is written out by ranges of `p0`: ASCII, invalid
(`xx`), and the classes `s1 .. s7` with their width and accept range. -/
def decodeRuneBytes (n p0 b1 b2 b3 : Nat) : Nat × Nat :=
  if n < 1 then (RuneError, 0)
  else if p0 < 0x80 then (p0, 1)
  else if p0 < 0xC2 then (RuneError, 1)
  else if p0 < 0xE0 then decodeSeq n 2 0x80 0xBF p0 b1 b2 b3
  else if p0 = 0xE0 then decodeSeq n 3 0xA0 0xBF p0 b1 b2 b3
  else if p0 = 0xED then decodeSeq n 3 0x80 0x9F p0 b1 b2 b3
  else if p0 < 0xF0 then decodeSeq n 3 0x80 0xBF p0 b1 b2 b3
  else if p0 = 0xF0 then decodeSeq n 4 0x90 0xBF p0 b1 b2 b3
  else if p0 < 0xF4 then decodeSeq n 4 0x80 0xBF p0 b1 b2 b3
  else if p0 = 0xF4 then decodeSeq n 4 0x80 0x8F p0 b1 b2 b3
  else (RuneError, 1)

/-- Go's `utf8.DecodeRune`: the first rune of `p` and its width in bytes;
`(RuneError, 0)` on empty input and `(RuneError, 1)` on an invalid or
truncated encoding. -/
def decodeRune (p : Bytes) : Nat × Nat :=
  decodeRuneBytes p.length (p.getD 0 0) (p.getD 1 0) (p.getD 2 0) (p.getD 3 0)

/-- Go's `utf8.AppendRune` on an empty buffer: the UTF-8 encoding of `r`;
a surrogate or a value above U+10FFFF is encoded as U+FFFD. -/
def encodeRune (r : Nat) : Bytes :=
  if r < 0x80 then [r]
  else if r < 0x800 then [0xC0 + r / 0x40, 0x80 + r % 0x40]
  else if 0x10FFFF < r ∨ (0xD800 ≤ r ∧ r ≤ 0xDFFF) then [0xEF, 0xBF, 0xBD]
  else if r < 0x10000 then [0xE0 + r / 0x1000, 0x80 + r / 0x40 % 0x40, 0x80 + r % 0x40]
  else [0xF0 + r / 0x40000, 0x80 + r / 0x1000 % 0x40, 0x80 + r / 0x40 % 0x40, 0x80 + r % 0x40]

/-- A Unicode scalar value: a code point that is not a surrogate. -/
def isScalar (r : Nat) : Prop := r < 0xD800 ∨ (0xE000 ≤ r ∧ r < 0x110000)

instance (r : Nat) : Decidable (isScalar r) := by unfold isScalar; infer_instance

/-- Well-formed UTF-8: the concatenated encodings of Unicode scalar values. -/
def ValidUTF8 (s : Bytes) : Prop :=
  ∃ rs : List Nat, (∀ r ∈ rs, isScalar r) ∧ s = rs.flatMap encodeRune

/-! ## `strings.TrimSpace` -/

/-- Go's `unicode.IsSpace`. -/
def IsSpace (r : Nat) : Bool :=
  r = 0x09 || r = 0x0A || r = 0x0B || r = 0x0C || r = 0x0D || r = 0x20 ||
  r = 0x85 || r = 0xA0 || r = 0x1680 || (decide (0x2000 ≤ r) && decide (r ≤ 0x200A)) ||
  r = 0x2028 || r = 0x2029 || r = 0x202F || r = 0x205F || r = 0x3000

/-- The table `asciiSpace` of package `strings`. -/
def asciiSpace (c : Nat) : Bool :=
  c = 0x09 || c = 0x0A || c = 0x0B || c = 0x0C || c = 0x0D || c = 0x20

/-- Go's `utf8.DecodeLastRune`: the last rune of `s` and its width. -/
def decodeLastRune (s : Bytes) : Nat × Nat :=
  let stop := s.length
  if stop = 0 then (RuneError, 0)
  else
    let r := s.getD (stop - 1) 0
    if r < 0x80 then (r, 1)
    else
      let lim := stop - 4
      -- the candidate starts `stop-2, stop-3, ...` down to `lim`
      let cands := ([2, 3, 4].filter (fun j => decide (j ≤ stop))).map (fun j => stop - j)
      let start := (cands.find? (fun p => !isCont (s.getD p 0))).getD (lim - 1)
      let (r, size) := decodeRune (s.drop start)
      if start + size ≠ stop then (RuneError, 1) else (r, size)

/-- The loop of `strings.TrimLeftFunc(s, unicode.IsSpace)`: drop leading
white-space runes. -/
def trimLeftSpace : Nat → Bytes → Bytes
  | 0, s => s
  | _, [] => []
  | fuel + 1, s =>
    let (r, size) := decodeRune s
    if IsSpace r then trimLeftSpace fuel (s.drop size) else s

/-- The loop of `strings.TrimRightFunc(s, unicode.IsSpace)`: drop trailing
white-space runes, read backwards with `DecodeLastRune`; what is kept ends with
the last rune that is not white space. -/
def trimRightSpace : Nat → Bytes → Bytes
  | 0, s => s
  | fuel + 1, s =>
    if s = [] then []
    else
      let (r, size) := decodeLastRune s
      if IsSpace r then trimRightSpace fuel (s.take (s.length - size)) else s

/-- The second loop of `strings.TrimSpace`: trailing ASCII white space, with
the fall-back to the rune-wise loop at the first non-ASCII byte. -/
def trimSpaceRight : Nat → Bytes → Bytes
  | 0, s => s
  | fuel + 1, s =>
    if s = [] then []
    else
      let c := s.getD (s.length - 1) 0
      if 0x80 ≤ c then trimRightSpace s.length s
      else if asciiSpace c then trimSpaceRight fuel s.dropLast
      else s

/-- Go's `strings.TrimSpace`: leading ASCII white space is skipped first; at
the first non-ASCII byte the rune-wise `TrimFunc` takes over. -/
def TrimSpace : Bytes → Bytes
  | [] => []
  | c :: rest =>
    if 0x80 ≤ c then
      let t := trimLeftSpace (c :: rest).length (c :: rest)
      trimRightSpace t.length t
    else if asciiSpace c then TrimSpace rest
    else trimSpaceRight (c :: rest).length (c :: rest)

/-! ## `json.Marshal` of an `item` -/

/-- The record kept under each ledger key (`type item struct`). -/
structure item where
  Id : Bytes
  Name : Bytes
  Description : Bytes
  Price : Bytes
  State : Bytes
  deriving DecidableEq, Repr

/-- The zero value `item{}`. -/
def item.zero : item := ⟨[], [], [], [], []⟩

/-- Every field of the item is well-formed UTF-8. -/
def item.Valid (v : item) : Prop :=
  ValidUTF8 v.Id ∧ ValidUTF8 v.Name ∧ ValidUTF8 v.Description ∧ ValidUTF8 v.Price ∧
    ValidUTF8 v.State

/-- The digit table `hex = "0123456789abcdef"` of package `json`. -/
def hex (n : Nat) : Nat := if n < 10 then 0x30 + n else 0x57 + n

/-- The table `htmlSafeSet` of package `json`: the ASCII bytes written
without an escape, all of `0x20 .. 0x7F` except `"`, `&`, `<`, `>` and `\`. -/
def htmlSafeSet (b : Nat) : Bool :=
  decide (0x20 ≤ b) && decide (b < 0x80) &&
    !(b = 0x22 || b = 0x26 || b = 0x3C || b = 0x3E || b = 0x5C)

/-- The escape `json.Marshal` writes for an ASCII byte outside `htmlSafeSet`:
the two-byte escapes for `\`, `"`, backspace, form feed, line feed, carriage
return and tab, the hexadecimal form for the rest. -/
def escapeByte (b : Nat) : Bytes :=
  if b = 0x5C ∨ b = 0x22 then [0x5C, b]
  else if b = 0x08 then [0x5C, 0x62]
  else if b = 0x0C then [0x5C, 0x66]
  else if b = 0x0A then [0x5C, 0x6E]
  else if b = 0x0D then [0x5C, 0x72]
  else if b = 0x09 then [0x5C, 0x74]
  else [0x5C, 0x75, 0x30, 0x30, hex (b / 16), hex (b % 16)]

/-- The loop of `encodeState.string(s, escapeHTML = true)`: the JSON string
body of `s`.  A byte that is not part of well-formed UTF-8 is written as the
three bytes `EF BF BD` of U+FFFD, U+2028 and U+2029 as their six-byte escapes,
every other multi-byte rune is copied. -/
def appendString : Nat → Bytes → Bytes
  | 0, _ => []
  | _, [] => []
  | fuel + 1, b :: rest =>
    if b < 0x80 then
      if htmlSafeSet b then b :: appendString fuel rest
      else escapeByte b ++ appendString fuel rest
    else
      let c := (decodeRune (b :: rest)).1
      let size := (decodeRune (b :: rest)).2
      if c = RuneError ∧ size = 1 then
        [0xEF, 0xBF, 0xBD] ++ appendString fuel rest
      else if c = 0x2028 ∨ c = 0x2029 then
        [0x5C, 0x75, 0x32, 0x30, 0x32, hex (c % 16)] ++
          appendString fuel ((b :: rest).drop size)
      else (b :: rest).take size ++ appendString fuel ((b :: rest).drop size)

/-- What `json.Marshal` writes inside a string literal for one Unicode scalar
value `r` of a well-formed input: the byte itself or its escape for an ASCII
`r`, the hexadecimal escape for U+2028 and U+2029, the UTF-8 encoding otherwise. -/
def runeBody (r : Nat) : Bytes :=
  if r < 0x80 then (if htmlSafeSet r then [r] else escapeByte r)
  else if r = 0x2028 ∨ r = 0x2029 then [0x5C, 0x75, 0x32, 0x30, 0x32, hex (r % 16)]
  else encodeRune r

/-- The body of the JSON string literal for the Go string `s`: the loop run
over all of `s`. -/
def stringBody (s : Bytes) : Bytes := appendString s.length s

/-- The JSON string literal `json.Marshal` writes for the Go string `s`. -/
def quote (s : Bytes) : Bytes := 0x22 :: (stringBody s ++ [0x22])

/-- Errors of package `json`: a syntax error, or an `UnmarshalTypeError` with
its fields `Value`, `Type` (here `GoType`, the name of the Go type), `Struct`
and `Field` (the last two are empty when the value that does not fit is the
whole input). -/
inductive JsonError where
  | invalidJSON
  | UnmarshalTypeError (Value : String) (GoType : String) (Struct : String) (Field : String)
  deriving DecidableEq, Repr

deriving instance DecidableEq for Except

/-- The text of `err.Error()` for a `json` error.  The text of a syntax error
names the offending byte and its place; that wording is not modelled, one text
stands for every syntax error. -/
def JsonError.Error : JsonError → Bytes
  | .invalidJSON => ascii "invalid JSON input"
  | .UnmarshalTypeError Value GoType Struct Field =>
    if Struct ≠ "" ∨ Field ≠ "" then
      ascii ("json: cannot unmarshal " ++ Value ++ " into Go struct field " ++ Struct ++ "." ++
        Field ++ " of type " ++ GoType)
    else ascii ("json: cannot unmarshal " ++ Value ++ " into Go value of type " ++ GoType)

/-- Go's `json.Marshal(item)`: the object with the keys of the struct tags in
declaration order.  Encoding a struct of five strings has no failing case. -/
def Marshal (v : item) : Except JsonError Bytes :=
  .ok (ascii "\x7b\"id\":" ++ quote v.Id ++ ascii ",\"name\":" ++ quote v.Name ++
    ascii ",\"description\":" ++ quote v.Description ++ ascii ",\"price\":" ++ quote v.Price ++
    ascii ",\"state\":" ++ quote v.State ++ ascii "\x7d")

/-- The bytes `json.Marshal` returns for an item (`nil` if it failed). -/
def item.json (v : item) : Bytes := (Marshal v).toOption.getD []

/-! ## `json.Unmarshal` into an `item` -/

/-- JSON white space (`isSpace` of the scanner). -/
def isJSONSpace (c : Nat) : Bool := c = 0x20 || c = 0x09 || c = 0x0D || c = 0x0A

/-- Drop leading JSON white space. -/
def skipSpace : Bytes → Bytes
  | [] => []
  | c :: rest => if isJSONSpace c then skipSpace rest else c :: rest

/-- An ASCII decimal digit. -/
def isDigit (c : Nat) : Bool := decide (0x30 ≤ c) && decide (c ≤ 0x39)

/-- An ASCII hexadecimal digit. -/
def isHex (c : Nat) : Bool :=
  isDigit c || (decide (0x61 ≤ c) && decide (c ≤ 0x66)) || (decide (0x41 ≤ c) && decide (c ≤ 0x46))

/-- The value of a hexadecimal digit. -/
def hexVal (c : Nat) : Nat :=
  if isDigit c then c - 0x30 else if 0x61 ≤ c then c - 0x61 + 10 else c - 0x41 + 10

/-- The bytes the scanner accepts after a backslash, the hexadecimal escape
apart (`stateInStringEsc`): `b f n r t`, the backslash, the slash and the
quote. -/
def isEscape (e : Nat) : Bool :=
  e = 0x62 || e = 0x66 || e = 0x6E || e = 0x72 || e = 0x74 || e = 0x5C || e = 0x2F || e = 0x22

/-- One unit of a string literal for the scanner (`stateInString`,
`stateInStringEsc`, `stateInStringEscU..`): the number of bytes of a plain byte
(1), a two-byte escape (2) or a hexadecimal escape (6) at the head of the input;
`none` on a control byte or a malformed escape. -/
def stringUnit (c : Nat) (rest : Bytes) : Option Nat :=
  if c = 0x5C then
    if rest.length < 1 then none
    else if isEscape (rest.getD 0 0) then some 2
    else if rest.getD 0 0 = 0x75 ∧ 5 ≤ rest.length ∧ isHex (rest.getD 1 0) ∧
        isHex (rest.getD 2 0) ∧ isHex (rest.getD 3 0) ∧ isHex (rest.getD 4 0) then some 6
    else none
  else if c < 0x20 then none
  else some 1

/-- The scanner inside a string literal: the input follows the opening
quote; the result is the raw body of the literal and the input after the
closing quote. -/
def scanString : Nat → Bytes → Option (Bytes × Bytes)
  | 0, _ => none
  | _ + 1, [] => none
  | fuel + 1, c :: rest =>
    if c = 0x22 then some ([], rest)
    else
      match stringUnit c rest with
      | none => none
      | some n =>
        (scanString fuel ((c :: rest).drop n)).map (fun p => ((c :: rest).take n ++ p.1, p.2))

/-- The scanner run over a string literal up to its closing quote, on the
input after the opening quote. -/
def scanLiteral (s : Bytes) : Option (Bytes × Bytes) := scanString s.length s

/-- Go's `getu4`: the value of a leading four-digit hexadecimal escape, if there
is one. -/
def getu4 (s : Bytes) : Option Nat :=
  if s.length < 6 ∨ s.getD 0 0 ≠ 0x5C ∨ s.getD 1 0 ≠ 0x75 then none
  else if isHex (s.getD 2 0) ∧ isHex (s.getD 3 0) ∧ isHex (s.getD 4 0) ∧ isHex (s.getD 5 0) then
    some (((hexVal (s.getD 2 0) * 16 + hexVal (s.getD 3 0)) * 16 + hexVal (s.getD 4 0)) * 16 +
      hexVal (s.getD 5 0))
  else none

/-- Go's `utf16.DecodeRune`, on a first half `r1` and the result of `getu4`
for the second half. -/
def utf16DecodeRune (r1 : Nat) (r2 : Option Nat) : Nat :=
  match r2 with
  | some r2 =>
    if 0xD800 ≤ r1 ∧ r1 < 0xDC00 ∧ 0xDC00 ≤ r2 ∧ r2 < 0xE000 then
      (r1 - 0xD800) * 0x400 + (r2 - 0xDC00) + 0x10000
    else RuneError
  | none => RuneError

/-- The byte a two-byte escape stands for in `unquoteBytes`
(the quote, the backslash, the slash and the apostrophe for themselves,
`b f n r t` for the control bytes). -/
def escapeChar (e : Nat) : Option Nat :=
  if e = 0x22 ∨ e = 0x5C ∨ e = 0x2F ∨ e = 0x27 then some e
  else if e = 0x62 then some 0x08
  else if e = 0x66 then some 0x0C
  else if e = 0x6E then some 0x0A
  else if e = 0x72 then some 0x0D
  else if e = 0x74 then some 0x09
  else none

/-- The case `u` of `unquoteBytes`; `s` starts at the backslash.  A surrogate
half followed by the escape of the matching half is decoded as a pair, a lone
surrogate half becomes U+FFFD. -/
def unquoteU (s : Bytes) : Option (Bytes × Bytes) :=
  match getu4 s with
  | none => none
  | some rr =>
    if 0xD800 ≤ rr ∧ rr < 0xE000 then
      if utf16DecodeRune rr (getu4 (s.drop 6)) ≠ RuneError then
        some (encodeRune (utf16DecodeRune rr (getu4 (s.drop 6))), s.drop 12)
      else some (encodeRune RuneError, s.drop 6)
    else some (encodeRune rr, s.drop 6)

/-- One round of the main loop of Go's `unquoteBytes` at the byte `c` followed
by `rest`: the bytes appended to the result and the input left; `none` where
the loop gives up. -/
def unquoteStep (c : Nat) (rest : Bytes) : Option (Bytes × Bytes) :=
  if c = 0x5C then
    if rest.length < 1 then none
    else if rest.getD 0 0 = 0x75 then unquoteU (c :: rest)
    else (escapeChar (rest.getD 0 0)).map (fun b => ([b], rest.drop 1))
  else if c = 0x22 ∨ c < 0x20 then none
  else if c < 0x80 then some ([c], rest)
  else some (encodeRune (decodeRune (c :: rest)).1, (c :: rest).drop (decodeRune (c :: rest)).2)

/-- The main loop of Go's `unquoteBytes` on the raw body of a string literal:
escapes are resolved and invalid UTF-8 is coerced to U+FFFD.  (The first loop
of `unquoteBytes` only recognises bodies this loop returns unchanged.) -/
def unquote : Nat → Bytes → Option Bytes
  | _, [] => some []
  | 0, _ :: _ => none
  | fuel + 1, c :: rest =>
    match unquoteStep c rest with
    | none => none
    | some (out, rest1) => (unquote fuel rest1).map (out ++ ·)

/-- The decoded Go string of a string literal with raw body `raw`. -/
def unquoteBytes (raw : Bytes) : Option Bytes := unquote raw.length raw

/-- Drop leading decimal digits. -/
def skipDigits : Bytes → Bytes
  | [] => []
  | c :: rest => if isDigit c then skipDigits rest else c :: rest

/-- One or more digits. -/
def scanDigits1 : Bytes → Option Bytes
  | [] => none
  | c :: rest => if isDigit c then some (skipDigits rest) else none

/-- The optional exponent of a number (`stateE`, `stateESign`, `stateE0`). -/
def scanExp : Bytes → Option Bytes
  | [] => some []
  | c :: rest =>
    if c = 0x65 ∨ c = 0x45 then
      match rest with
      | [] => none
      | d :: rest1 => if d = 0x2B ∨ d = 0x2D then scanDigits1 rest1 else scanDigits1 (d :: rest1)
    else some (c :: rest)

/-- The optional fraction of a number (`stateDot`, `stateDot0`), then the
exponent. -/
def scanFrac : Bytes → Option Bytes
  | [] => some []
  | c :: rest =>
    if c = 0x2E then (scanDigits1 rest).bind scanExp else scanExp (c :: rest)

/-- A JSON number (`stateNeg`, `state0`, `state1` and what follows): the
input after it. -/
def scanNumber : Bytes → Option Bytes
  | [] => none
  | c :: rest =>
    let digits : Bytes → Option Bytes := fun s =>
      match s with
      | [] => none
      | d :: more =>
        if d = 0x30 then scanFrac more
        else if isDigit d then scanFrac (skipDigits more)
        else none
    if c = 0x2D then digits rest else digits (c :: rest)

/-- What the decoder needs to know of a JSON value: its kind, and for a
string literal the decoded string. -/
inductive Kind where
  | str (s : Bytes)
  | null
  | bool
  | number
  | array
  | object
  deriving DecidableEq, Repr

/-- The name of a kind in an `UnmarshalTypeError`. -/
def Kind.name : Kind → String
  | .str _ => "string"
  | .null => "null"
  | .bool => "bool"
  | .number => "number"
  | .array => "array"
  | .object => "object"

/-- The constant `maxNestingDepth` of the scanner. -/
def maxNestingDepth : Nat := 10000

mutual
/-- One JSON value at the head of the input (no leading white space), read at
nesting depth `depth`: its kind and the input after it; `none` on a syntax
error. -/
def scanValue : Nat → Nat → Bytes → Option (Kind × Bytes)
  | 0, _, _ => none
  | _, _, [] => none
  | fuel + 1, depth, c :: rest =>
    if c = 0x22 then
      match scanLiteral rest with
      | none => none
      | some (raw, rest1) => (unquoteBytes raw).map (fun s => (Kind.str s, rest1))
    else if c = 0x7B then
      if maxNestingDepth ≤ depth then none
      else
        match skipSpace rest with
        | [] => none
        | d :: more =>
          if d = 0x7D then some (Kind.object, more)
          else (scanMembers fuel (depth + 1) (d :: more)).map (fun p => (Kind.object, p.2))
    else if c = 0x5B then
      if maxNestingDepth ≤ depth then none
      else
        match skipSpace rest with
        | [] => none
        | d :: more =>
          if d = 0x5D then some (Kind.array, more)
          else (scanElems fuel (depth + 1) (d :: more)).map (fun r => (Kind.array, r))
    else if c = 0x2D ∨ isDigit c then (scanNumber (c :: rest)).map (fun r => (Kind.number, r))
    else if (c :: rest).take 4 = [0x74, 0x72, 0x75, 0x65] then some (Kind.bool, (c :: rest).drop 4)
    else if (c :: rest).take 5 = [0x66, 0x61, 0x6C, 0x73, 0x65] then
      some (Kind.bool, (c :: rest).drop 5)
    else if (c :: rest).take 4 = [0x6E, 0x75, 0x6C, 0x6C] then some (Kind.null, (c :: rest).drop 4)
    else none
/-- The elements of an array from the first one up to the closing bracket. -/
def scanElems : Nat → Nat → Bytes → Option Bytes
  | 0, _, _ => none
  | fuel + 1, depth, s =>
    match scanValue fuel depth s with
    | none => none
    | some (_, rest) =>
      match skipSpace rest with
      | [] => none
      | d :: more =>
        if d = 0x2C then scanElems fuel depth (skipSpace more)
        else if d = 0x5D then some more
        else none
/-- The members of an object from the first key up to the closing brace: the
decoded keys with the kinds of their values, in input order. -/
def scanMembers : Nat → Nat → Bytes → Option (List (Bytes × Kind) × Bytes)
  | 0, _, _ => none
  | _, _, [] => none
  | fuel + 1, depth, q :: s =>
    if q ≠ 0x22 then none
    else
      match scanLiteral s with
      | none => none
      | some (raw, rest) =>
        match unquoteBytes raw with
        | none => none
        | some key =>
          match skipSpace rest with
          | [] => none
          | colon :: rest1 =>
            if colon ≠ 0x3A then none
            else
              match scanValue fuel depth (skipSpace rest1) with
              | none => none
              | some (k, rest2) =>
                match skipSpace rest2 with
                | [] => none
                | d :: more =>
                  if d = 0x2C then
                    (scanMembers fuel depth (skipSpace more)).map
                      (fun p => ((key, k) :: p.1, p.2))
                  else if d = 0x7D then some ([(key, k)], more)
                  else none
end

/-- Go's `checkValid`, the first pass of `json.Unmarshal`: the input is one
JSON value between optional white space. -/
def checkValid (data : Bytes) : Bool :=
  match scanValue (data.length + 1) 0 (skipSpace data) with
  | none => false
  | some (_, rest) => decide (skipSpace rest = [])

/-- The fields of `item`. -/
inductive Field where
  | Id
  | Name
  | Description
  | Price
  | State
  deriving DecidableEq, Repr

/-- The name of a field in an `UnmarshalTypeError`. -/
def Field.name : Field → String
  | .Id => "id"
  | .Name => "name"
  | .Description => "description"
  | .Price => "price"
  | .State => "state"

/-- The JSON names of the fields, from the struct tags. -/
def fieldNames : List (Bytes × Field) :=
  [(ascii "id", .Id), (ascii "name", .Name), (ascii "description", .Description),
   (ascii "price", .Price), (ascii "state", .State)]

/-- Go's `foldName` as far as it matters for ASCII names: ASCII letters are
upper-cased, and U+017F (long s) and U+212A (Kelvin sign), the only non-ASCII
runes with an ASCII letter in their case-folding orbit, become `S` and `K`. -/
def foldName : Bytes → Bytes
  | [] => []
  | c :: rest =>
    let plain := (if 0x61 ≤ c ∧ c ≤ 0x7A then c - 0x20 else c) :: foldName rest
    match rest with
    | [] => plain
    | b1 :: rest1 =>
      if c = 0xC5 ∧ b1 = 0xBF then 0x53 :: foldName rest1
      else
        match rest1 with
        | [] => plain
        | b2 :: rest2 =>
          if c = 0xE2 ∧ b1 = 0x84 ∧ b2 = 0xAA then 0x4B :: foldName rest2 else plain

/-- The field an object key is decoded into: the field whose name is the key,
else the field whose name equals the key under case folding. -/
def findField (key : Bytes) : Option Field :=
  match fieldNames.find? (fun p => p.1 = key) with
  | some p => some p.2
  | none => (fieldNames.find? (fun p => foldName p.1 = foldName key)).map (fun p => p.2)

/-- Assignment to one field of an `item`. -/
def item.set (v : item) (f : Field) (s : Bytes) : item :=
  match f with
  | .Id => { v with Id := s }
  | .Name => { v with Name := s }
  | .Description => { v with Description := s }
  | .Price => { v with Price := s }
  | .State => { v with State := s }

/-- One member of the object being decoded: a string is stored in the field of
its key, `null` leaves the field as it is, any other value is an
`UnmarshalTypeError` (the first one is kept, decoding goes on); a key that
names no field is skipped. -/
def decodeMember (st : item × Option JsonError) (m : Bytes × Kind) : item × Option JsonError :=
  match findField m.1 with
  | none => st
  | some f =>
    match m.2 with
    | .str s => (st.1.set f s, st.2)
    | .null => st
    | k =>
      (st.1, match st.2 with
        | some e => some e
        | none => some (.UnmarshalTypeError k.name "string" "item" f.name))

/-- Go's `json.Unmarshal(data, &v)` for `v` of type `item`: the value `v`
after decoding, or the error. -/
def Unmarshal (data : Bytes) (v : item) : Except JsonError item :=
  if !checkValid data then .error .invalidJSON
  else
    match skipSpace data with
    | [] => .error .invalidJSON
    | c :: rest =>
      if c = 0x7B then
        match skipSpace rest with
        | [] => .error .invalidJSON
        | d :: more =>
          if d = 0x7D then .ok v
          else
            match scanMembers data.length 1 (d :: more) with
            | none => .error .invalidJSON
            | some (members, _) =>
              match members.foldl decodeMember (v, none) with
              | (v1, none) => .ok v1
              | (_, some e) => .error e
      else if c = 0x6E then .ok v
      else if c = 0x5B then .error (.UnmarshalTypeError "array" "main.item" "" "")
      else if c = 0x22 then .error (.UnmarshalTypeError "string" "main.item" "" "")
      else if c = 0x74 ∨ c = 0x66 then .error (.UnmarshalTypeError "bool" "main.item" "" "")
      else .error (.UnmarshalTypeError "number" "main.item" "" "")

/-! ## The ledger and the `shim` interface -/

/-- One entry of the history of a key (`queryresult.KeyModification`). -/
structure KeyModification where
  TxId : Bytes
  Value : Bytes
  Timestamp : Int × Int
  IsDelete : Bool
  deriving DecidableEq, Repr

/-- The ledger: the current value of every key and the history of every key,
most recent entry first. -/
structure Ledger where
  state : Bytes → Option Bytes
  history : Bytes → List KeyModification

/-- The ledger with no writes. -/
def Ledger.empty : Ledger := ⟨fun _ => none, fun _ => []⟩

/-- The stub handed to the chaincode: the transaction and the ledger it runs
against. -/
structure Stub where
  TxID : Bytes
  TxTimestamp : Int × Int
  ledger : Ledger

/-- The response of an invocation (`pb.Response`). -/
structure Response where
  Status : Nat
  Message : Bytes
  Payload : Bytes
  deriving DecidableEq, Repr

/-- Go's `shim.Success`. -/
def shim.Success (payload : Bytes) : Response := ⟨200, [], payload⟩

/-- Go's `shim.Error`. -/
def shim.Error (msg : Bytes) : Response := ⟨500, msg, []⟩

/-- Go's `stub.GetState`: the value under `key`, `none` for Go's `nil`. -/
def Stub.GetState (stub : Stub) (key : Bytes) : Except Bytes (Option Bytes) :=
  .ok (stub.ledger.state key)

/-- Go's `stub.PutState`: the ledger after the write of this transaction is
committed; the write is also the new head of the history of `key`. -/
def Stub.PutState (stub : Stub) (key value : Bytes) : Except Bytes Ledger :=
  .ok { state := fun k => if k = key then some value else stub.ledger.state k
        history := fun k =>
          if k = key then ⟨stub.TxID, value, stub.TxTimestamp, false⟩ :: stub.ledger.history k
          else stub.ledger.history k }

/-- Go's `stub.GetHistoryForKey`, the iterator read to its end. -/
def Stub.GetHistoryForKey (stub : Stub) (key : Bytes) : Except Bytes (List KeyModification) :=
  .ok (stub.ledger.history key)

/-! ## The handlers -/

/-- The test `len(strings.TrimSpace(s)) <= 0` of the handlers. -/
def blank (s : Bytes) : Bool := decide ((TrimSpace s).length ≤ 0)

/-- The notice that no item is stored under `id`. -/
def notFound (id : Bytes) : Bytes :=
  ascii "\x7b\"Error\":\"An Item does not exist for this ID: " ++ id ++ ascii "\"\x7d"

/-- Handler `addItem`. -/
def addItem (stub : Stub) (args : List Bytes) : Response × Ledger :=
  if args.length ≠ 5 then
    (shim.Error (ascii "Incorrect number of arguments. Expecting 5 arguments."), stub.ledger)
  else if blank (args.getD 0 []) then
    (shim.Error (ascii "The id must be a non-empty string"), stub.ledger)
  else if blank (args.getD 1 []) then
    (shim.Error (ascii "The name must be a non-empty string"), stub.ledger)
  else if blank (args.getD 2 []) then
    (shim.Error (ascii "The description must be a non-empty string"), stub.ledger)
  else if blank (args.getD 3 []) then
    (shim.Error (ascii "The price argument must be a non-empty string"), stub.ledger)
  else if blank (args.getD 4 []) then
    (shim.Error (ascii "The state argument must be a non-empty string"), stub.ledger)
  else
    let id := args.getD 0 []
    match stub.GetState id with
    | .error err => (shim.Error (ascii "Failed to get the Item: " ++ err), stub.ledger)
    | .ok (some _) => (shim.Error (ascii "An Item already exists for this ID: " ++ id), stub.ledger)
    | .ok none =>
      let v : item :=
        ⟨args.getD 0 [], args.getD 1 [], args.getD 2 [], args.getD 3 [], args.getD 4 []⟩
      match Marshal v with
      | .error err => (shim.Error err.Error, stub.ledger)
      | .ok itemJSONasBytes =>
        match stub.PutState id itemJSONasBytes with
        | .error err => (shim.Error err, stub.ledger)
        | .ok ledger => (shim.Success itemJSONasBytes, ledger)

/-- Handler `queryItem`. -/
def queryItem (stub : Stub) (args : List Bytes) : Response × Ledger :=
  if args.length ≠ 1 then
    (shim.Error (ascii "Incorrect number of arguments. Expecting the ID of the Item."),
      stub.ledger)
  else if blank (args.getD 0 []) then
    (shim.Error (ascii "The Item ID must be a non-empty string."), stub.ledger)
  else
    let id := args.getD 0 []
    match stub.GetState id with
    | .error _ =>
      (shim.Error (ascii "\x7b\"Error\":\"Failed to get the Item for this ID: " ++ id ++
        ascii "\"\x7d"), stub.ledger)
    | .ok none => (shim.Error (notFound id), stub.ledger)
    | .ok (some itemAsBytes) => (shim.Success itemAsBytes, stub.ledger)

/-- Handler `removeItem`. -/
def removeItem (stub : Stub) (args : List Bytes) : Response × Ledger :=
  if args.length ≠ 1 then
    (shim.Error (ascii "Incorrect number of arguments. Expecting the ID of the Item."),
      stub.ledger)
  else if blank (args.getD 0 []) then
    (shim.Error (ascii "The Item ID must be a non-empty string."), stub.ledger)
  else
    let id := args.getD 0 []
    match stub.GetState id with
    | .error err => (shim.Error (ascii "Failed to get the Item: " ++ err), stub.ledger)
    | .ok none => (shim.Error (notFound id), stub.ledger)
    | .ok (some itemAsBytes) =>
      match Unmarshal itemAsBytes item.zero with
      | .error err => (shim.Error err.Error, stub.ledger)
      | .ok modifiedItem =>
        let modifiedItem := { modifiedItem with State := ascii "REMOVED" }
        let itemJSONasBytes := modifiedItem.json
        match stub.PutState id itemJSONasBytes with
        | .error err => (shim.Error err, stub.ledger)
        | .ok ledger => (shim.Success itemJSONasBytes, ledger)

/-- Handler `modifyPrice`. -/
def modifyPrice (stub : Stub) (args : List Bytes) : Response × Ledger :=
  if args.length < 2 then
    (shim.Error (ascii "Incorrect number of arguments. Expecting 2 arguments."), stub.ledger)
  else if blank (args.getD 0 []) then
    (shim.Error (ascii "The Item ID must be a non-empty string."), stub.ledger)
  else if blank (args.getD 1 []) then
    (shim.Error (ascii "The Item price must be a non-empty string."), stub.ledger)
  else
    let id := args.getD 0 []
    let price := args.getD 1 []
    match stub.GetState id with
    | .error err => (shim.Error (ascii "Failed to get the Item: " ++ err), stub.ledger)
    | .ok none => (shim.Error (notFound id), stub.ledger)
    | .ok (some itemAsBytes) =>
      match Unmarshal itemAsBytes item.zero with
      | .error err => (shim.Error err.Error, stub.ledger)
      | .ok modifiedItem =>
        let modifiedItem := { modifiedItem with Price := price }
        let itemJSONasBytes := modifiedItem.json
        match stub.PutState id itemJSONasBytes with
        | .error err => (shim.Error err, stub.ledger)
        | .ok ledger => (shim.Success itemJSONasBytes, ledger)

/-- The loop of `history` over the entries the iterator yields: the array
members written to the buffer; `written` is `bArrayMemberAlreadyWritten`.
The rendering `time.Unix(seconds, nanos).String()` depends on the time zone of
the process and is the parameter `timeString`. -/
def historyLoop (timeString : Int → Int → Bytes) : Bool → List KeyModification → Bytes
  | _, [] => []
  | written, response :: more =>
    (if written then ascii "," else []) ++
    ascii "\x7b\"TxId\":" ++ ascii "\"" ++ response.TxId ++ ascii "\"" ++
    ascii ", \"Value\":" ++
    (if response.IsDelete then ascii "null" else response.Value) ++
    ascii ", \"Timestamp\":" ++ ascii "\"" ++
    timeString response.Timestamp.1 response.Timestamp.2 ++ ascii "\"" ++
    ascii ", \"IsDelete\":" ++ ascii "\"" ++
    (if response.IsDelete then ascii "true" else ascii "false") ++ ascii "\"" ++
    ascii "\x7d" ++ historyLoop timeString true more

/-- Handler `history`. -/
def history (timeString : Int → Int → Bytes) (stub : Stub) (args : List Bytes) :
    Response × Ledger :=
  if args.length ≠ 1 then
    (shim.Error (ascii "Incorrect number of arguments. Expecting the ID of the Item."),
      stub.ledger)
  else if blank (args.getD 0 []) then
    (shim.Error (ascii "The Item ID must be a non-empty string."), stub.ledger)
  else
    let id := args.getD 0 []
    match stub.GetHistoryForKey id with
    | .error err => (shim.Error err, stub.ledger)
    | .ok resultsIterator =>
      (shim.Success (ascii "[" ++ historyLoop timeString false resultsIterator ++ ascii "]"),
        stub.ledger)

/-- Method `Init`. -/
def Init (stub : Stub) : Response × Ledger := (shim.Success [], stub.ledger)

/-- Method `Invoke`, on the function name and the parameters
`stub.GetFunctionAndParameters()` returns. -/
def Invoke (timeString : Int → Int → Bytes) (stub : Stub) (function : Bytes)
    (args : List Bytes) : Response × Ledger :=
  if function = ascii "addItem" then addItem stub args
  else if function = ascii "modifyPrice" then modifyPrice stub args
  else if function = ascii "removeItem" then removeItem stub args
  else if function = ascii "queryItem" then queryItem stub args
  else if function = ascii "history" then history timeString stub args
  else (shim.Error (ascii "Received unknown function invocation"), stub.ledger)

/-! ## The end-to-end scenario -/

/-- The arguments of the `create` step of the scenario. -/
def widgetArgs : List Bytes :=
  [ascii "i1", ascii "Widget", ascii "A widget", ascii "9.99", ascii "ACTIVE"]

/-- The item that step stores. -/
def widget : item := ⟨ascii "i1", ascii "Widget", ascii "A widget", ascii "9.99", ascii "ACTIVE"⟩

/-- The ledger after that step on the empty ledger, in transaction `tx1`. -/
def widgetLedger : Ledger := (addItem ⟨ascii "tx1", (0, 0), Ledger.empty⟩ widgetArgs).2

/-! ## Predicates used in the proofs -/

/-- A run of bytes the string scanner passes over whole. -/
def ScanBody (l : Bytes) : Prop :=
  ∀ t, scanLiteral (l ++ t) = (scanLiteral t).map (fun p => (l ++ p.1, p.2))

/-- A run of bytes `unquoteBytes` turns into `out`. -/
def UnquoteBody (l out : Bytes) : Prop :=
  ∀ t, unquoteBytes (l ++ t) = (unquoteBytes t).map (out ++ ·)

/-- A key made of plain ASCII bytes: no quote, backslash or control byte. -/
def PlainKey (key : Bytes) : Prop :=
  ∀ c ∈ key, c ≠ 0x5C ∧ c ≠ 0x22 ∧ 0x20 ≤ c ∧ c < 0x80

instance (key : Bytes) : Decidable (PlainKey key) := by unfold PlainKey; infer_instance

/-- The string of a string kind is well-formed UTF-8. -/
def Kind.Valid (k : Kind) : Prop := ∀ s, k = Kind.str s → ValidUTF8 s


/-! ## Writes, runs of invocations and the history array -/

/-- Go's `stub.DelState`: the value under `key` is removed and a delete marker
becomes the head of its history.  No handler of the chaincode calls it. -/
def Stub.DelState (stub : Stub) (key : Bytes) : Except Bytes Ledger :=
  .ok { state := fun k => if k = key then none else stub.ledger.state k
        history := fun k =>
          if k = key then ⟨stub.TxID, [], stub.TxTimestamp, true⟩ :: stub.ledger.history k
          else stub.ledger.history k }

/-- The ledger after one write of `value` under `key` by the transaction
`tx` at time `ts`: what `PutState` commits. -/
def Ledger.put (l : Ledger) (tx : Bytes) (ts : Int × Int) (key value : Bytes) : Ledger :=
  { state := fun k => if k = key then some value else l.state k
    history := fun k =>
      if k = key then ⟨tx, value, ts, false⟩ :: l.history k else l.history k }

/-- One invocation of the chaincode: the transaction, the function name and
the parameters. -/
structure Call where
  TxID : Bytes
  TxTimestamp : Int × Int
  function : Bytes
  args : List Bytes

/-- The response to a call on the ledger `l` and the ledger after it. -/
def step (timeString : Int → Int → Bytes) (l : Ledger) (c : Call) : Response × Ledger :=
  Invoke timeString ⟨c.TxID, c.TxTimestamp, l⟩ c.function c.args

/-- The ledger after a sequence of calls, each committed before the next. -/
def run (timeString : Int → Int → Bytes) (l : Ledger) : List Call → Ledger
  | [] => l
  | c :: cs => run timeString (step timeString l c).2 cs

/-- The functions that write: `addItem`, `modifyPrice`, `removeItem`. -/
def isWrite (function : Bytes) : Bool :=
  function = ascii "addItem" || function = ascii "modifyPrice" || function = ascii "removeItem"

/-- The successful writes to `id` in a sequence of calls started on `l`, oldest
first: for each call of a writing function with first argument `id` that
succeeds, the transaction, the payload returned (the Record written) and the
time, with the delete flag off. -/
def writesTo (timeString : Int → Int → Bytes) (id : Bytes) (l : Ledger) :
    List Call → List KeyModification
  | [] => []
  | c :: cs =>
    (if isWrite c.function ∧ (step timeString l c).1.Status = 200 ∧ c.args.getD 0 [] = id then
      [⟨c.TxID, (step timeString l c).1.Payload, c.TxTimestamp, false⟩]
    else []) ++ writesTo timeString id (step timeString l c).2 cs

/-- A byte string between quotes, as it is. -/
def quoted (s : Bytes) : Bytes := ascii "\"" ++ s ++ ascii "\""

/-- The object of the history array for one entry, as the interface describes
it: the fields `TxId`, `Value`, `Timestamp`, `IsDelete` in this order; `Value`
is `null` for a delete marker and the value bytes otherwise, `IsDelete` the
quoted boolean. -/
def entryObject (timeString : Int → Int → Bytes) (e : KeyModification) : Bytes :=
  ascii "\x7b\"TxId\":" ++ quoted e.TxId ++
  ascii ", \"Value\":" ++ (if e.IsDelete then ascii "null" else e.Value) ++
  ascii ", \"Timestamp\":" ++ quoted (timeString e.Timestamp.1 e.Timestamp.2) ++
  ascii ", \"IsDelete\":" ++ quoted (if e.IsDelete then ascii "true" else ascii "false") ++
  ascii "\x7d"

/-- The history array for a list of entries: their objects in the order of the
list, separated by commas, between brackets. -/
def historyArray (timeString : Int → Int → Bytes) (es : List KeyModification) : Bytes :=
  ascii "[" ++ List.intercalate (ascii ",") (es.map (entryObject timeString)) ++ ascii "]"

/-- The record stored under `id` has the state `REMOVED`. -/
def Removed (l : Ledger) (id : Bytes) : Prop :=
  ∃ b r, l.state id = some b ∧ Unmarshal b item.zero = .ok r ∧ r.State = ascii "REMOVED"

/-- What a writing handler can do: fail and return the ledger as it was, or
succeed with the encoding of an item as payload and write it under `key`. -/
def WriteOutcome (stub : Stub) (key : Bytes) (out : Response × Ledger) : Prop :=
  (∃ msg, out = (shim.Error msg, stub.ledger)) ∨
  (∃ v : item, out = (shim.Success v.json,
    stub.ledger.put stub.TxID stub.TxTimestamp key v.json))

/-- The Go string `json.Unmarshal` reads back from the string literal that
`json.Marshal` writes for `s`: `s` itself when `s` is well-formed UTF-8, else
`s` with U+FFFD for every byte that is not part of a well-formed sequence. -/
def toValid (s : Bytes) : Bytes := (unquoteBytes (stringBody s)).getD []

/-- The item with every field read back through `json`. -/
def item.toValid (v : item) : item :=
  ⟨DemoChaincode.toValid v.Id, DemoChaincode.toValid v.Name,
    DemoChaincode.toValid v.Description, DemoChaincode.toValid v.Price,
    DemoChaincode.toValid v.State⟩

/-- The item a successful write stores, by handler: `addItem` stores its five
non-blank arguments when nothing is stored under the key; `modifyPrice` and
`removeItem` store the item `r` decoded from the value under the key, with the
price replaced by the non-blank second argument or with the state `REMOVED`. -/
def WriteKind (stub : Stub) (args : List Bytes) (v : item) : Prop :=
  (stub.ledger.state (args.getD 0 []) = none ∧
    ∃ a0 a1 a2 a3 a4, args = [a0, a1, a2, a3, a4] ∧ v = ⟨a0, a1, a2, a3, a4⟩ ∧
      blank a1 = false ∧ blank a2 = false ∧ blank a3 = false ∧ blank a4 = false) ∨
  (∃ b r, stub.ledger.state (args.getD 0 []) = some b ∧ Unmarshal b item.zero = .ok r ∧
    ((∃ p, p ∈ args ∧ blank p = false ∧ v = { r with Price := p }) ∨
      v = { r with State := ascii "REMOVED" }))

/-- Every value stored in the ledger decodes to an item whose id is its key and
whose five fields are non-blank. -/
def WellKept (l : Ledger) : Prop :=
  ∀ k b, l.state k = some b → ∃ r, Unmarshal b item.zero = .ok r ∧ r.Id = k ∧
    blank r.Id = false ∧ blank r.Name = false ∧ blank r.Description = false ∧
    blank r.Price = false ∧ blank r.State = false

/-- The three writes of the scenario. -/
def scenario : List Call :=
  [⟨ascii "tx1", (1, 0), ascii "addItem", widgetArgs⟩,
   ⟨ascii "tx2", (2, 0), ascii "modifyPrice", [ascii "i1", ascii "12.50"]⟩,
   ⟨ascii "tx3", (3, 0), ascii "removeItem", [ascii "i1"]⟩]

/-- A string of white-space runes only, read rune by rune from the left. -/
inductive AllSpace : Bytes → Prop
  | nil : AllSpace []
  | cons (s : Bytes) (hne : s ≠ []) (hsp : IsSpace (decodeRune s).1 = true)
      (hrest : AllSpace (s.drop (decodeRune s).2)) : AllSpace s

/-! ## The codec: UTF-8, string literals, `Unmarshal` after `Marshal` -/
theorem decodeSeq_size (n sz lo hi p0 b1 b2 b3 : Nat) (h : 1 ≤ n) (h2 : 2 ≤ sz) :
    1 ≤ (decodeSeq n sz lo hi p0 b1 b2 b3).2 ∧ (decodeSeq n sz lo hi p0 b1 b2 b3).2 ≤ n := by
  unfold decodeSeq
  split_ifs <;> simp <;> omega

theorem decodeRuneBytes_size (n p0 b1 b2 b3 : Nat) (h : 1 ≤ n) :
    1 ≤ (decodeRuneBytes n p0 b1 b2 b3).2 ∧ (decodeRuneBytes n p0 b1 b2 b3).2 ≤ n := by
  have key : ∀ (c : Prop) [Decidable c] (a b : Nat × Nat),
      (1 ≤ a.2 ∧ a.2 ≤ n) → (1 ≤ b.2 ∧ b.2 ≤ n) →
      (1 ≤ (if c then a else b).2 ∧ (if c then a else b).2 ≤ n) := by
    intro c _ a b ha hb
    by_cases hc : c
    · rw [if_pos hc]; exact ha
    · rw [if_neg hc]; exact hb
  have hs : ∀ sz lo hi, 2 ≤ sz → (1 ≤ (decodeSeq n sz lo hi p0 b1 b2 b3).2 ∧
      (decodeSeq n sz lo hi p0 b1 b2 b3).2 ≤ n) :=
    fun sz lo hi h2 => decodeSeq_size _ _ _ _ _ _ _ _ h h2
  have he : (1 ≤ ((RuneError, 1) : Nat × Nat).2 ∧ ((RuneError, 1) : Nat × Nat).2 ≤ n) := ⟨le_refl 1, h⟩
  rw [decodeRuneBytes, if_neg (by omega)]
  exact key _ _ _ ⟨le_refl 1, h⟩ <| key _ _ _ he <| key _ _ _ (hs _ _ _ (by omega)) <|
    key _ _ _ (hs _ _ _ (by omega)) <| key _ _ _ (hs _ _ _ (by omega)) <|
    key _ _ _ (hs _ _ _ (by omega)) <| key _ _ _ (hs _ _ _ (by omega)) <|
    key _ _ _ (hs _ _ _ (by omega)) <| key _ _ _ (hs _ _ _ (by omega)) he

theorem decodeRune_size_pos (c : Nat) (rest : Bytes) : 1 ≤ (decodeRune (c :: rest)).2 :=
  (decodeRuneBytes_size _ _ _ _ _ (by simp)).1

theorem decodeRune_size_le (s : Bytes) : (decodeRune s).2 ≤ s.length := by
  cases s with
  | nil => simp [decodeRune, decodeRuneBytes]
  | cons c rest => exact (decodeRuneBytes_size _ _ _ _ _ (by simp)).2

theorem decodeSeq_two (n lo hi p0 b1 b2 b3 : Nat) (hn : 2 ≤ n) (h1 : lo ≤ b1) (h2 : b1 ≤ hi) :
    decodeSeq n 2 lo hi p0 b1 b2 b3 = ((p0 - 0xC0) * 0x40 + (b1 - 0x80), 2) := by
  rw [decodeSeq, if_neg (by omega), if_neg (by omega), if_pos (by omega)]

theorem decodeSeq_three (n lo hi p0 b1 b2 b3 : Nat) (hn : 3 ≤ n) (h1 : lo ≤ b1) (h2 : b1 ≤ hi)
    (h3 : 0x80 ≤ b2) (h4 : b2 ≤ 0xBF) :
    decodeSeq n 3 lo hi p0 b1 b2 b3 =
      ((p0 - 0xE0) * 0x1000 + (b1 - 0x80) * 0x40 + (b2 - 0x80), 3) := by
  rw [decodeSeq, if_neg (by omega), if_neg (by omega), if_neg (by omega), if_neg (by omega),
    if_pos (by omega)]

theorem decodeSeq_four (n lo hi p0 b1 b2 b3 : Nat) (hn : 4 ≤ n) (h1 : lo ≤ b1) (h2 : b1 ≤ hi)
    (h3 : 0x80 ≤ b2) (h4 : b2 ≤ 0xBF) (h5 : 0x80 ≤ b3) (h6 : b3 ≤ 0xBF) :
    decodeSeq n 4 lo hi p0 b1 b2 b3 =
      ((p0 - 0xF0) * 0x40000 + (b1 - 0x80) * 0x1000 + (b2 - 0x80) * 0x40 + (b3 - 0x80), 4) := by
  rw [decodeSeq, if_neg (by omega), if_neg (by omega), if_neg (by omega), if_neg (by omega),
    if_neg (by omega), if_neg (by omega)]

theorem decodeRune_encodeRune (r : Nat) (h : isScalar r) (rest : Bytes) :
    decodeRune (encodeRune r ++ rest) = (r, (encodeRune r).length) := by
  unfold isScalar at h
  rw [encodeRune]
  by_cases h1 : r < 0x80
  · rw [if_pos h1]
    simp only [decodeRune, List.cons_append, List.nil_append, List.length_cons,
      List.getD_cons_zero, List.length_nil]
    rw [decodeRuneBytes, if_neg (by omega), if_pos h1]
  rw [if_neg h1]
  by_cases h2 : r < 0x800
  · rw [if_pos h2]
    simp only [decodeRune, List.cons_append, List.nil_append, List.length_cons,
      List.getD_cons_zero, List.getD_cons_succ, List.length_nil]
    rw [decodeRuneBytes, if_neg (by omega), if_neg (by omega), if_neg (by omega),
      if_pos (by omega), decodeSeq_two _ _ _ _ _ _ _ (by omega) (by omega) (by omega)]
    simp only [Prod.mk.injEq, and_true]
    omega
  rw [if_neg h2, if_neg (by omega)]
  by_cases h3 : r < 0x10000
  · rw [if_pos h3]
    simp only [decodeRune, List.cons_append, List.nil_append, List.length_cons,
      List.getD_cons_zero, List.getD_cons_succ, List.length_nil]
    rw [decodeRuneBytes, if_neg (by omega), if_neg (by omega), if_neg (by omega),
      if_neg (by omega)]
    by_cases c1 : 0xE0 + r / 0x1000 = 0xE0
    · rw [if_pos c1, decodeSeq_three _ _ _ _ _ _ _ (by omega) (by omega) (by omega) (by omega)
        (by omega)]
      simp only [Prod.mk.injEq, and_true]
      omega
    rw [if_neg c1]
    by_cases c2 : 0xE0 + r / 0x1000 = 0xED
    · rw [if_pos c2, decodeSeq_three _ _ _ _ _ _ _ (by omega) (by omega) (by omega) (by omega)
        (by omega)]
      simp only [Prod.mk.injEq, and_true]
      omega
    rw [if_neg c2, if_pos (by omega), decodeSeq_three _ _ _ _ _ _ _ (by omega) (by omega)
      (by omega) (by omega) (by omega)]
    simp only [Prod.mk.injEq, and_true]
    omega
  rw [if_neg h3]
  simp only [decodeRune, List.cons_append, List.nil_append, List.length_cons,
    List.getD_cons_zero, List.getD_cons_succ, List.length_nil]
  rw [decodeRuneBytes, if_neg (by omega), if_neg (by omega), if_neg (by omega),
    if_neg (by omega), if_neg (by omega), if_neg (by omega), if_neg (by omega)]
  by_cases c1 : 0xF0 + r / 0x40000 = 0xF0
  · rw [if_pos c1, decodeSeq_four _ _ _ _ _ _ _ (by omega) (by omega) (by omega) (by omega)
      (by omega) (by omega) (by omega)]
    simp only [Prod.mk.injEq, and_true]
    omega
  rw [if_neg c1]
  by_cases c2 : 0xF0 + r / 0x40000 < 0xF4
  · rw [if_pos c2, decodeSeq_four _ _ _ _ _ _ _ (by omega) (by omega) (by omega) (by omega)
      (by omega) (by omega) (by omega)]
    simp only [Prod.mk.injEq, and_true]
    omega
  rw [if_neg c2, if_pos (by omega), decodeSeq_four _ _ _ _ _ _ _ (by omega) (by omega)
    (by omega) (by omega) (by omega) (by omega) (by omega)]
  simp only [Prod.mk.injEq, and_true]
  omega

theorem appendString_fuel : ∀ (n m : Nat) (s : Bytes), s.length ≤ n → s.length ≤ m →
    appendString n s = appendString m s := by
  intro n
  induction n with
  | zero =>
    intro m s h1 _
    have : s = [] := List.length_eq_zero.mp (by omega)
    subst this
    cases m <;> rfl
  | succ n ih =>
    intro m s h1 h2
    cases s with
    | nil => cases m <;> rfl
    | cons b rest =>
      cases m with
      | zero => simp at h2
      | succ m =>
        simp only [List.length_cons, Nat.add_le_add_iff_right] at h1 h2
        have hp := decodeRune_size_pos b rest
        have hd : ((b :: rest).drop (decodeRune (b :: rest)).2).length ≤ rest.length := by
          simp only [List.length_drop, List.length_cons]; omega
        simp only [appendString]
        rw [ih m rest h1 h2, ih m _ (le_trans hd h1) (le_trans hd h2)]

theorem unquoteU_length (s out rest1 : Bytes) (h : unquoteU s = some (out, rest1)) :
    rest1.length + 6 ≤ s.length := by
  rw [unquoteU] at h
  cases hg : getu4 s with
  | none => rw [hg] at h; exact absurd h (by simp)
  | some rr =>
    have hlen : 6 ≤ s.length := by
      rw [getu4] at hg
      by_cases hc : s.length < 6 ∨ s.getD 0 0 ≠ 0x5C ∨ s.getD 1 0 ≠ 0x75
      · rw [if_pos hc] at hg; exact absurd hg (by simp)
      · omega
    rw [hg] at h
    simp only at h
    by_cases h1 : 0xD800 ≤ rr ∧ rr < 0xE000
    · rw [if_pos h1] at h
      by_cases h2 : utf16DecodeRune rr (getu4 (s.drop 6)) ≠ RuneError
      · rw [if_pos h2] at h
        simp only [Option.some.injEq, Prod.mk.injEq] at h
        obtain ⟨_, rfl⟩ := h
        simp only [List.length_drop]; omega
      · rw [if_neg h2] at h
        simp only [Option.some.injEq, Prod.mk.injEq] at h
        obtain ⟨_, rfl⟩ := h
        simp only [List.length_drop]; omega
    · rw [if_neg h1] at h
      simp only [Option.some.injEq, Prod.mk.injEq] at h
      obtain ⟨_, rfl⟩ := h
      simp only [List.length_drop]; omega

theorem unquoteStep_length (c : Nat) (rest out rest1 : Bytes)
    (h : unquoteStep c rest = some (out, rest1)) : rest1.length ≤ rest.length := by
  rw [unquoteStep] at h
  have hp := decodeRune_size_pos c rest
  by_cases h1 : c = 0x5C
  · rw [if_pos h1] at h
    by_cases h2 : rest.length < 1
    · rw [if_pos h2] at h; exact absurd h (by simp)
    rw [if_neg h2] at h
    by_cases h3 : rest.getD 0 0 = 0x75
    · rw [if_pos h3] at h
      have := unquoteU_length _ _ _ h
      simp only [List.length_cons] at this
      omega
    rw [if_neg h3] at h
    cases he : escapeChar (rest.getD 0 0) with
    | none => rw [he] at h; exact absurd h (by simp)
    | some b =>
      rw [he] at h
      simp only [Option.map_some', Option.some.injEq, Prod.mk.injEq] at h
      obtain ⟨_, rfl⟩ := h
      simp
  rw [if_neg h1] at h
  by_cases h2 : c = 0x22 ∨ c < 0x20
  · rw [if_pos h2] at h; exact absurd h (by simp)
  rw [if_neg h2] at h
  by_cases h3 : c < 0x80
  · rw [if_pos h3] at h
    simp only [Option.some.injEq, Prod.mk.injEq] at h
    obtain ⟨_, rfl⟩ := h
    exact le_refl _
  rw [if_neg h3] at h
  simp only [Option.some.injEq, Prod.mk.injEq] at h
  obtain ⟨_, rfl⟩ := h
  simp only [List.length_drop, List.length_cons]
  omega

theorem unquote_fuel : ∀ (n m : Nat) (s : Bytes), s.length ≤ n → s.length ≤ m →
    unquote n s = unquote m s := by
  intro n
  induction n with
  | zero =>
    intro m s h1 _
    have : s = [] := List.length_eq_zero.mp (by omega)
    subst this
    cases m <;> rfl
  | succ n ih =>
    intro m s h1 h2
    cases s with
    | nil => cases m <;> rfl
    | cons c rest =>
      cases m with
      | zero => simp at h2
      | succ m =>
        simp only [List.length_cons, Nat.add_le_add_iff_right] at h1 h2
        simp only [unquote]
        cases hstep : unquoteStep c rest with
        | none => rfl
        | some p =>
          obtain ⟨out, rest1⟩ := p
          have hl := unquoteStep_length c rest out rest1 hstep
          simp only
          rw [ih m rest1 (le_trans hl h1) (le_trans hl h2)]

theorem stringUnit_pos (c k : Nat) (rest : Bytes) (h : stringUnit c rest = some k) : 1 ≤ k := by
  rw [stringUnit] at h
  by_cases h1 : c = 0x5C
  · rw [if_pos h1] at h
    by_cases h2 : rest.length < 1
    · rw [if_pos h2] at h; exact absurd h (by simp)
    rw [if_neg h2] at h
    by_cases h3 : isEscape (rest.getD 0 0) = true
    · rw [if_pos h3] at h
      simp only [Option.some.injEq] at h; omega
    rw [if_neg h3] at h
    split at h
    · simp only [Option.some.injEq] at h; omega
    · exact absurd h (by simp)
  rw [if_neg h1] at h
  by_cases h2 : c < 0x20
  · rw [if_pos h2] at h; exact absurd h (by simp)
  rw [if_neg h2] at h
  simp only [Option.some.injEq] at h; omega

theorem scanString_fuel : ∀ (n m : Nat) (s : Bytes), s.length ≤ n → s.length ≤ m →
    scanString n s = scanString m s := by
  intro n
  induction n with
  | zero =>
    intro m s h1 _
    have : s = [] := List.length_eq_zero.mp (by omega)
    subst this
    cases m <;> rfl
  | succ n ih =>
    intro m s h1 h2
    cases s with
    | nil => cases m <;> rfl
    | cons c rest =>
      cases m with
      | zero => simp at h2
      | succ m =>
        simp only [List.length_cons, Nat.add_le_add_iff_right] at h1 h2
        simp only [scanString]
        cases hstep : stringUnit c rest with
        | none => rfl
        | some k =>
          have hk := stringUnit_pos c k rest hstep
          have hl : ((c :: rest).drop k).length ≤ rest.length := by
            simp only [List.length_drop, List.length_cons]; omega
          simp only
          rw [ih m _ (le_trans hl h1) (le_trans hl h2)]

theorem hex_isHex (x : Nat) (h : x < 16) : isHex (hex x) = true := by
  interval_cases x <;> decide

theorem hexVal_hex (x : Nat) (h : x < 16) : hexVal (hex x) = x := by
  interval_cases x <;> decide

theorem getu4_cons (h1 h2 h3 h4 : Nat) (t : Bytes) (e1 : isHex h1 = true) (e2 : isHex h2 = true)
    (e3 : isHex h3 = true) (e4 : isHex h4 = true) :
    getu4 (0x5C :: 0x75 :: h1 :: h2 :: h3 :: h4 :: t) =
      some (((hexVal h1 * 16 + hexVal h2) * 16 + hexVal h3) * 16 + hexVal h4) := by
  rw [getu4, if_neg (by simp), if_pos (by simp [e1, e2, e3, e4])]
  simp

theorem unquoteStep_hex (h1 h2 h3 h4 : Nat) (t : Bytes) (e1 : isHex h1 = true)
    (e2 : isHex h2 = true) (e3 : isHex h3 = true) (e4 : isHex h4 = true)
    (hv : ¬ (0xD800 ≤ ((hexVal h1 * 16 + hexVal h2) * 16 + hexVal h3) * 16 + hexVal h4 ∧
      ((hexVal h1 * 16 + hexVal h2) * 16 + hexVal h3) * 16 + hexVal h4 < 0xE000)) :
    unquoteStep 0x5C (0x75 :: h1 :: h2 :: h3 :: h4 :: t) =
      some (encodeRune (((hexVal h1 * 16 + hexVal h2) * 16 + hexVal h3) * 16 + hexVal h4), t) := by
  rw [unquoteStep, if_pos rfl, if_neg (by simp), if_pos (by simp), unquoteU,
    getu4_cons _ _ _ _ _ e1 e2 e3 e4]
  simp only
  rw [if_neg hv]
  simp

theorem unquoteStep_escape (e b : Nat) (t : Bytes) (he : e ≠ 0x75) (hb : escapeChar e = some b) :
    unquoteStep 0x5C (e :: t) = some ([b], t) := by
  rw [unquoteStep, if_pos rfl, if_neg (by simp), if_neg (by simpa using he)]
  simp [hb]

theorem unquoteStep_ascii (c : Nat) (t : Bytes) (h1 : c ≠ 0x5C) (h2 : c ≠ 0x22) (h3 : 0x20 ≤ c)
    (h4 : c < 0x80) : unquoteStep c t = some ([c], t) := by
  rw [unquoteStep, if_neg h1, if_neg (by omega), if_pos h4]

theorem scanString_plain (c n : Nat) (t : Bytes) (h1 : c ≠ 0x5C) (h2 : c ≠ 0x22) (h3 : 0x20 ≤ c) :
    scanString (n + 1) (c :: t) = (scanString n t).map (fun p => (c :: p.1, p.2)) := by
  rw [scanString, if_neg h2, stringUnit, if_neg h1, if_neg (by omega)]
  simp

theorem scanString_escape (e n : Nat) (t : Bytes) (he : isEscape e = true) :
    scanString (n + 1) (0x5C :: e :: t) =
      (scanString n t).map (fun p => (0x5C :: e :: p.1, p.2)) := by
  rw [scanString, if_neg (by decide), stringUnit, if_pos rfl, if_neg (by simp),
    if_pos (by simpa using he)]
  simp

theorem scanString_hex (h1 h2 h3 h4 n : Nat) (t : Bytes) (e1 : isHex h1 = true)
    (e2 : isHex h2 = true) (e3 : isHex h3 = true) (e4 : isHex h4 = true) :
    scanString (n + 1) (0x5C :: 0x75 :: h1 :: h2 :: h3 :: h4 :: t) =
      (scanString n t).map (fun p => (0x5C :: 0x75 :: h1 :: h2 :: h3 :: h4 :: p.1, p.2)) := by
  rw [scanString, if_neg (by decide), stringUnit, if_pos rfl, if_neg (by simp),
    if_neg (by simp [isEscape]), if_pos (by simp [e1, e2, e3, e4])]
  simp

theorem scanBody_nil : ScanBody [] := by
  intro t; simp

theorem scanBody_append {l1 l2 : Bytes} (h1 : ScanBody l1) (h2 : ScanBody l2) :
    ScanBody (l1 ++ l2) := by
  intro t
  rw [List.append_assoc, h1, h2]
  cases scanLiteral t <;> simp

theorem scanBody_plain (c : Nat) (h1 : c ≠ 0x5C) (h2 : c ≠ 0x22) (h3 : 0x20 ≤ c) :
    ScanBody [c] := by
  intro t
  simp only [scanLiteral, List.singleton_append, List.length_cons]
  rw [scanString_plain c _ t h1 h2 h3]

theorem scanBody_escape (e : Nat) (he : isEscape e = true) : ScanBody [0x5C, e] := by
  intro t
  simp only [scanLiteral, List.cons_append, List.nil_append, List.length_cons]
  rw [scanString_escape e _ t he, scanString_fuel (t.length + 1) t.length t (by omega) le_rfl]

theorem scanBody_hex (h1 h2 h3 h4 : Nat) (e1 : isHex h1 = true) (e2 : isHex h2 = true)
    (e3 : isHex h3 = true) (e4 : isHex h4 = true) : ScanBody [0x5C, 0x75, h1, h2, h3, h4] := by
  intro t
  simp only [scanLiteral, List.cons_append, List.nil_append, List.length_cons]
  rw [scanString_hex h1 h2 h3 h4 _ t e1 e2 e3 e4,
    scanString_fuel (t.length + 1 + 1 + 1 + 1 + 1) t.length t (by omega) le_rfl]

theorem scanBody_all_plain (l : Bytes) (h : ∀ c ∈ l, c ≠ 0x5C ∧ c ≠ 0x22 ∧ 0x20 ≤ c) :
    ScanBody l := by
  induction l with
  | nil => exact scanBody_nil
  | cons c l ih =>
    have hc := h c (by simp)
    have := scanBody_append (scanBody_plain c hc.1 hc.2.1 hc.2.2)
      (ih (fun x hx => h x (by simp [hx])))
    simpa using this

theorem scanLiteral_quote (t : Bytes) : scanLiteral (0x22 :: t) = some ([], t) := by
  simp only [scanLiteral, List.length_cons]
  rw [scanString, if_pos rfl]

theorem scanBody_closed {l : Bytes} (h : ScanBody l) (t : Bytes) :
    scanLiteral (l ++ 0x22 :: t) = some (l, t) := by
  rw [h, scanLiteral_quote]; simp

theorem unquoteBody_nil : UnquoteBody [] [] := by
  intro t
  rw [List.nil_append]
  cases unquoteBytes t <;> simp

theorem unquoteBody_append {l1 l2 o1 o2 : Bytes} (h1 : UnquoteBody l1 o1)
    (h2 : UnquoteBody l2 o2) : UnquoteBody (l1 ++ l2) (o1 ++ o2) := by
  intro t
  rw [List.append_assoc, h1, h2]
  cases unquoteBytes t <;> simp

theorem unquoteBody_step (c : Nat) (tl out : Bytes)
    (h : ∀ t, unquoteStep c (tl ++ t) = some (out, t)) : UnquoteBody (c :: tl) out := by
  intro t
  simp only [unquoteBytes, List.cons_append, List.length_cons]
  rw [unquote, h t]
  simp only
  rw [unquote_fuel (tl ++ t).length t.length t (by simp) le_rfl]

theorem unquoteBody_closed {l out : Bytes} (h : UnquoteBody l out) : unquoteBytes l = some out := by
  have := h []
  simpa [unquoteBytes, unquote] using this

theorem encodeRune_high (r : Nat) (h : 0x80 ≤ r) :
    (∀ b ∈ encodeRune r, 0x80 ≤ b) ∧ 2 ≤ (encodeRune r).length := by
  rw [encodeRune, if_neg (by omega)]
  by_cases h2 : r < 0x800
  · rw [if_pos h2]
    refine ⟨?_, by simp⟩
    intro b hb
    simp only [List.mem_cons, List.mem_singleton, List.not_mem_nil, or_false] at hb
    omega
  rw [if_neg h2]
  by_cases h3 : 0x10FFFF < r ∨ (0xD800 ≤ r ∧ r ≤ 0xDFFF)
  · rw [if_pos h3]
    refine ⟨?_, by simp⟩
    intro b hb
    simp only [List.mem_cons, List.mem_singleton, List.not_mem_nil, or_false] at hb
    omega
  rw [if_neg h3]
  by_cases h4 : r < 0x10000
  · rw [if_pos h4]
    refine ⟨?_, by simp⟩
    intro b hb
    simp only [List.mem_cons, List.mem_singleton, List.not_mem_nil, or_false] at hb
    omega
  rw [if_neg h4]
  refine ⟨?_, by simp⟩
  intro b hb
  simp only [List.mem_cons, List.mem_singleton, List.not_mem_nil, or_false] at hb
  omega

theorem scanBody_encodeRune (r : Nat) (h : 0x80 ≤ r) : ScanBody (encodeRune r) :=
  scanBody_all_plain _ (fun c hc => by
    have := (encodeRune_high r h).1 c hc
    omega)

theorem scanBody_escapeByte (b : Nat) (hb : b < 0x80) : ScanBody (escapeByte b) := by
  rw [escapeByte]
  by_cases h1 : b = 0x5C ∨ b = 0x22
  · rw [if_pos h1]
    exact scanBody_escape b (by rcases h1 with rfl | rfl <;> decide)
  rw [if_neg h1]
  by_cases h5 : b = 0x08
  · rw [if_pos h5]; exact scanBody_escape _ (by decide)
  rw [if_neg h5]
  by_cases h6 : b = 0x0C
  · rw [if_pos h6]; exact scanBody_escape _ (by decide)
  rw [if_neg h6]
  by_cases h2 : b = 0x0A
  · rw [if_pos h2]; exact scanBody_escape _ (by decide)
  rw [if_neg h2]
  by_cases h3 : b = 0x0D
  · rw [if_pos h3]; exact scanBody_escape _ (by decide)
  rw [if_neg h3]
  by_cases h4 : b = 0x09
  · rw [if_pos h4]; exact scanBody_escape _ (by decide)
  rw [if_neg h4]
  exact scanBody_hex _ _ _ _ (by decide) (by decide) (hex_isHex _ (by omega))
    (hex_isHex _ (by omega))

theorem scanBody_runeBody (r : Nat) : ScanBody (runeBody r) := by
  rw [runeBody]
  by_cases h1 : r < 0x80
  · rw [if_pos h1]
    by_cases h2 : htmlSafeSet r = true
    · rw [if_pos h2]
      simp only [htmlSafeSet, Bool.and_eq_true, decide_eq_true_eq, Bool.not_eq_true',
        Bool.or_eq_false_iff, decide_eq_false_iff_not] at h2
      exact scanBody_plain r (by omega) (by omega) (by omega)
    · rw [if_neg h2]; exact scanBody_escapeByte r h1
  rw [if_neg h1]
  by_cases h2 : r = 0x2028 ∨ r = 0x2029
  · rw [if_pos h2]
    exact scanBody_hex _ _ _ _ (by decide) (by decide) (by decide) (hex_isHex _ (by omega))
  rw [if_neg h2]
  exact scanBody_encodeRune r (by omega)

theorem encodeRune_ascii (r : Nat) (h : r < 0x80) : encodeRune r = [r] := by
  rw [encodeRune, if_pos h]

theorem unquoteBody_escapeByte (b : Nat) (hb : b < 0x80) (hs : htmlSafeSet b = false) :
    UnquoteBody (escapeByte b) [b] := by
  rw [escapeByte]
  by_cases h1 : b = 0x5C ∨ b = 0x22
  · rw [if_pos h1]
    refine unquoteBody_step _ _ _ (fun t => ?_)
    exact unquoteStep_escape b b t (by omega) (by rcases h1 with rfl | rfl <;> decide)
  rw [if_neg h1]
  by_cases h5 : b = 0x08
  · rw [if_pos h5]; subst h5
    exact unquoteBody_step _ _ _ (fun t => unquoteStep_escape _ _ t (by decide) (by decide))
  rw [if_neg h5]
  by_cases h6 : b = 0x0C
  · rw [if_pos h6]; subst h6
    exact unquoteBody_step _ _ _ (fun t => unquoteStep_escape _ _ t (by decide) (by decide))
  rw [if_neg h6]
  by_cases h2 : b = 0x0A
  · rw [if_pos h2]; subst h2
    exact unquoteBody_step _ _ _ (fun t => unquoteStep_escape _ _ t (by decide) (by decide))
  rw [if_neg h2]
  by_cases h3 : b = 0x0D
  · rw [if_pos h3]; subst h3
    exact unquoteBody_step _ _ _ (fun t => unquoteStep_escape _ _ t (by decide) (by decide))
  rw [if_neg h3]
  by_cases h4 : b = 0x09
  · rw [if_pos h4]; subst h4
    exact unquoteBody_step _ _ _ (fun t => unquoteStep_escape _ _ t (by decide) (by decide))
  rw [if_neg h4]
  refine unquoteBody_step _ _ _ (fun t => ?_)
  have e3 := hex_isHex (b / 16) (by omega)
  have e4 := hex_isHex (b % 16) (by omega)
  have v3 := hexVal_hex (b / 16) (by omega)
  have v4 := hexVal_hex (b % 16) (by omega)
  have v0 : hexVal 0x30 = 0 := by decide
  have hv : ((hexVal 0x30 * 16 + hexVal 0x30) * 16 + hexVal (hex (b / 16))) * 16 +
      hexVal (hex (b % 16)) = b := by
    rw [v0, v3, v4]; omega
  have := unquoteStep_hex 0x30 0x30 (hex (b / 16)) (hex (b % 16)) t (by decide) (by decide) e3 e4
    (by rw [hv]; omega)
  rw [hv, encodeRune_ascii b hb] at this
  simpa using this

theorem unquoteBody_runeBody (r : Nat) (hr : isScalar r) :
    UnquoteBody (runeBody r) (encodeRune r) := by
  rw [runeBody]
  by_cases h1 : r < 0x80
  · rw [if_pos h1, encodeRune_ascii r h1]
    by_cases h2 : htmlSafeSet r = true
    · rw [if_pos h2]
      simp only [htmlSafeSet, Bool.and_eq_true, decide_eq_true_eq, Bool.not_eq_true',
        Bool.or_eq_false_iff, decide_eq_false_iff_not] at h2
      exact unquoteBody_step _ _ _
        (fun t => unquoteStep_ascii r t (by omega) (by omega) (by omega) h1)
    · rw [if_neg h2]; exact unquoteBody_escapeByte r h1 (by simpa using h2)
  rw [if_neg h1]
  by_cases h2 : r = 0x2028 ∨ r = 0x2029
  · rw [if_pos h2]
    refine unquoteBody_step _ _ _ (fun t => ?_)
    rcases h2 with rfl | rfl
    · have := unquoteStep_hex 0x32 0x30 0x32 0x38 t (by decide) (by decide) (by decide)
        (by decide) (by decide)
      simpa using this
    · have := unquoteStep_hex 0x32 0x30 0x32 0x39 t (by decide) (by decide) (by decide)
        (by decide) (by decide)
      simpa using this
  rw [if_neg h2]
  have hh := encodeRune_high r (by omega)
  cases he : encodeRune r with
  | nil => rw [he] at hh; simp at hh
  | cons c tl =>
    refine unquoteBody_step _ _ _ (fun t => ?_)
    have hc : 0x80 ≤ c := hh.1 c (by rw [he]; simp)
    have hd := decodeRune_encodeRune r hr t
    rw [he] at hd
    simp only [List.cons_append] at hd
    rw [unquoteStep, if_neg (by omega), if_neg (by omega), if_neg (by omega), hd]
    simp [he]

theorem stringBody_encodeRune (r : Nat) (hr : isScalar r) (rest : Bytes) :
    stringBody (encodeRune r ++ rest) = runeBody r ++ stringBody rest := by
  rw [runeBody]
  by_cases h1 : r < 0x80
  · rw [if_pos h1, encodeRune_ascii r h1]
    simp only [stringBody, List.singleton_append, List.length_cons]
    rw [appendString, if_pos h1]
    by_cases h2 : htmlSafeSet r = true
    · rw [if_pos h2, if_pos h2]; rfl
    · rw [if_neg h2, if_neg h2]
  rw [if_neg h1]
  have hh := encodeRune_high r (by omega)
  have hd := decodeRune_encodeRune r hr rest
  cases he : encodeRune r with
  | nil => rw [he] at hh; simp at hh
  | cons c tl =>
    have hc : 0x80 ≤ c := hh.1 c (by rw [he]; simp)
    rw [he] at hd hh
    simp only [List.cons_append] at hd
    simp only [stringBody, List.cons_append, List.length_cons]
    rw [appendString, if_neg (by omega)]
    simp only [hd]
    rw [if_neg (by simp only [List.length_cons] at hh ⊢; omega)]
    have hf : appendString (tl ++ rest).length (List.drop (tl.length + 1) (c :: (tl ++ rest))) =
        appendString rest.length rest := by
      have : List.drop (tl.length + 1) (c :: (tl ++ rest)) = rest := by simp
      rw [this]
      exact appendString_fuel _ _ _ (by simp) le_rfl
    have ht : List.take (tl.length + 1) (c :: (tl ++ rest)) = c :: tl := by simp
    simp only [List.length_cons] at hf ht ⊢
    rw [hf, ht]
    by_cases h2 : r = 0x2028 ∨ r = 0x2029
    · rw [if_pos h2, if_pos h2]
    · rw [if_neg h2, if_neg h2]

theorem stringBody_nil : stringBody [] = [] := rfl

theorem stringBody_flatMap (rs : List Nat) (h : ∀ r ∈ rs, isScalar r) :
    stringBody (rs.flatMap encodeRune) = rs.flatMap runeBody := by
  induction rs with
  | nil => rfl
  | cons r rs ih =>
    simp only [List.flatMap_cons]
    rw [stringBody_encodeRune r (h r (by simp)), ih (fun x hx => h x (by simp [hx]))]

theorem scanBody_flatMap (rs : List Nat) : ScanBody (rs.flatMap runeBody) := by
  induction rs with
  | nil => exact scanBody_nil
  | cons r rs ih =>
    simp only [List.flatMap_cons]
    exact scanBody_append (scanBody_runeBody r) ih

theorem unquoteBody_flatMap (rs : List Nat) (h : ∀ r ∈ rs, isScalar r) :
    UnquoteBody (rs.flatMap runeBody) (rs.flatMap encodeRune) := by
  induction rs with
  | nil => exact unquoteBody_nil
  | cons r rs ih =>
    simp only [List.flatMap_cons]
    exact unquoteBody_append (unquoteBody_runeBody r (h r (by simp)))
      (ih (fun x hx => h x (by simp [hx])))

/-- The string scanner reads the literal written for a well-formed string up
to its closing quote. -/
theorem scanLiteral_stringBody (s t : Bytes) (h : ValidUTF8 s) :
    scanLiteral (stringBody s ++ 0x22 :: t) = some (stringBody s, t) := by
  obtain ⟨rs, hrs, rfl⟩ := h
  rw [stringBody_flatMap rs hrs]
  exact scanBody_closed (scanBody_flatMap rs) t

/-- Unquoting the literal written for a well-formed string gives the string
back. -/
theorem unquoteBytes_stringBody (s : Bytes) (h : ValidUTF8 s) :
    unquoteBytes (stringBody s) = some s := by
  obtain ⟨rs, hrs, rfl⟩ := h
  rw [stringBody_flatMap rs hrs]
  exact unquoteBody_closed (unquoteBody_flatMap rs hrs)

theorem unquoteBody_plain (l : Bytes) (h : PlainKey l) : UnquoteBody l l := by
  induction l with
  | nil => exact unquoteBody_nil
  | cons c l ih =>
    have hc := h c (by simp)
    have h1 : UnquoteBody [c] [c] :=
      unquoteBody_step c [] [c] (fun t => unquoteStep_ascii c t hc.1 hc.2.1 hc.2.2.1 hc.2.2.2)
    have := unquoteBody_append h1 (ih (fun x hx => h x (by simp [hx])))
    simpa using this

theorem skipSpace_cons (c : Nat) (t : Bytes) (h : isJSONSpace c = false) :
    skipSpace (c :: t) = c :: t := by
  rw [skipSpace, h]; rfl

theorem scanValue_quote (s t : Bytes) (n depth : Nat) (h : ValidUTF8 s) :
    scanValue (n + 1) depth (0x22 :: (stringBody s ++ 0x22 :: t)) = some (Kind.str s, t) := by
  rw [scanValue, if_pos rfl, scanLiteral_stringBody s t h]
  simp only
  rw [unquoteBytes_stringBody s h]
  rfl

theorem scanMembers_key (key s more : Bytes) (n depth : Nat) (hk : PlainKey key)
    (hs : ValidUTF8 s) :
    scanMembers (n + 2) depth
        (0x22 :: (key ++ 0x22 :: 0x3A :: 0x22 :: (stringBody s ++ 0x22 :: 0x2C :: 0x22 :: more))) =
      (scanMembers (n + 1) depth (0x22 :: more)).map (fun p => ((key, Kind.str s) :: p.1, p.2)) := by
  rw [scanMembers, if_neg (by simp),
    scanBody_closed (scanBody_all_plain key (fun c hc => ⟨(hk c hc).1, (hk c hc).2.1, (hk c hc).2.2.1⟩))]
  simp only
  rw [unquoteBody_closed (unquoteBody_plain key hk)]
  simp only
  rw [skipSpace_cons _ _ (by decide)]
  simp only
  rw [if_neg (by simp), skipSpace_cons _ _ (by decide), scanValue_quote s _ n depth hs]
  simp only
  rw [skipSpace_cons _ _ (by decide)]
  simp only [if_true]
  rw [skipSpace_cons _ _ (by decide)]

theorem scanMembers_last (key s more : Bytes) (n depth : Nat) (hk : PlainKey key)
    (hs : ValidUTF8 s) :
    scanMembers (n + 2) depth
        (0x22 :: (key ++ 0x22 :: 0x3A :: 0x22 :: (stringBody s ++ 0x22 :: 0x7D :: more))) =
      some ([(key, Kind.str s)], more) := by
  rw [scanMembers, if_neg (by simp),
    scanBody_closed (scanBody_all_plain key (fun c hc => ⟨(hk c hc).1, (hk c hc).2.1, (hk c hc).2.2.1⟩))]
  simp only
  rw [unquoteBody_closed (unquoteBody_plain key hk)]
  simp only
  rw [skipSpace_cons _ _ (by decide)]
  simp only
  rw [if_neg (by simp), skipSpace_cons _ _ (by decide), scanValue_quote s _ n depth hs]
  simp only
  rw [skipSpace_cons _ _ (by decide)]
  simp

theorem Marshal_ok (v : item) : Marshal v = .ok v.json := rfl

theorem json_eq (v : item) : v.json =
    0x7B :: 0x22 :: ([0x69, 0x64] ++ 0x22 :: 0x3A :: 0x22 :: (stringBody v.Id ++ 0x22 :: 0x2C ::
    0x22 :: ([0x6E, 0x61, 0x6D, 0x65] ++ 0x22 :: 0x3A :: 0x22 :: (stringBody v.Name ++ 0x22 :: 0x2C ::
    0x22 :: ([0x64, 0x65, 0x73, 0x63, 0x72, 0x69, 0x70, 0x74, 0x69, 0x6F, 0x6E] ++ 0x22 :: 0x3A ::
      0x22 :: (stringBody v.Description ++ 0x22 :: 0x2C ::
    0x22 :: ([0x70, 0x72, 0x69, 0x63, 0x65] ++ 0x22 :: 0x3A :: 0x22 :: (stringBody v.Price ++
      0x22 :: 0x2C ::
    0x22 :: ([0x73, 0x74, 0x61, 0x74, 0x65] ++ 0x22 :: 0x3A :: 0x22 :: (stringBody v.State ++
      0x22 :: 0x7D :: [])))))))))) := by
  have e1 : ascii "\x7b\"id\":" = [0x7B, 0x22, 0x69, 0x64, 0x22, 0x3A] := by decide
  have e2 : ascii ",\"name\":" = [0x2C, 0x22, 0x6E, 0x61, 0x6D, 0x65, 0x22, 0x3A] := by decide
  have e3 : ascii ",\"description\":" =
      [0x2C, 0x22, 0x64, 0x65, 0x73, 0x63, 0x72, 0x69, 0x70, 0x74, 0x69, 0x6F, 0x6E, 0x22, 0x3A] := by
    decide
  have e4 : ascii ",\"price\":" = [0x2C, 0x22, 0x70, 0x72, 0x69, 0x63, 0x65, 0x22, 0x3A] := by
    decide
  have e5 : ascii ",\"state\":" = [0x2C, 0x22, 0x73, 0x74, 0x61, 0x74, 0x65, 0x22, 0x3A] := by
    decide
  have e6 : ascii "\x7d" = [0x7D] := by decide
  simp only [item.json, Marshal, e1, e2, e3, e4, e5, e6, quote, Except.toOption, Option.getD,
    List.append_assoc, List.cons_append, List.nil_append]

theorem scanMembers_json (v : item) (n : Nat) (hv : v.Valid) :
    scanMembers (n + 6) 1 (v.json.drop 1) =
      some ([([0x69, 0x64], Kind.str v.Id), ([0x6E, 0x61, 0x6D, 0x65], Kind.str v.Name),
        ([0x64, 0x65, 0x73, 0x63, 0x72, 0x69, 0x70, 0x74, 0x69, 0x6F, 0x6E], Kind.str v.Description),
        ([0x70, 0x72, 0x69, 0x63, 0x65], Kind.str v.Price),
        ([0x73, 0x74, 0x61, 0x74, 0x65], Kind.str v.State)], []) := by
  obtain ⟨h1, h2, h3, h4, h5⟩ := hv
  rw [json_eq, List.drop_one, List.tail_cons,
    scanMembers_key _ _ _ _ _ (by decide) h1, scanMembers_key _ _ _ _ _ (by decide) h2,
    scanMembers_key _ _ _ _ _ (by decide) h3, scanMembers_key _ _ _ _ _ (by decide) h4,
    scanMembers_last _ _ _ _ _ (by decide) h5]
  rfl

theorem json_length (v : item) : ∃ n, v.json.length = n + 7 := by
  refine ⟨v.json.length - 7, ?_⟩
  have : 7 ≤ v.json.length := by
    rw [json_eq]
    simp only [List.length_cons, List.length_append]
    omega
  omega

/-- Decoding what `json.Marshal` wrote for an item of well-formed strings gives
the item back, whatever the value decoded into held before. -/
theorem Unmarshal_json (v w : item) (hv : v.Valid) : Unmarshal v.json w = .ok v := by
  obtain ⟨n, hn⟩ := json_length v
  have hm : scanMembers (n + 7) 1 (v.json.drop 1) = _ := scanMembers_json v (n + 1) hv
  have hd : v.json = 0x7B :: 0x22 :: (v.json.drop 2) := by rw [json_eq]; rfl
  have hd1 : v.json.drop 1 = 0x22 :: (v.json.drop 2) := by rw [json_eq]; rfl
  rw [hd1] at hm
  have hc : checkValid v.json = true := by
    rw [checkValid, hn]
    rw [hd, skipSpace_cons _ _ (by decide), scanValue, if_neg (by decide), if_pos rfl,
      if_neg (by decide), skipSpace_cons _ _ (by decide)]
    simp only
    rw [if_neg (by decide), show (0 : Nat) + 1 = 1 from rfl, hm]
    rfl
  rw [Unmarshal, hc]
  simp only [Bool.not_true, Bool.false_eq_true, if_false]
  rw [hn]
  rw [hd, skipSpace_cons _ _ (by decide)]
  simp only [if_true]
  rw [skipSpace_cons _ _ (by decide)]
  simp only
  rw [if_neg (by decide), hm]
  simp only [List.foldl, decodeMember]
  have f1 : findField [0x69, 0x64] = some Field.Id := by decide
  have f2 : findField [0x6E, 0x61, 0x6D, 0x65] = some Field.Name := by decide
  have f3 : findField [0x64, 0x65, 0x73, 0x63, 0x72, 0x69, 0x70, 0x74, 0x69, 0x6F, 0x6E] =
      some Field.Description := by decide
  have f4 : findField [0x70, 0x72, 0x69, 0x63, 0x65] = some Field.Price := by decide
  have f5 : findField [0x73, 0x74, 0x61, 0x74, 0x65] = some Field.State := by decide
  simp only [f1, f2, f3, f4, f5, item.set]

theorem validUTF8_nil : ValidUTF8 [] := ⟨[], by simp, rfl⟩

theorem validUTF8_append {a b : Bytes} (ha : ValidUTF8 a) (hb : ValidUTF8 b) :
    ValidUTF8 (a ++ b) := by
  obtain ⟨ra, ha1, rfl⟩ := ha
  obtain ⟨rb, hb1, rfl⟩ := hb
  refine ⟨ra ++ rb, ?_, by simp⟩
  intro r hr
  rcases List.mem_append.mp hr with h | h
  · exact ha1 r h
  · exact hb1 r h

theorem validUTF8_encodeRune (r : Nat) : ValidUTF8 (encodeRune r) := by
  by_cases h : isScalar r
  · exact ⟨[r], by simpa using h, by simp⟩
  · refine ⟨[0xFFFD], by simp [isScalar], ?_⟩
    unfold isScalar at h
    have e : encodeRune 0xFFFD = [0xEF, 0xBF, 0xBD] := by decide
    simp only [List.flatMap_cons, List.flatMap_nil, List.append_nil, e]
    rw [encodeRune, if_neg (by omega), if_neg (by omega), if_pos (by omega)]

theorem validUTF8_ascii (c : Nat) (h : c < 0x80) : ValidUTF8 [c] := by
  have := validUTF8_encodeRune c
  rwa [encodeRune_ascii c h] at this

theorem escapeChar_lt (e b : Nat) (h : escapeChar e = some b) : b < 0x80 := by
  rw [escapeChar] at h
  by_cases h1 : e = 0x22 ∨ e = 0x5C ∨ e = 0x2F ∨ e = 0x27
  · rw [if_pos h1] at h
    simp only [Option.some.injEq] at h
    omega
  rw [if_neg h1] at h
  split_ifs at h <;> simp at h <;> omega

theorem unquoteU_valid (s out rest1 : Bytes) (h : unquoteU s = some (out, rest1)) :
    ValidUTF8 out := by
  rw [unquoteU] at h
  cases hg : getu4 s with
  | none => rw [hg] at h; exact absurd h (by simp)
  | some rr =>
    rw [hg] at h
    simp only at h
    by_cases h1 : 0xD800 ≤ rr ∧ rr < 0xE000
    · rw [if_pos h1] at h
      by_cases h2 : utf16DecodeRune rr (getu4 (s.drop 6)) ≠ RuneError
      · rw [if_pos h2] at h
        simp only [Option.some.injEq, Prod.mk.injEq] at h
        obtain ⟨rfl, _⟩ := h
        exact validUTF8_encodeRune _
      · rw [if_neg h2] at h
        simp only [Option.some.injEq, Prod.mk.injEq] at h
        obtain ⟨rfl, _⟩ := h
        exact validUTF8_encodeRune _
    · rw [if_neg h1] at h
      simp only [Option.some.injEq, Prod.mk.injEq] at h
      obtain ⟨rfl, _⟩ := h
      exact validUTF8_encodeRune _

theorem unquoteStep_valid (c : Nat) (rest out rest1 : Bytes)
    (h : unquoteStep c rest = some (out, rest1)) : ValidUTF8 out := by
  rw [unquoteStep] at h
  by_cases h1 : c = 0x5C
  · rw [if_pos h1] at h
    by_cases h2 : rest.length < 1
    · rw [if_pos h2] at h; exact absurd h (by simp)
    rw [if_neg h2] at h
    by_cases h3 : rest.getD 0 0 = 0x75
    · rw [if_pos h3] at h
      exact unquoteU_valid _ _ _ h
    rw [if_neg h3] at h
    cases he : escapeChar (rest.getD 0 0) with
    | none => rw [he] at h; exact absurd h (by simp)
    | some b =>
      rw [he] at h
      simp only [Option.map_some', Option.some.injEq, Prod.mk.injEq] at h
      obtain ⟨rfl, _⟩ := h
      exact validUTF8_ascii b (escapeChar_lt _ _ he)
  rw [if_neg h1] at h
  by_cases h2 : c = 0x22 ∨ c < 0x20
  · rw [if_pos h2] at h; exact absurd h (by simp)
  rw [if_neg h2] at h
  by_cases h3 : c < 0x80
  · rw [if_pos h3] at h
    simp only [Option.some.injEq, Prod.mk.injEq] at h
    obtain ⟨rfl, _⟩ := h
    exact validUTF8_ascii c h3
  rw [if_neg h3] at h
  simp only [Option.some.injEq, Prod.mk.injEq] at h
  obtain ⟨rfl, _⟩ := h
  exact validUTF8_encodeRune _

theorem unquote_valid : ∀ (n : Nat) (s out : Bytes), unquote n s = some out → ValidUTF8 out := by
  intro n
  induction n with
  | zero =>
    intro s out h
    cases s with
    | nil =>
      rw [unquote] at h
      simp only [Option.some.injEq] at h
      subst h; exact validUTF8_nil
    | cons c rest => rw [unquote] at h; exact absurd h (by simp)
  | succ n ih =>
    intro s out h
    cases s with
    | nil =>
      rw [unquote] at h
      simp only [Option.some.injEq] at h
      subst h; exact validUTF8_nil
    | cons c rest =>
      rw [unquote] at h
      cases hs : unquoteStep c rest with
      | none => rw [hs] at h; exact absurd h (by simp)
      | some p =>
        obtain ⟨o1, rest1⟩ := p
        rw [hs] at h
        simp only [Option.map_eq_some'] at h
        obtain ⟨o2, h2, rfl⟩ := h
        exact validUTF8_append (unquoteStep_valid _ _ _ _ hs) (ih _ _ h2)

/-- What `unquoteBytes` returns is well-formed UTF-8, whatever the input. -/
theorem unquoteBytes_valid (raw out : Bytes) (h : unquoteBytes raw = some out) : ValidUTF8 out :=
  unquote_valid _ _ _ h

theorem scanValue_valid (n depth : Nat) (s rest : Bytes) (k : Kind)
    (h : scanValue n depth s = some (k, rest)) : k.Valid := by
  cases n with
  | zero => rw [scanValue] at h; exact absurd h (by simp)
  | succ n =>
    cases s with
    | nil => rw [scanValue] at h <;> first | exact absurd h (by simp) | simp
    | cons c t =>
      rw [scanValue] at h
      by_cases h1 : c = 0x22
      · rw [if_pos h1] at h
        cases hl : scanLiteral t with
        | none => rw [hl] at h; exact absurd h (by simp)
        | some p =>
          obtain ⟨raw, rest1⟩ := p
          rw [hl] at h
          simp only [Option.map_eq_some', Prod.mk.injEq] at h
          obtain ⟨out, hu, rfl, _⟩ := h
          intro s' hs'
          cases hs'
          exact unquoteBytes_valid _ _ hu
      · rw [if_neg h1] at h
        intro s' hs'
        subst hs'
        exfalso
        revert h
        repeat' split
        all_goals simp

theorem scanMembers_valid : ∀ (n depth : Nat) (s rest : Bytes) (ms : List (Bytes × Kind)),
    scanMembers n depth s = some (ms, rest) → ∀ m ∈ ms, m.2.Valid := by
  intro n
  induction n with
  | zero => intro depth s rest ms h; rw [scanMembers] at h; exact absurd h (by simp)
  | succ n ih =>
    intro depth s rest ms h
    cases s with
    | nil => rw [scanMembers] at h <;> first | exact absurd h (by simp) | simp
    | cons q t =>
      rw [scanMembers] at h
      by_cases hq : q ≠ 0x22
      · rw [if_pos hq] at h; exact absurd h (by simp)
      rw [if_neg hq] at h
      cases hl : scanLiteral t with
      | none => rw [hl] at h; exact absurd h (by simp)
      | some p =>
        obtain ⟨raw, rest0⟩ := p
        rw [hl] at h
        simp only at h
        cases hu : unquoteBytes raw with
        | none => rw [hu] at h; exact absurd h (by simp)
        | some key =>
          rw [hu] at h
          simp only at h
          cases hs1 : skipSpace rest0 with
          | nil => rw [hs1] at h; exact absurd h (by simp)
          | cons colon rest1 =>
            rw [hs1] at h
            simp only at h
            by_cases hc : colon ≠ 0x3A
            · rw [if_pos hc] at h; exact absurd h (by simp)
            rw [if_neg hc] at h
            cases hv : scanValue n depth (skipSpace rest1) with
            | none => rw [hv] at h; exact absurd h (by simp)
            | some p =>
              obtain ⟨k, rest2⟩ := p
              rw [hv] at h
              simp only at h
              have hk := scanValue_valid _ _ _ _ _ hv
              cases hs2 : skipSpace rest2 with
              | nil => rw [hs2] at h; exact absurd h (by simp)
              | cons d more =>
                rw [hs2] at h
                simp only at h
                by_cases hd : d = 0x2C
                · rw [if_pos hd] at h
                  simp only [Option.map_eq_some', Prod.mk.injEq] at h
                  obtain ⟨p, hp, rfl, _⟩ := h
                  intro m hm
                  rcases List.mem_cons.mp hm with rfl | hm
                  · exact hk
                  · exact ih _ _ _ _ (by rw [hp]) m hm
                · rw [if_neg hd] at h
                  by_cases hd2 : d = 0x7D
                  · rw [if_pos hd2] at h
                    simp only [Option.some.injEq, Prod.mk.injEq] at h
                    obtain ⟨rfl, _⟩ := h
                    intro m hm
                    rw [List.mem_singleton] at hm
                    subst hm
                    exact hk
                  · rw [if_neg hd2] at h; exact absurd h (by simp)

theorem item_set_valid (v : item) (f : Field) (s : Bytes) (hv : v.Valid) (hs : ValidUTF8 s) :
    (v.set f s).Valid := by
  obtain ⟨h1, h2, h3, h4, h5⟩ := hv
  cases f <;> simp only [item.set, item.Valid] <;> exact ⟨by assumption, by assumption,
    by assumption, by assumption, by assumption⟩

theorem decodeMember_valid (st : item × Option JsonError) (m : Bytes × Kind) (hv : st.1.Valid)
    (hm : m.2.Valid) : (decodeMember st m).1.Valid := by
  rw [decodeMember]
  cases findField m.1 with
  | none => exact hv
  | some f =>
    simp only
    cases hk : m.2 with
    | str s => exact item_set_valid _ _ _ hv (hm s hk)
    | null => exact hv
    | bool => exact hv
    | number => exact hv
    | array => exact hv
    | object => exact hv

theorem foldl_decodeMember_valid (ms : List (Bytes × Kind)) (st : item × Option JsonError)
    (hv : st.1.Valid) (hm : ∀ m ∈ ms, m.2.Valid) : (ms.foldl decodeMember st).1.Valid := by
  induction ms generalizing st with
  | nil => exact hv
  | cons m ms ih =>
    rw [List.foldl_cons]
    exact ih _ (decodeMember_valid st m hv (hm m (by simp))) (fun x hx => hm x (by simp [hx]))

/-- Every string `json.Unmarshal` stores in an item is well-formed UTF-8: the
decoded item is valid if the item decoded into was. -/
theorem Unmarshal_valid (data : Bytes) (w r : item) (hw : w.Valid)
    (h : Unmarshal data w = .ok r) : r.Valid := by
  rw [Unmarshal] at h
  by_cases hc : (!checkValid data) = true
  · rw [if_pos hc] at h; exact absurd h (by simp)
  rw [if_neg hc] at h
  cases hs : skipSpace data with
  | nil => rw [hs] at h; exact absurd h (by simp)
  | cons c rest =>
    rw [hs] at h
    simp only at h
    by_cases h1 : c = 0x7B
    · rw [if_pos h1] at h
      cases hs2 : skipSpace rest with
      | nil => rw [hs2] at h; exact absurd h (by simp)
      | cons d more =>
        rw [hs2] at h
        simp only at h
        by_cases h2 : d = 0x7D
        · rw [if_pos h2] at h
          simp only [Except.ok.injEq] at h
          subst h; exact hw
        rw [if_neg h2] at h
        cases hm : scanMembers data.length 1 (d :: more) with
        | none => rw [hm] at h; exact absurd h (by simp)
        | some p =>
          obtain ⟨ms, rest1⟩ := p
          rw [hm] at h
          simp only at h
          have hv := foldl_decodeMember_valid ms (w, none) hw (scanMembers_valid _ _ _ _ _ hm)
          cases hf : ms.foldl decodeMember (w, none) with
          | mk v1 e =>
            rw [hf] at h hv
            cases e with
            | none =>
              simp only [Except.ok.injEq] at h
              subst h; exact hv
            | some e => exact absurd h (by simp)
    rw [if_neg h1] at h
    by_cases h2 : c = 0x6E
    · rw [if_pos h2] at h
      simp only [Except.ok.injEq] at h
      subst h; exact hw
    rw [if_neg h2] at h
    split_ifs at h

theorem item_zero_valid : item.zero.Valid :=
  ⟨validUTF8_nil, validUTF8_nil, validUTF8_nil, validUTF8_nil, validUTF8_nil⟩

/-! ## The claims -/

/-- What `addItem` does on five non-blank arguments when no value is stored
under the id. -/
theorem addItem_absent (stub : Stub) (id name description price state : Bytes)
    (habsent : stub.ledger.state id = none)
    (h0 : blank id = false) (h1 : blank name = false) (h2 : blank description = false)
    (h3 : blank price = false) (h4 : blank state = false) :
    addItem stub [id, name, description, price, state] =
      (shim.Success (item.json ⟨id, name, description, price, state⟩),
        { state := fun k =>
            if k = id then some (item.json ⟨id, name, description, price, state⟩)
            else stub.ledger.state k
          history := fun k =>
            if k = id then
              ⟨stub.TxID, item.json ⟨id, name, description, price, state⟩, stub.TxTimestamp,
                false⟩ :: stub.ledger.history k
            else stub.ledger.history k }) := by
  simp [addItem, h0, h1, h2, h3, h4, Stub.GetState, habsent, Marshal_ok, Stub.PutState]

/-- C1, as amended: on a store with no value under `id`, `addItem` on five
non-blank arguments that are well-formed UTF-8 succeeds, and a `queryItem` on
the same id right afterwards succeeds with a payload that decodes to the item
whose five fields are exactly the five arguments. -/
theorem addItem_then_queryItem (stub : Stub) (tx : Bytes) (ts : Int × Int)
    (id name description price state : Bytes)
    (habsent : stub.ledger.state id = none)
    (h0 : blank id = false) (h1 : blank name = false) (h2 : blank description = false)
    (h3 : blank price = false) (h4 : blank state = false)
    (v0 : ValidUTF8 id) (v1 : ValidUTF8 name) (v2 : ValidUTF8 description)
    (v3 : ValidUTF8 price) (v4 : ValidUTF8 state) :
    (addItem stub [id, name, description, price, state]).1.Status = 200 ∧
    ∃ payload,
      queryItem ⟨tx, ts, (addItem stub [id, name, description, price, state]).2⟩ [id] =
        (shim.Success payload, (addItem stub [id, name, description, price, state]).2) ∧
      Unmarshal payload item.zero = .ok ⟨id, name, description, price, state⟩ := by
  rw [addItem_absent stub id name description price state habsent h0 h1 h2 h3 h4]
  refine ⟨rfl, item.json ⟨id, name, description, price, state⟩, ?_, ?_⟩
  · simp [queryItem, h0, Stub.GetState]
  · exact Unmarshal_json _ _ ⟨v0, v1, v2, v3, v4⟩

theorem validUTF8_of_ascii (s : Bytes) (h : ∀ c ∈ s, c < 0x80) : ValidUTF8 s := by
  refine ⟨s, fun r hr => Or.inl (by have := h r hr; omega), ?_⟩
  induction s with
  | nil => rfl
  | cons c s ih =>
    rw [List.flatMap_cons, encodeRune_ascii c (h c (by simp)), ← ih (fun x hx => h x (by simp [hx]))]
    rfl

/-- C1, witness: the amended statement at the item of the end-to-end scenario. -/
theorem addItem_then_queryItem_witness :
    (addItem ⟨ascii "tx1", (0, 0), Ledger.empty⟩
      [ascii "i1", ascii "Widget", ascii "A widget", ascii "9.99", ascii "ACTIVE"]).1.Status = 200 ∧
    ∃ payload,
      queryItem ⟨ascii "tx2", (1, 0), (addItem ⟨ascii "tx1", (0, 0), Ledger.empty⟩
        [ascii "i1", ascii "Widget", ascii "A widget", ascii "9.99", ascii "ACTIVE"]).2⟩
        [ascii "i1"] =
        (shim.Success payload, (addItem ⟨ascii "tx1", (0, 0), Ledger.empty⟩
          [ascii "i1", ascii "Widget", ascii "A widget", ascii "9.99", ascii "ACTIVE"]).2) ∧
      Unmarshal payload item.zero =
        .ok ⟨ascii "i1", ascii "Widget", ascii "A widget", ascii "9.99", ascii "ACTIVE"⟩ :=
  addItem_then_queryItem ⟨ascii "tx1", (0, 0), Ledger.empty⟩ (ascii "tx2") (1, 0)
    (ascii "i1") (ascii "Widget") (ascii "A widget") (ascii "9.99") (ascii "ACTIVE")
    rfl (by decide) (by decide) (by decide) (by decide) (by decide)
    (validUTF8_of_ascii _ (by decide)) (validUTF8_of_ascii _ (by decide))
    (validUTF8_of_ascii _ (by decide)) (validUTF8_of_ascii _ (by decide))
    (validUTF8_of_ascii _ (by decide))

/-- C1, counterexample: the argument `id` is the single byte `0xFF`, not
well-formed UTF-8.  All five arguments are non-blank and the store is empty;
`addItem` and the following `queryItem` succeed, but the payload decodes to
an item whose id is the three bytes of U+FFFD, not the argument given. -/
theorem addItem_then_queryItem_counterexample :
    Ledger.empty.state [0xFF] = none ∧
    blank [0xFF] = false ∧ blank (ascii "n") = false ∧ blank (ascii "d") = false ∧
    blank (ascii "p") = false ∧ blank (ascii "s") = false ∧
    (addItem ⟨ascii "tx1", (0, 0), Ledger.empty⟩
      [[0xFF], ascii "n", ascii "d", ascii "p", ascii "s"]).1.Status = 200 ∧
    (queryItem ⟨ascii "tx2", (1, 0), (addItem ⟨ascii "tx1", (0, 0), Ledger.empty⟩
      [[0xFF], ascii "n", ascii "d", ascii "p", ascii "s"]).2⟩ [[0xFF]]).1.Status = 200 ∧
    Unmarshal (queryItem ⟨ascii "tx2", (1, 0), (addItem ⟨ascii "tx1", (0, 0), Ledger.empty⟩
      [[0xFF], ascii "n", ascii "d", ascii "p", ascii "s"]).2⟩ [[0xFF]]).1.Payload item.zero =
      .ok ⟨[0xEF, 0xBF, 0xBD], ascii "n", ascii "d", ascii "p", ascii "s"⟩ ∧
    Unmarshal (queryItem ⟨ascii "tx2", (1, 0), (addItem ⟨ascii "tx1", (0, 0), Ledger.empty⟩
      [[0xFF], ascii "n", ascii "d", ascii "p", ascii "s"]).2⟩ [[0xFF]]).1.Payload item.zero ≠
      .ok ⟨[0xFF], ascii "n", ascii "d", ascii "p", ascii "s"⟩ := by
  decide

/-- C2: on a store that holds a value `b` under `id`, `addItem` on five
non-blank arguments starting with `id` fails with the conflict message for
`id` and returns the ledger (values and histories) as it was; a `queryItem`
afterwards returns `b`. -/
theorem addItem_conflict (stub : Stub) (tx : Bytes) (ts : Int × Int)
    (id name description price state b : Bytes)
    (hheld : stub.ledger.state id = some b)
    (h0 : blank id = false) (h1 : blank name = false) (h2 : blank description = false)
    (h3 : blank price = false) (h4 : blank state = false) :
    addItem stub [id, name, description, price, state] =
      (shim.Error (ascii "An Item already exists for this ID: " ++ id), stub.ledger) ∧
    queryItem ⟨tx, ts, (addItem stub [id, name, description, price, state]).2⟩ [id] =
      (shim.Success b, stub.ledger) := by
  have e : addItem stub [id, name, description, price, state] =
      (shim.Error (ascii "An Item already exists for this ID: " ++ id), stub.ledger) := by
    simp [addItem, h0, h1, h2, h3, h4, Stub.GetState, hheld]
  refine ⟨e, ?_⟩
  rw [e]
  simp [queryItem, h0, Stub.GetState, hheld]

/-- C2, witness: a second `addItem` for the id `i1` on the store the first one
left. -/
theorem addItem_conflict_witness :
    addItem ⟨ascii "tx2", (1, 0), (addItem ⟨ascii "tx1", (0, 0), Ledger.empty⟩
        [ascii "i1", ascii "Widget", ascii "A widget", ascii "9.99", ascii "ACTIVE"]).2⟩
      [ascii "i1", ascii "Gadget", ascii "A gadget", ascii "1.00", ascii "NEW"] =
      (shim.Error (ascii "An Item already exists for this ID: " ++ ascii "i1"),
        (addItem ⟨ascii "tx1", (0, 0), Ledger.empty⟩
          [ascii "i1", ascii "Widget", ascii "A widget", ascii "9.99", ascii "ACTIVE"]).2) ∧
    queryItem ⟨ascii "tx3", (2, 0), (addItem ⟨ascii "tx2", (1, 0),
        (addItem ⟨ascii "tx1", (0, 0), Ledger.empty⟩
          [ascii "i1", ascii "Widget", ascii "A widget", ascii "9.99", ascii "ACTIVE"]).2⟩
        [ascii "i1", ascii "Gadget", ascii "A gadget", ascii "1.00", ascii "NEW"]).2⟩
      [ascii "i1"] =
      (shim.Success (item.json
          ⟨ascii "i1", ascii "Widget", ascii "A widget", ascii "9.99", ascii "ACTIVE"⟩),
        (addItem ⟨ascii "tx1", (0, 0), Ledger.empty⟩
          [ascii "i1", ascii "Widget", ascii "A widget", ascii "9.99", ascii "ACTIVE"]).2) :=
  addItem_conflict ⟨ascii "tx2", (1, 0), (addItem ⟨ascii "tx1", (0, 0), Ledger.empty⟩
      [ascii "i1", ascii "Widget", ascii "A widget", ascii "9.99", ascii "ACTIVE"]).2⟩
    (ascii "tx3") (2, 0) (ascii "i1") (ascii "Gadget") (ascii "A gadget") (ascii "1.00")
    (ascii "NEW")
    (item.json ⟨ascii "i1", ascii "Widget", ascii "A widget", ascii "9.99", ascii "ACTIVE"⟩)
    (by decide) (by decide) (by decide) (by decide) (by decide) (by decide)

/-- C3: on a store with no value under a non-blank `id`, `modifyPrice` with a
non-blank price (and any further arguments), `removeItem` and `queryItem` each
fail with the not-found message for `id` and return the ledger as it was. -/
theorem notFound_of_absent (stub : Stub) (id price : Bytes) (more : List Bytes)
    (habsent : stub.ledger.state id = none)
    (h0 : blank id = false) (h1 : blank price = false) :
    modifyPrice stub (id :: price :: more) = (shim.Error (notFound id), stub.ledger) ∧
    removeItem stub [id] = (shim.Error (notFound id), stub.ledger) ∧
    queryItem stub [id] = (shim.Error (notFound id), stub.ledger) := by
  refine ⟨?_, ?_, ?_⟩
  · simp [modifyPrice, h0, h1, Stub.GetState, habsent]
  · simp [removeItem, h0, Stub.GetState, habsent]
  · simp [queryItem, h0, Stub.GetState, habsent]

/-- C3, witness: the id `i1` on the empty ledger. -/
theorem notFound_of_absent_witness :
    modifyPrice ⟨ascii "tx1", (0, 0), Ledger.empty⟩ (ascii "i1" :: ascii "12.50" :: []) =
      (shim.Error (notFound (ascii "i1")), Ledger.empty) ∧
    removeItem ⟨ascii "tx1", (0, 0), Ledger.empty⟩ [ascii "i1"] =
      (shim.Error (notFound (ascii "i1")), Ledger.empty) ∧
    queryItem ⟨ascii "tx1", (0, 0), Ledger.empty⟩ [ascii "i1"] =
      (shim.Error (notFound (ascii "i1")), Ledger.empty) :=
  notFound_of_absent ⟨ascii "tx1", (0, 0), Ledger.empty⟩ (ascii "i1") (ascii "12.50") [] rfl
    (by decide) (by decide)

/-- What `modifyPrice` does when the value under the id decodes to `r`. -/
theorem modifyPrice_held (stub : Stub) (id price b : Bytes) (more : List Bytes) (r : item)
    (hheld : stub.ledger.state id = some b) (hdec : Unmarshal b item.zero = .ok r)
    (h0 : blank id = false) (h1 : blank price = false) :
    modifyPrice stub (id :: price :: more) =
      (shim.Success (item.json { r with Price := price }),
        { state := fun k =>
            if k = id then some (item.json { r with Price := price }) else stub.ledger.state k
          history := fun k =>
            if k = id then
              ⟨stub.TxID, item.json { r with Price := price }, stub.TxTimestamp, false⟩ ::
                stub.ledger.history k
            else stub.ledger.history k }) := by
  simp [modifyPrice, h0, h1, Stub.GetState, hheld, hdec, Stub.PutState]

/-- What `removeItem` does when the value under the id decodes to `r`. -/
theorem removeItem_held (stub : Stub) (id b : Bytes) (r : item)
    (hheld : stub.ledger.state id = some b) (hdec : Unmarshal b item.zero = .ok r)
    (h0 : blank id = false) :
    removeItem stub [id] =
      (shim.Success (item.json { r with State := ascii "REMOVED" }),
        { state := fun k =>
            if k = id then some (item.json { r with State := ascii "REMOVED" })
            else stub.ledger.state k
          history := fun k =>
            if k = id then
              ⟨stub.TxID, item.json { r with State := ascii "REMOVED" }, stub.TxTimestamp,
                false⟩ :: stub.ledger.history k
            else stub.ledger.history k }) := by
  simp [removeItem, h0, Stub.GetState, hheld, hdec, Stub.PutState]

/-- C4, as amended: when the value stored under a non-blank `id` decodes to the
item `r`, `modifyPrice` with a non-blank price `p` that is well-formed UTF-8
succeeds, and the value stored under `id` afterwards decodes to an item whose
price is `p` and whose id, name, description and state are those of `r`. -/
theorem modifyPrice_changes_only_price (stub : Stub) (id p b : Bytes) (r : item)
    (hheld : stub.ledger.state id = some b) (hdec : Unmarshal b item.zero = .ok r)
    (h0 : blank id = false) (h1 : blank p = false) (vp : ValidUTF8 p) :
    (modifyPrice stub [id, p]).1.Status = 200 ∧
    ∃ b' r', (modifyPrice stub [id, p]).2.state id = some b' ∧
      Unmarshal b' item.zero = .ok r' ∧
      r'.Price = p ∧ r'.Id = r.Id ∧ r'.Name = r.Name ∧ r'.Description = r.Description ∧
      r'.State = r.State := by
  rw [modifyPrice_held stub id p b [] r hheld hdec h0 h1]
  have hr := Unmarshal_valid b item.zero r item_zero_valid hdec
  refine ⟨rfl, item.json { r with Price := p }, { r with Price := p }, by simp, ?_,
    rfl, rfl, rfl, rfl, rfl⟩
  exact Unmarshal_json _ _ ⟨hr.1, hr.2.1, hr.2.2.1, vp, hr.2.2.2.2⟩

/-- C4, witness: the price update of the scenario, `12.50` for the item `i1`. -/
theorem modifyPrice_changes_only_price_witness :
    (modifyPrice ⟨ascii "tx2", (1, 0), widgetLedger⟩ [ascii "i1", ascii "12.50"]).1.Status = 200 ∧
    ∃ b' r', (modifyPrice ⟨ascii "tx2", (1, 0), widgetLedger⟩
        [ascii "i1", ascii "12.50"]).2.state (ascii "i1") = some b' ∧
      Unmarshal b' item.zero = .ok r' ∧
      r'.Price = ascii "12.50" ∧ r'.Id = widget.Id ∧ r'.Name = widget.Name ∧
      r'.Description = widget.Description ∧ r'.State = widget.State :=
  modifyPrice_changes_only_price ⟨ascii "tx2", (1, 0), widgetLedger⟩ (ascii "i1") (ascii "12.50")
    widget.json widget (by decide) (by decide) (by decide) (by decide)
    (validUTF8_of_ascii _ (by decide))

/-- C4, counterexample: the new price is the single byte `0xFF`, non-blank but not
well-formed UTF-8.  The store holds the item `i1` of the scenario;
`modifyPrice` succeeds, but the value stored afterwards decodes to an item whose
price is the three bytes of U+FFFD, not the price given. -/
theorem modifyPrice_changes_only_price_counterexample :
    widgetLedger.state (ascii "i1") = some widget.json ∧
    Unmarshal widget.json item.zero = .ok widget ∧
    blank (ascii "i1") = false ∧ blank [0xFF] = false ∧
    (modifyPrice ⟨ascii "tx2", (1, 0), widgetLedger⟩ [ascii "i1", [0xFF]]).1.Status = 200 ∧
    ((modifyPrice ⟨ascii "tx2", (1, 0), widgetLedger⟩ [ascii "i1", [0xFF]]).2.state
        (ascii "i1")).map (fun b => Unmarshal b item.zero) =
      some (.ok { widget with Price := [0xEF, 0xBF, 0xBD] }) ∧
    ({ widget with Price := [0xEF, 0xBF, 0xBD] } : item).Price ≠ [0xFF] := by
  decide

/-- C5, as amended (the id is not blank): when the value stored under a
non-blank `id` decodes to the item `r`,
`removeItem` succeeds, the value stored under `id` afterwards decodes to `r`
with the state `REMOVED` and every other field unchanged, and a `queryItem` on
`id` afterwards succeeds and returns that value. -/
theorem removeItem_sets_removed (stub : Stub) (tx : Bytes) (ts : Int × Int) (id b : Bytes)
    (r : item) (hheld : stub.ledger.state id = some b)
    (hdec : Unmarshal b item.zero = .ok r) (h0 : blank id = false) :
    (removeItem stub [id]).1.Status = 200 ∧
    ∃ b', (removeItem stub [id]).2.state id = some b' ∧
      Unmarshal b' item.zero = .ok ⟨r.Id, r.Name, r.Description, r.Price, ascii "REMOVED"⟩ ∧
      queryItem ⟨tx, ts, (removeItem stub [id]).2⟩ [id] =
        (shim.Success b', (removeItem stub [id]).2) := by
  rw [removeItem_held stub id b r hheld hdec h0]
  have hr := Unmarshal_valid b item.zero r item_zero_valid hdec
  refine ⟨rfl, item.json { r with State := ascii "REMOVED" }, by simp, ?_, ?_⟩
  · exact Unmarshal_json _ _
      ⟨hr.1, hr.2.1, hr.2.2.1, hr.2.2.2.1, validUTF8_of_ascii (ascii "REMOVED") (by decide)⟩
  · simp [queryItem, h0, Stub.GetState]

/-- C5, witness: `removeItem` for the item `i1` of the scenario. -/
theorem removeItem_sets_removed_witness :
    (removeItem ⟨ascii "tx2", (1, 0), widgetLedger⟩ [ascii "i1"]).1.Status = 200 ∧
    ∃ b', (removeItem ⟨ascii "tx2", (1, 0), widgetLedger⟩ [ascii "i1"]).2.state (ascii "i1") =
        some b' ∧
      Unmarshal b' item.zero =
        .ok ⟨widget.Id, widget.Name, widget.Description, widget.Price, ascii "REMOVED"⟩ ∧
      queryItem ⟨ascii "tx3", (2, 0),
          (removeItem ⟨ascii "tx2", (1, 0), widgetLedger⟩ [ascii "i1"]).2⟩ [ascii "i1"] =
        (shim.Success b', (removeItem ⟨ascii "tx2", (1, 0), widgetLedger⟩ [ascii "i1"]).2) :=
  removeItem_sets_removed ⟨ascii "tx2", (1, 0), widgetLedger⟩ (ascii "tx3") (2, 0) (ascii "i1")
    widget.json widget (by decide) (by decide) (by decide)

/-- C5, counterexample: the store holds a record of five fields under the key of
one space.  `removeItem` rejects that id as blank: it fails with the notice
that the id must be non-empty, and the stored record keeps its state. -/
theorem removeItem_sets_removed_counterexample :
    Unmarshal (item.json ⟨ascii " ", ascii "Widget", ascii "A widget", ascii "9.99",
      ascii "ACTIVE"⟩) item.zero =
      .ok ⟨ascii " ", ascii "Widget", ascii "A widget", ascii "9.99", ascii "ACTIVE"⟩ ∧
    (removeItem ⟨ascii "tx2", (1, 0),
        ⟨fun k => if k = ascii " " then some (item.json ⟨ascii " ", ascii "Widget",
          ascii "A widget", ascii "9.99", ascii "ACTIVE"⟩) else none, fun _ => []⟩⟩
        [ascii " "]).1 = shim.Error (ascii "The Item ID must be a non-empty string.") ∧
    (removeItem ⟨ascii "tx2", (1, 0),
        ⟨fun k => if k = ascii " " then some (item.json ⟨ascii " ", ascii "Widget",
          ascii "A widget", ascii "9.99", ascii "ACTIVE"⟩) else none, fun _ => []⟩⟩
        [ascii " "]).2.state (ascii " ") =
      some (item.json ⟨ascii " ", ascii "Widget", ascii "A widget", ascii "9.99",
        ascii "ACTIVE"⟩) := by
  decide

theorem length_five (args : List Bytes) (h : args.length = 5) :
    ∃ a0 a1 a2 a3 a4, args = [a0, a1, a2, a3, a4] := by
  match args, h with
  | [a0, a1, a2, a3, a4], _ => exact ⟨a0, a1, a2, a3, a4, rfl⟩

theorem length_two (args : List Bytes) (h : 2 ≤ args.length) :
    ∃ a0 a1 more, args = a0 :: a1 :: more := by
  match args, h with
  | a0 :: a1 :: more, _ => exact ⟨a0, a1, more, rfl⟩

theorem length_one (args : List Bytes) (h : args.length = 1) : ∃ a0, args = [a0] := by
  match args, h with
  | [a0], _ => exact ⟨a0, rfl⟩

/-- C6: for each of the five operations and every argument list, if a
required argument is missing or blank (`blank`: empty or white space only; a
missing argument counts as empty), the operation fails (status 500), returns
the ledger as it was, and gives the same response on any other stub: the store
is neither read nor written. -/
theorem blank_argument_rejected (timeString : Int → Int → Bytes) (stub other : Stub)
    (args : List Bytes) :
    ((∃ i, i < 5 ∧ blank (args.getD i []) = true) →
      (addItem stub args).1.Status = 500 ∧ (addItem stub args).2 = stub.ledger ∧
      (addItem other args).1 = (addItem stub args).1) ∧
    ((∃ i, i < 2 ∧ blank (args.getD i []) = true) →
      (modifyPrice stub args).1.Status = 500 ∧ (modifyPrice stub args).2 = stub.ledger ∧
      (modifyPrice other args).1 = (modifyPrice stub args).1) ∧
    (blank (args.getD 0 []) = true →
      ((removeItem stub args).1.Status = 500 ∧ (removeItem stub args).2 = stub.ledger ∧
        (removeItem other args).1 = (removeItem stub args).1) ∧
      ((queryItem stub args).1.Status = 500 ∧ (queryItem stub args).2 = stub.ledger ∧
        (queryItem other args).1 = (queryItem stub args).1) ∧
      ((history timeString stub args).1.Status = 500 ∧
        (history timeString stub args).2 = stub.ledger ∧
        (history timeString other args).1 = (history timeString stub args).1)) := by
  refine ⟨?_, ?_, ?_⟩
  · rintro ⟨i, hi, hb⟩
    by_cases hl : args.length ≠ 5
    · simp only [addItem, if_pos hl, shim.Error, and_self]
    · obtain ⟨a0, a1, a2, a3, a4, rfl⟩ := length_five args (by omega)
      have hb' : blank a0 = true ∨ blank a1 = true ∨ blank a2 = true ∨ blank a3 = true ∨
          blank a4 = true := by
        interval_cases i <;> simp at hb <;> simp [hb]
      cases h0 : blank a0 <;> cases h1 : blank a1 <;> cases h2 : blank a2 <;>
        cases h3 : blank a3 <;> cases h4 : blank a4 <;>
        simp [h0, h1, h2, h3, h4] at hb' <;>
        simp [addItem, h0, h1, h2, h3, h4, shim.Error]
  · rintro ⟨i, hi, hb⟩
    by_cases hl : args.length < 2
    · simp only [modifyPrice, if_pos hl, shim.Error, and_self]
    · obtain ⟨a0, a1, more, rfl⟩ := length_two args (by omega)
      have hm : ¬ (more.length + 1 + 1 < 2) := by omega
      have hb' : blank a0 = true ∨ blank a1 = true := by
        interval_cases i <;> simp at hb <;> simp [hb]
      cases h0 : blank a0 <;> cases h1 : blank a1 <;> simp [h0, h1] at hb' <;>
        simp [modifyPrice, h0, h1, shim.Error, hm]
  · intro hb
    by_cases hl : args.length ≠ 1
    · simp only [removeItem, queryItem, history, if_pos hl, shim.Error, and_self]
    · obtain ⟨a0, rfl⟩ := length_one args (by omega)
      simp at hb
      simp [removeItem, queryItem, history, hb, shim.Error]

/-- C6, witness: a blank name for `addItem`, a blank price for `modifyPrice`, a
blank id for the other three, on the store holding the item `i1`. -/
theorem blank_argument_rejected_witness :
    ((addItem ⟨ascii "tx2", (1, 0), widgetLedger⟩
        [ascii "i2", ascii " ", ascii "d", ascii "p", ascii "s"]).1.Status = 500 ∧
      (addItem ⟨ascii "tx2", (1, 0), widgetLedger⟩
        [ascii "i2", ascii " ", ascii "d", ascii "p", ascii "s"]).2 = widgetLedger ∧
      (addItem ⟨ascii "tx1", (0, 0), Ledger.empty⟩
        [ascii "i2", ascii " ", ascii "d", ascii "p", ascii "s"]).1 =
      (addItem ⟨ascii "tx2", (1, 0), widgetLedger⟩
        [ascii "i2", ascii " ", ascii "d", ascii "p", ascii "s"]).1) ∧
    (modifyPrice ⟨ascii "tx2", (1, 0), widgetLedger⟩ [ascii "i1", ascii "\t"]).2 =
      widgetLedger ∧
    (queryItem ⟨ascii "tx2", (1, 0), widgetLedger⟩ [ascii "  "]).1.Status = 500 :=
  ⟨(blank_argument_rejected (fun _ _ => []) ⟨ascii "tx2", (1, 0), widgetLedger⟩
      ⟨ascii "tx1", (0, 0), Ledger.empty⟩
      [ascii "i2", ascii " ", ascii "d", ascii "p", ascii "s"]).1 ⟨1, by decide, by decide⟩,
   ((blank_argument_rejected (fun _ _ => []) ⟨ascii "tx2", (1, 0), widgetLedger⟩
      ⟨ascii "tx1", (0, 0), Ledger.empty⟩
      [ascii "i1", ascii "\t"]).2.1 ⟨1, by decide, by decide⟩).2.1,
   ((blank_argument_rejected (fun _ _ => []) ⟨ascii "tx2", (1, 0), widgetLedger⟩
      ⟨ascii "tx1", (0, 0), Ledger.empty⟩ [ascii "  "]).2.2 (by decide)).2.1.1⟩

/-- C7, as amended: `addItem` rejects every call whose number of arguments is
not 5, `removeItem`, `queryItem` and `history` every call whose number is not
1, and `modifyPrice` every call with fewer than 2 arguments, each with its
arity message and the ledger returned as it was. -/
theorem arity_rejected (timeString : Int → Int → Bytes) (stub : Stub) (args : List Bytes) :
    (args.length ≠ 5 → addItem stub args =
      (shim.Error (ascii "Incorrect number of arguments. Expecting 5 arguments."),
        stub.ledger)) ∧
    (args.length < 2 → modifyPrice stub args =
      (shim.Error (ascii "Incorrect number of arguments. Expecting 2 arguments."),
        stub.ledger)) ∧
    (args.length ≠ 1 →
      removeItem stub args =
        (shim.Error (ascii "Incorrect number of arguments. Expecting the ID of the Item."),
          stub.ledger) ∧
      queryItem stub args =
        (shim.Error (ascii "Incorrect number of arguments. Expecting the ID of the Item."),
          stub.ledger) ∧
      history timeString stub args =
        (shim.Error (ascii "Incorrect number of arguments. Expecting the ID of the Item."),
          stub.ledger)) := by
  refine ⟨fun h => ?_, fun h => ?_, fun h => ⟨?_, ?_, ?_⟩⟩
  · rw [addItem, if_pos h]
  · rw [modifyPrice, if_pos h]
  · rw [removeItem, if_pos h]
  · rw [queryItem, if_pos h]
  · rw [history, if_pos h]

/-- C7, witness: calls with no argument at all. -/
theorem arity_rejected_witness :
    addItem ⟨ascii "tx2", (1, 0), widgetLedger⟩ [] =
      (shim.Error (ascii "Incorrect number of arguments. Expecting 5 arguments."),
        widgetLedger) ∧
    modifyPrice ⟨ascii "tx2", (1, 0), widgetLedger⟩ [] =
      (shim.Error (ascii "Incorrect number of arguments. Expecting 2 arguments."),
        widgetLedger) ∧
    queryItem ⟨ascii "tx2", (1, 0), widgetLedger⟩ [] =
      (shim.Error (ascii "Incorrect number of arguments. Expecting the ID of the Item."),
        widgetLedger) :=
  ⟨(arity_rejected (fun _ _ => []) ⟨ascii "tx2", (1, 0), widgetLedger⟩ []).1 (by decide),
   (arity_rejected (fun _ _ => []) ⟨ascii "tx2", (1, 0), widgetLedger⟩ []).2.1 (by decide),
   ((arity_rejected (fun _ _ => []) ⟨ascii "tx2", (1, 0), widgetLedger⟩ []).2.2
      (by decide)).2.1⟩

/-- C7, counterexample: `modifyPrice` called with three arguments, not two, on
the store holding the item `i1` does not fail: it succeeds and writes the new
price. -/
theorem arity_rejected_counterexample :
    [ascii "i1", ascii "12.50", ascii "extra"].length ≠ 2 ∧
    (modifyPrice ⟨ascii "tx2", (1, 0), widgetLedger⟩
      [ascii "i1", ascii "12.50", ascii "extra"]).1.Status = 200 ∧
    (modifyPrice ⟨ascii "tx2", (1, 0), widgetLedger⟩
      [ascii "i1", ascii "12.50", ascii "extra"]).2.state (ascii "i1") =
      some (item.json { widget with Price := ascii "12.50" }) ∧
    (modifyPrice ⟨ascii "tx2", (1, 0), widgetLedger⟩
      [ascii "i1", ascii "12.50", ascii "extra"]).2.state (ascii "i1") ≠
      widgetLedger.state (ascii "i1") := by
  decide

/-- C8: on an argument list of length at least 2, `modifyPrice` gives the
response and the ledger it gives on the first two arguments alone. -/
theorem modifyPrice_first_two (stub : Stub) (args : List Bytes) (h : 2 ≤ args.length) :
    modifyPrice stub args = modifyPrice stub (args.take 2) := by
  match args, h with
  | a0 :: a1 :: more, _ =>
    have hl : ¬ (more.length + 1 + 1 < 2) := by omega
    simp [modifyPrice, hl]

/-- C8, witness: a blank third argument changes nothing. -/
theorem modifyPrice_first_two_witness :
    modifyPrice ⟨ascii "tx2", (1, 0), widgetLedger⟩ [ascii "i1", ascii "12.50", ascii " "] =
      modifyPrice ⟨ascii "tx2", (1, 0), widgetLedger⟩
        ([ascii "i1", ascii "12.50", ascii " "].take 2) :=
  modifyPrice_first_two ⟨ascii "tx2", (1, 0), widgetLedger⟩
    [ascii "i1", ascii "12.50", ascii " "] (by decide)

/-- C9: `Invoke` on a name that is none of the five handled names fails with
`Received unknown function invocation` and returns the ledger as it was; on
each of the five names it returns what the handler of that name returns. -/
theorem Invoke_dispatch (timeString : Int → Int → Bytes) (stub : Stub) (function : Bytes)
    (args : List Bytes) :
    ((function ≠ ascii "addItem" ∧ function ≠ ascii "modifyPrice" ∧
        function ≠ ascii "removeItem" ∧ function ≠ ascii "queryItem" ∧
        function ≠ ascii "history") →
      Invoke timeString stub function args =
        (shim.Error (ascii "Received unknown function invocation"), stub.ledger)) ∧
    Invoke timeString stub (ascii "addItem") args = addItem stub args ∧
    Invoke timeString stub (ascii "modifyPrice") args = modifyPrice stub args ∧
    Invoke timeString stub (ascii "removeItem") args = removeItem stub args ∧
    Invoke timeString stub (ascii "queryItem") args = queryItem stub args ∧
    Invoke timeString stub (ascii "history") args = history timeString stub args := by
  refine ⟨fun h => ?_, ?_, ?_, ?_, ?_, ?_⟩
  · rw [Invoke, if_neg h.1, if_neg h.2.1, if_neg h.2.2.1, if_neg h.2.2.2.1, if_neg h.2.2.2.2]
  · rw [Invoke, if_pos rfl]
  · rw [Invoke, if_neg (by decide), if_pos rfl]
  · rw [Invoke, if_neg (by decide), if_neg (by decide), if_pos rfl]
  · rw [Invoke, if_neg (by decide), if_neg (by decide), if_neg (by decide), if_pos rfl]
  · rw [Invoke, if_neg (by decide), if_neg (by decide), if_neg (by decide), if_neg (by decide),
      if_pos rfl]

/-- C9, witness: the name `deleteItem` is not handled. -/
theorem Invoke_dispatch_witness :
    Invoke (fun _ _ => []) ⟨ascii "tx2", (1, 0), widgetLedger⟩ (ascii "deleteItem")
        [ascii "i1"] =
      (shim.Error (ascii "Received unknown function invocation"), widgetLedger) :=
  (Invoke_dispatch (fun _ _ => []) ⟨ascii "tx2", (1, 0), widgetLedger⟩ (ascii "deleteItem")
    [ascii "i1"]).1 (by decide)

/-- C10: when the store holds the bytes `b` under a non-blank `id`, whatever
they are, `queryItem` succeeds with the payload `b` and returns the ledger as
it was. -/
theorem queryItem_raw (stub : Stub) (id b : Bytes) (hheld : stub.ledger.state id = some b)
    (h0 : blank id = false) : queryItem stub [id] = (shim.Success b, stub.ledger) := by
  simp [queryItem, h0, Stub.GetState, hheld]

/-- C10, witness: a stored value that is not JSON at all is returned as it is. -/
theorem queryItem_raw_witness :
    queryItem ⟨ascii "tx1", (0, 0),
        ⟨fun k => if k = ascii "k" then some [0xFF, 0x00, 0x7B] else none, fun _ => []⟩⟩
        [ascii "k"] =
      (shim.Success [0xFF, 0x00, 0x7B],
        ⟨fun k => if k = ascii "k" then some [0xFF, 0x00, 0x7B] else none, fun _ => []⟩) :=
  queryItem_raw _ (ascii "k") [0xFF, 0x00, 0x7B] (by decide) (by decide)

/-! ## What an invocation can do to the ledger -/

theorem PutState_eq (stub : Stub) (key value : Bytes) :
    stub.PutState key value = .ok (stub.ledger.put stub.TxID stub.TxTimestamp key value) := rfl

theorem addItem_outcome (stub : Stub) (args : List Bytes) :
    WriteOutcome stub (args.getD 0 []) (addItem stub args) := by
  unfold WriteOutcome
  rw [addItem]
  by_cases h : args.length ≠ 5
  · rw [if_pos h]; exact Or.inl ⟨_, rfl⟩
  rw [if_neg h]
  by_cases h0 : blank (args.getD 0 []) = true
  · rw [if_pos h0]; exact Or.inl ⟨_, rfl⟩
  rw [if_neg h0]
  by_cases h1 : blank (args.getD 1 []) = true
  · rw [if_pos h1]; exact Or.inl ⟨_, rfl⟩
  rw [if_neg h1]
  by_cases h2 : blank (args.getD 2 []) = true
  · rw [if_pos h2]; exact Or.inl ⟨_, rfl⟩
  rw [if_neg h2]
  by_cases h3 : blank (args.getD 3 []) = true
  · rw [if_pos h3]; exact Or.inl ⟨_, rfl⟩
  rw [if_neg h3]
  by_cases h4 : blank (args.getD 4 []) = true
  · rw [if_pos h4]; exact Or.inl ⟨_, rfl⟩
  rw [if_neg h4]
  simp only [Stub.GetState]
  cases hs : stub.ledger.state (args.getD 0 []) with
  | some b => exact Or.inl ⟨_, rfl⟩
  | none => exact Or.inr ⟨⟨args.getD 0 [], args.getD 1 [], args.getD 2 [], args.getD 3 [],
      args.getD 4 []⟩, rfl⟩

theorem modifyPrice_outcome (stub : Stub) (args : List Bytes) :
    WriteOutcome stub (args.getD 0 []) (modifyPrice stub args) := by
  unfold WriteOutcome
  rw [modifyPrice]
  by_cases h : args.length < 2
  · rw [if_pos h]; exact Or.inl ⟨_, rfl⟩
  rw [if_neg h]
  by_cases h0 : blank (args.getD 0 []) = true
  · rw [if_pos h0]; exact Or.inl ⟨_, rfl⟩
  rw [if_neg h0]
  by_cases h1 : blank (args.getD 1 []) = true
  · rw [if_pos h1]; exact Or.inl ⟨_, rfl⟩
  rw [if_neg h1]
  simp only [Stub.GetState]
  cases hs : stub.ledger.state (args.getD 0 []) with
  | none => exact Or.inl ⟨_, rfl⟩
  | some b =>
    simp only
    cases hu : Unmarshal b item.zero with
    | error e => exact Or.inl ⟨_, rfl⟩
    | ok r => exact Or.inr ⟨{ r with Price := args.getD 1 [] }, rfl⟩

theorem removeItem_outcome (stub : Stub) (args : List Bytes) :
    WriteOutcome stub (args.getD 0 []) (removeItem stub args) := by
  unfold WriteOutcome
  rw [removeItem]
  by_cases h : args.length ≠ 1
  · rw [if_pos h]; exact Or.inl ⟨_, rfl⟩
  rw [if_neg h]
  by_cases h0 : blank (args.getD 0 []) = true
  · rw [if_pos h0]; exact Or.inl ⟨_, rfl⟩
  rw [if_neg h0]
  simp only [Stub.GetState]
  cases hs : stub.ledger.state (args.getD 0 []) with
  | none => exact Or.inl ⟨_, rfl⟩
  | some b =>
    simp only
    cases hu : Unmarshal b item.zero with
    | error e => exact Or.inl ⟨_, rfl⟩
    | ok r => exact Or.inr ⟨{ r with State := ascii "REMOVED" }, rfl⟩

/-- What a reading handler can do: fail or succeed, the ledger returned as it
was. -/
theorem queryItem_outcome (stub : Stub) (args : List Bytes) :
    (∃ msg, queryItem stub args = (shim.Error msg, stub.ledger)) ∨
    (∃ payload, queryItem stub args = (shim.Success payload, stub.ledger)) := by
  rw [queryItem]
  by_cases h : args.length ≠ 1
  · rw [if_pos h]; exact Or.inl ⟨_, rfl⟩
  rw [if_neg h]
  by_cases h0 : blank (args.getD 0 []) = true
  · rw [if_pos h0]; exact Or.inl ⟨_, rfl⟩
  rw [if_neg h0]
  simp only [Stub.GetState]
  cases hs : stub.ledger.state (args.getD 0 []) with
  | none => exact Or.inl ⟨_, rfl⟩
  | some b => exact Or.inr ⟨_, rfl⟩

theorem history_outcome (timeString : Int → Int → Bytes) (stub : Stub) (args : List Bytes) :
    (∃ msg, history timeString stub args = (shim.Error msg, stub.ledger)) ∨
    (∃ payload, history timeString stub args = (shim.Success payload, stub.ledger)) := by
  rw [history]
  by_cases h : args.length ≠ 1
  · rw [if_pos h]; exact Or.inl ⟨_, rfl⟩
  rw [if_neg h]
  by_cases h0 : blank (args.getD 0 []) = true
  · rw [if_pos h0]; exact Or.inl ⟨_, rfl⟩
  rw [if_neg h0]
  exact Or.inr ⟨_, rfl⟩

/-! ## The history array -/

theorem historyLoop_cons (timeString : Int → Int → Bytes) (w : Bool) (e : KeyModification)
    (es : List KeyModification) :
    historyLoop timeString w (e :: es) =
      (if w then ascii "," else []) ++ entryObject timeString e ++
        historyLoop timeString true es := by
  simp only [historyLoop, entryObject, quoted, List.append_assoc]

theorem intercalate_cons_cons (sep a b : Bytes) (l : List Bytes) :
    List.intercalate sep (a :: b :: l) = a ++ sep ++ List.intercalate sep (b :: l) := by
  simp [List.intercalate, List.intersperse]

theorem historyLoop_true (timeString : Int → Int → Bytes) (e : KeyModification)
    (es : List KeyModification) :
    entryObject timeString e ++ historyLoop timeString true es =
      List.intercalate (ascii ",") ((e :: es).map (entryObject timeString)) := by
  induction es generalizing e with
  | nil => simp [historyLoop, List.intercalate, List.intersperse]
  | cons e' es ih =>
    rw [historyLoop_cons, List.map_cons, List.map_cons, intercalate_cons_cons, ← List.map_cons,
      ← ih e']
    simp [List.append_assoc]

theorem historyLoop_false (timeString : Int → Int → Bytes) (es : List KeyModification) :
    ascii "[" ++ historyLoop timeString false es ++ ascii "]" = historyArray timeString es := by
  cases es with
  | nil => simp [historyLoop, historyArray, List.intercalate, List.intersperse]
  | cons e es =>
    rw [historyLoop_cons, historyArray, ← historyLoop_true]
    simp

/-- What `history` returns for a non-blank `id`: the array of the entries of
the history of `id`, and the ledger as it was. -/
theorem history_success (timeString : Int → Int → Bytes) (stub : Stub) (id : Bytes)
    (h0 : blank id = false) :
    history timeString stub [id] =
      (shim.Success (historyArray timeString (stub.ledger.history id)), stub.ledger) := by
  have e := historyLoop_false timeString (stub.ledger.history id)
  simp only [List.append_assoc] at e
  simp [history, h0, Stub.GetHistoryForKey, e]

/-- C12: for a non-blank `id`, `history` succeeds with the array that has one
object per entry of the history the ledger returns for `id`, in the order of
the ledger, each object with the fields `TxId`, `Value`, `Timestamp`, `IsDelete`
in this order, `Value` being `null` for a delete marker and the value bytes as
they are otherwise, `IsDelete` the quoted `true` or `false` of the flag. -/
theorem history_emits_entries (timeString : Int → Int → Bytes) (stub : Stub) (id : Bytes)
    (h0 : blank id = false) :
    history timeString stub [id] =
      (shim.Success (historyArray timeString (stub.ledger.history id)), stub.ledger) :=
  history_success timeString stub id h0

/-- C12, witness: a history of a delete marker (with stray value bytes) above a
normal write. -/
theorem history_emits_entries_witness :
    history (fun _ _ => ascii "T") ⟨ascii "tx9", (9, 0),
        ⟨fun _ => none, fun k => if k = ascii "k" then
          [⟨ascii "tx2", ascii "junk", (2, 0), true⟩, ⟨ascii "tx1", ascii "17", (1, 0), false⟩]
          else []⟩⟩ [ascii "k"] =
      (shim.Success (ascii ("[\x7b\"TxId\":\"tx2\", \"Value\":null, \"Timestamp\":\"T\", " ++
          "\"IsDelete\":\"true\"\x7d,\x7b\"TxId\":\"tx1\", \"Value\":17, \"Timestamp\":\"T\", " ++
          "\"IsDelete\":\"false\"\x7d]")),
        ⟨fun _ => none, fun k => if k = ascii "k" then
          [⟨ascii "tx2", ascii "junk", (2, 0), true⟩, ⟨ascii "tx1", ascii "17", (1, 0), false⟩]
          else []⟩) :=
  (history_emits_entries (fun _ _ => ascii "T") ⟨ascii "tx9", (9, 0),
    ⟨fun _ => none, fun k => if k = ascii "k" then
      [⟨ascii "tx2", ascii "junk", (2, 0), true⟩, ⟨ascii "tx1", ascii "17", (1, 0), false⟩]
      else []⟩⟩ (ascii "k") (by decide)).trans (by
        refine Prod.ext ?_ rfl
        show shim.Success _ = shim.Success _
        congr 1)

/-! ## Writes, deletions and the other keys -/

theorem WriteOutcome.status {stub : Stub} {key : Bytes} {out : Response × Ledger}
    (h : WriteOutcome stub key out) :
    (out.1.Status = 500 ∧ out.2 = stub.ledger) ∨
    (out.1.Status = 200 ∧ ∃ value, out.1 = shim.Success value ∧
      stub.PutState key value = .ok out.2) := by
  rcases h with ⟨msg, rfl⟩ | ⟨v, rfl⟩
  · exact Or.inl ⟨rfl, rfl⟩
  · exact Or.inr ⟨rfl, v.json, rfl, rfl⟩

/-- C13: every operation commits its single write or none.  Each of the three
writing handlers either fails (status 500) and returns the ledger, values and
histories, as it was, or succeeds (status 200) and returns the ledger after
exactly one `PutState`, of its payload under the key `args[0]`; `queryItem` and
`history` return the ledger as it was whatever the response. -/
theorem single_write_or_none (timeString : Int → Int → Bytes) (stub : Stub)
    (args : List Bytes) :
    (((addItem stub args).1.Status = 500 ∧ (addItem stub args).2 = stub.ledger) ∨
      ((addItem stub args).1.Status = 200 ∧ ∃ value,
        (addItem stub args).1 = shim.Success value ∧
        stub.PutState (args.getD 0 []) value = .ok (addItem stub args).2)) ∧
    (((modifyPrice stub args).1.Status = 500 ∧ (modifyPrice stub args).2 = stub.ledger) ∨
      ((modifyPrice stub args).1.Status = 200 ∧ ∃ value,
        (modifyPrice stub args).1 = shim.Success value ∧
        stub.PutState (args.getD 0 []) value = .ok (modifyPrice stub args).2)) ∧
    (((removeItem stub args).1.Status = 500 ∧ (removeItem stub args).2 = stub.ledger) ∨
      ((removeItem stub args).1.Status = 200 ∧ ∃ value,
        (removeItem stub args).1 = shim.Success value ∧
        stub.PutState (args.getD 0 []) value = .ok (removeItem stub args).2)) ∧
    (queryItem stub args).2 = stub.ledger ∧
    (history timeString stub args).2 = stub.ledger :=
  ⟨(addItem_outcome stub args).status, (modifyPrice_outcome stub args).status,
    (removeItem_outcome stub args).status,
    by rcases queryItem_outcome stub args with ⟨m, h⟩ | ⟨p, h⟩ <;> rw [h],
    by rcases history_outcome timeString stub args with ⟨m, h⟩ | ⟨p, h⟩ <;> rw [h]⟩

/-- What any invocation can do: return the ledger as it was, or, for a writing
function, succeed and write the encoding of an item under `args[0]`. -/
theorem Invoke_outcome (timeString : Int → Int → Bytes) (stub : Stub) (function : Bytes)
    (args : List Bytes) :
    ((Invoke timeString stub function args).2 = stub.ledger ∧
      (isWrite function = true → (Invoke timeString stub function args).1.Status = 500)) ∨
    (isWrite function = true ∧ ∃ v : item, Invoke timeString stub function args =
      (shim.Success v.json,
        stub.ledger.put stub.TxID stub.TxTimestamp (args.getD 0 []) v.json)) := by
  rw [Invoke]
  by_cases h1 : function = ascii "addItem"
  · rw [if_pos h1]
    rcases addItem_outcome stub args with ⟨m, h⟩ | ⟨v, h⟩
    · exact Or.inl (by rw [h]; exact ⟨rfl, fun _ => rfl⟩)
    · exact Or.inr ⟨by rw [h1]; decide, v, h⟩
  rw [if_neg h1]
  by_cases h2 : function = ascii "modifyPrice"
  · rw [if_pos h2]
    rcases modifyPrice_outcome stub args with ⟨m, h⟩ | ⟨v, h⟩
    · exact Or.inl (by rw [h]; exact ⟨rfl, fun _ => rfl⟩)
    · exact Or.inr ⟨by rw [h2]; decide, v, h⟩
  rw [if_neg h2]
  by_cases h3 : function = ascii "removeItem"
  · rw [if_pos h3]
    rcases removeItem_outcome stub args with ⟨m, h⟩ | ⟨v, h⟩
    · exact Or.inl (by rw [h]; exact ⟨rfl, fun _ => rfl⟩)
    · exact Or.inr ⟨by rw [h3]; decide, v, h⟩
  rw [if_neg h3]
  have hw : isWrite function = false := by simp [isWrite, h1, h2, h3]
  refine Or.inl ⟨?_, fun h => by rw [hw] at h; exact absurd h (by simp)⟩
  by_cases h4 : function = ascii "queryItem"
  · rw [if_pos h4]
    rcases queryItem_outcome stub args with ⟨m, h⟩ | ⟨p, h⟩ <;> rw [h]
  rw [if_neg h4]
  by_cases h5 : function = ascii "history"
  · rw [if_pos h5]
    rcases history_outcome timeString stub args with ⟨m, h⟩ | ⟨p, h⟩ <;> rw [h]
  rw [if_neg h5]

/-- C13, witness: a failing and a succeeding `modifyPrice`, and a `queryItem`, on
the store holding the item `i1`. -/
theorem single_write_or_none_witness :
    (modifyPrice ⟨ascii "tx2", (1, 0), widgetLedger⟩ [ascii "i2", ascii "1"]).1.Status = 500 ∧
    (modifyPrice ⟨ascii "tx2", (1, 0), widgetLedger⟩ [ascii "i1", ascii "1"]).1.Status = 200 ∧
    ((queryItem ⟨ascii "tx2", (1, 0), widgetLedger⟩ [ascii "i1"]).2 = widgetLedger ∧
      (history (fun _ _ => []) ⟨ascii "tx2", (1, 0), widgetLedger⟩ [ascii "i1"]).2 =
        widgetLedger) :=
  ⟨by decide, by decide,
    (single_write_or_none (fun _ _ => []) ⟨ascii "tx2", (1, 0), widgetLedger⟩
      [ascii "i1"]).2.2.2⟩

/-- C18: no invocation deletes a record.  A key that holds a value before the
invocation holds a value after it, and the history of a key after the
invocation is its history before, or that history under one new entry that is
not a delete marker. -/
theorem never_deleted (timeString : Int → Int → Bytes) (stub : Stub) (function : Bytes)
    (args : List Bytes) (k : Bytes) :
    ((stub.ledger.state k).isSome = true →
      ((Invoke timeString stub function args).2.state k).isSome = true) ∧
    ((Invoke timeString stub function args).2.history k = stub.ledger.history k ∨
      ∃ e : KeyModification, e.IsDelete = false ∧
        (Invoke timeString stub function args).2.history k = e :: stub.ledger.history k) := by
  rcases Invoke_outcome timeString stub function args with ⟨h, _⟩ | ⟨_, v, h⟩
  · rw [h]; exact ⟨id, Or.inl rfl⟩
  · rw [h]
    simp only [Ledger.put]
    by_cases hk : k = args.getD 0 []
    · rw [if_pos hk, if_pos hk]
      exact ⟨fun _ => rfl, Or.inr ⟨_, rfl, rfl⟩⟩
    · rw [if_neg hk, if_neg hk]
      exact ⟨id, Or.inl rfl⟩

/-- C18, witness: `removeItem` on the item `i1` leaves a value under `i1`. -/
theorem never_deleted_witness :
    ((Invoke (fun _ _ => []) ⟨ascii "tx2", (1, 0), widgetLedger⟩ (ascii "removeItem")
      [ascii "i1"]).2.state (ascii "i1")).isSome = true :=
  (never_deleted (fun _ _ => []) ⟨ascii "tx2", (1, 0), widgetLedger⟩ (ascii "removeItem")
    [ascii "i1"] (ascii "i1")).1 (by decide)

theorem addItem_local (stub other : Stub) (args : List Bytes)
    (hs : other.ledger.state (args.getD 0 []) = stub.ledger.state (args.getD 0 [])) :
    (addItem other args).1 = (addItem stub args).1 := by
  rw [addItem, addItem]
  by_cases h : args.length ≠ 5
  · rw [if_pos h, if_pos h]
  rw [if_neg h, if_neg h]
  by_cases h0 : blank (args.getD 0 []) = true
  · rw [if_pos h0, if_pos h0]
  rw [if_neg h0, if_neg h0]
  by_cases h1 : blank (args.getD 1 []) = true
  · rw [if_pos h1, if_pos h1]
  rw [if_neg h1, if_neg h1]
  by_cases h2 : blank (args.getD 2 []) = true
  · rw [if_pos h2, if_pos h2]
  rw [if_neg h2, if_neg h2]
  by_cases h3 : blank (args.getD 3 []) = true
  · rw [if_pos h3, if_pos h3]
  rw [if_neg h3, if_neg h3]
  by_cases h4 : blank (args.getD 4 []) = true
  · rw [if_pos h4, if_pos h4]
  rw [if_neg h4, if_neg h4]
  simp only [Stub.GetState, hs]
  cases stub.ledger.state (args.getD 0 []) <;> rfl

theorem modifyPrice_local (stub other : Stub) (args : List Bytes)
    (hs : other.ledger.state (args.getD 0 []) = stub.ledger.state (args.getD 0 [])) :
    (modifyPrice other args).1 = (modifyPrice stub args).1 := by
  rw [modifyPrice, modifyPrice]
  by_cases h : args.length < 2
  · rw [if_pos h, if_pos h]
  rw [if_neg h, if_neg h]
  by_cases h0 : blank (args.getD 0 []) = true
  · rw [if_pos h0, if_pos h0]
  rw [if_neg h0, if_neg h0]
  by_cases h1 : blank (args.getD 1 []) = true
  · rw [if_pos h1, if_pos h1]
  rw [if_neg h1, if_neg h1]
  simp only [Stub.GetState, hs]
  cases stub.ledger.state (args.getD 0 []) with
  | none => rfl
  | some b => simp only; cases Unmarshal b item.zero <;> rfl

theorem removeItem_local (stub other : Stub) (args : List Bytes)
    (hs : other.ledger.state (args.getD 0 []) = stub.ledger.state (args.getD 0 [])) :
    (removeItem other args).1 = (removeItem stub args).1 := by
  rw [removeItem, removeItem]
  by_cases h : args.length ≠ 1
  · rw [if_pos h, if_pos h]
  rw [if_neg h, if_neg h]
  by_cases h0 : blank (args.getD 0 []) = true
  · rw [if_pos h0, if_pos h0]
  rw [if_neg h0, if_neg h0]
  simp only [Stub.GetState, hs]
  cases stub.ledger.state (args.getD 0 []) with
  | none => rfl
  | some b => simp only; cases Unmarshal b item.zero <;> rfl

theorem queryItem_local (stub other : Stub) (args : List Bytes)
    (hs : other.ledger.state (args.getD 0 []) = stub.ledger.state (args.getD 0 [])) :
    (queryItem other args).1 = (queryItem stub args).1 := by
  rw [queryItem, queryItem]
  by_cases h : args.length ≠ 1
  · rw [if_pos h, if_pos h]
  rw [if_neg h, if_neg h]
  by_cases h0 : blank (args.getD 0 []) = true
  · rw [if_pos h0, if_pos h0]
  rw [if_neg h0, if_neg h0]
  simp only [Stub.GetState, hs]
  cases stub.ledger.state (args.getD 0 []) <;> rfl

theorem history_local (timeString : Int → Int → Bytes) (stub other : Stub) (args : List Bytes)
    (hh : other.ledger.history (args.getD 0 []) = stub.ledger.history (args.getD 0 [])) :
    (history timeString other args).1 = (history timeString stub args).1 := by
  rw [history, history]
  by_cases h : args.length ≠ 1
  · rw [if_pos h, if_pos h]
  rw [if_neg h, if_neg h]
  by_cases h0 : blank (args.getD 0 []) = true
  · rw [if_pos h0, if_pos h0]
  rw [if_neg h0, if_neg h0]
  simp only [Stub.GetHistoryForKey, hh]

/-- C20: an invocation reads and writes only the record keyed by its first
argument.  For every function name, argument list and ledger, the value and
the history of every key other than `args[0]` are after the invocation what
they were before, and the response is the same on every other ledger that has
the same value and the same history under `args[0]`. -/
theorem single_key (timeString : Int → Int → Bytes) (stub other : Stub) (function : Bytes)
    (args : List Bytes) :
    (∀ k, k ≠ args.getD 0 [] →
      (Invoke timeString stub function args).2.state k = stub.ledger.state k ∧
      (Invoke timeString stub function args).2.history k = stub.ledger.history k) ∧
    (other.ledger.state (args.getD 0 []) = stub.ledger.state (args.getD 0 []) →
      other.ledger.history (args.getD 0 []) = stub.ledger.history (args.getD 0 []) →
      (Invoke timeString other function args).1 = (Invoke timeString stub function args).1) := by
  refine ⟨fun k hk => ?_, fun hs hh => ?_⟩
  · rcases Invoke_outcome timeString stub function args with ⟨h, _⟩ | ⟨_, v, h⟩
    · rw [h]; exact ⟨rfl, rfl⟩
    · rw [h]
      simp only [Ledger.put]
      rw [if_neg hk, if_neg hk]
      exact ⟨rfl, rfl⟩
  · rw [Invoke, Invoke]
    by_cases h1 : function = ascii "addItem"
    · rw [if_pos h1, if_pos h1]; exact addItem_local stub other args hs
    rw [if_neg h1, if_neg h1]
    by_cases h2 : function = ascii "modifyPrice"
    · rw [if_pos h2, if_pos h2]; exact modifyPrice_local stub other args hs
    rw [if_neg h2, if_neg h2]
    by_cases h3 : function = ascii "removeItem"
    · rw [if_pos h3, if_pos h3]; exact removeItem_local stub other args hs
    rw [if_neg h3, if_neg h3]
    by_cases h4 : function = ascii "queryItem"
    · rw [if_pos h4, if_pos h4]; exact queryItem_local stub other args hs
    rw [if_neg h4, if_neg h4]
    by_cases h5 : function = ascii "history"
    · rw [if_pos h5, if_pos h5]; exact history_local timeString stub other args hh
    rw [if_neg h5, if_neg h5]

/-- C20, witness: `modifyPrice` for `i1` leaves the key `i2` alone, and answers
on the ledger holding only `i1` as on the ledger that was given `i2` as well. -/
theorem single_key_witness :
    ((Invoke (fun _ _ => []) ⟨ascii "tx2", (1, 0), widgetLedger⟩ (ascii "modifyPrice")
        [ascii "i1", ascii "12.50"]).2.state (ascii "i2") = widgetLedger.state (ascii "i2") ∧
      (Invoke (fun _ _ => []) ⟨ascii "tx2", (1, 0), widgetLedger⟩ (ascii "modifyPrice")
        [ascii "i1", ascii "12.50"]).2.history (ascii "i2") =
        widgetLedger.history (ascii "i2")) ∧
    (Invoke (fun _ _ => []) ⟨ascii "tx3", (2, 0),
        widgetLedger.put (ascii "tx2") (1, 0) (ascii "i2") (ascii "x")⟩ (ascii "modifyPrice")
        [ascii "i1", ascii "12.50"]).1 =
      (Invoke (fun _ _ => []) ⟨ascii "tx2", (1, 0), widgetLedger⟩ (ascii "modifyPrice")
        [ascii "i1", ascii "12.50"]).1 :=
  ⟨(single_key (fun _ _ => []) ⟨ascii "tx2", (1, 0), widgetLedger⟩
      ⟨ascii "tx3", (2, 0), widgetLedger.put (ascii "tx2") (1, 0) (ascii "i2") (ascii "x")⟩
      (ascii "modifyPrice") [ascii "i1", ascii "12.50"]).1 (ascii "i2") (by decide),
   (single_key (fun _ _ => []) ⟨ascii "tx2", (1, 0), widgetLedger⟩
      ⟨ascii "tx3", (2, 0), widgetLedger.put (ascii "tx2") (1, 0) (ascii "i2") (ascii "x")⟩
      (ascii "modifyPrice") [ascii "i1", ascii "12.50"]).2 (by decide) (by decide)⟩

/-- C14, as amended: when `json.Unmarshal` rejects the value stored under a
non-blank `id`, `modifyPrice` (with a non-blank price) and `removeItem` fail
with the error of the decoder and return the ledger as it was. -/
theorem decode_error_aborts (stub : Stub) (id p b : Bytes) (e : JsonError)
    (hheld : stub.ledger.state id = some b) (hdec : Unmarshal b item.zero = .error e)
    (h0 : blank id = false) (h1 : blank p = false) :
    modifyPrice stub [id, p] = (shim.Error e.Error, stub.ledger) ∧
    removeItem stub [id] = (shim.Error e.Error, stub.ledger) := by
  constructor
  · simp [modifyPrice, h0, h1, Stub.GetState, hheld, hdec]
  · simp [removeItem, h0, Stub.GetState, hheld, hdec]

/-- C14, witness: the stored value is an object whose price is a number. -/
theorem decode_error_aborts_witness :
    modifyPrice ⟨ascii "tx1", (0, 0),
        ⟨fun k => if k = ascii "k" then some (ascii "\x7b\"price\":3\x7d") else none,
          fun _ => []⟩⟩ [ascii "k", ascii "1"] =
      (shim.Error (JsonError.UnmarshalTypeError "number" "string" "item" "price").Error,
        ⟨fun k => if k = ascii "k" then some (ascii "\x7b\"price\":3\x7d") else none,
          fun _ => []⟩) ∧
    removeItem ⟨ascii "tx1", (0, 0),
        ⟨fun k => if k = ascii "k" then some (ascii "\x7b\"price\":3\x7d") else none,
          fun _ => []⟩⟩ [ascii "k"] =
      (shim.Error (JsonError.UnmarshalTypeError "number" "string" "item" "price").Error,
        ⟨fun k => if k = ascii "k" then some (ascii "\x7b\"price\":3\x7d") else none,
          fun _ => []⟩) :=
  decode_error_aborts _ (ascii "k") (ascii "1") (ascii "\x7b\"price\":3\x7d")
    (JsonError.UnmarshalTypeError "number" "string" "item" "price") (by decide) (by decide) (by decide)
    (by decide)

/-- C14, counterexample: the stored value is the bytes of the empty object (and,
in the second half, of `null`), not a Record payload.  `json.Unmarshal` accepts
both and leaves every field empty; `modifyPrice` and `removeItem` succeed and
write an item whose other fields are empty. -/
theorem decode_error_aborts_counterexample :
    Unmarshal (ascii "\x7b\x7d") item.zero = .ok item.zero ∧
    Unmarshal (ascii "null") item.zero = .ok item.zero ∧
    (modifyPrice ⟨ascii "tx1", (0, 0),
        ⟨fun k => if k = ascii "k" then some (ascii "\x7b\x7d") else none, fun _ => []⟩⟩
        [ascii "k", ascii "1"]).1.Status = 200 ∧
    (modifyPrice ⟨ascii "tx1", (0, 0),
        ⟨fun k => if k = ascii "k" then some (ascii "\x7b\x7d") else none, fun _ => []⟩⟩
        [ascii "k", ascii "1"]).2.state (ascii "k") =
      some (ascii ("\x7b\"id\":\"\",\"name\":\"\",\"description\":\"\",\"price\":\"1\"," ++
        "\"state\":\"\"\x7d")) ∧
    (removeItem ⟨ascii "tx1", (0, 0),
        ⟨fun k => if k = ascii "k" then some (ascii "null") else none, fun _ => []⟩⟩
        [ascii "k"]).1.Status = 200 ∧
    (removeItem ⟨ascii "tx1", (0, 0),
        ⟨fun k => if k = ascii "k" then some (ascii "null") else none, fun _ => []⟩⟩
        [ascii "k"]).2.state (ascii "k") =
      some (ascii ("\x7b\"id\":\"\",\"name\":\"\",\"description\":\"\",\"price\":\"\"," ++
        "\"state\":\"REMOVED\"\x7d")) := by
  decide

/-- C15, as amended (the id is not blank): when the value stored under a
non-blank `id` decodes to an item,
a second `removeItem` returns the response of the first and leaves under `id`
the value the first left, while each of the two calls puts one new entry on top
of the history of `id`. -/
theorem removeItem_twice (stub : Stub) (tx : Bytes) (ts : Int × Int) (id b : Bytes) (r : item)
    (hheld : stub.ledger.state id = some b) (hdec : Unmarshal b item.zero = .ok r)
    (h0 : blank id = false) :
    (removeItem ⟨tx, ts, (removeItem stub [id]).2⟩ [id]).1 = (removeItem stub [id]).1 ∧
    (removeItem stub [id]).1.Status = 200 ∧
    (removeItem ⟨tx, ts, (removeItem stub [id]).2⟩ [id]).2.state id =
      (removeItem stub [id]).2.state id ∧
    (removeItem stub [id]).2.history id =
      ⟨stub.TxID, (removeItem stub [id]).1.Payload, stub.TxTimestamp, false⟩ ::
        stub.ledger.history id ∧
    (removeItem ⟨tx, ts, (removeItem stub [id]).2⟩ [id]).2.history id =
      ⟨tx, (removeItem stub [id]).1.Payload, ts, false⟩ ::
        ⟨stub.TxID, (removeItem stub [id]).1.Payload, stub.TxTimestamp, false⟩ ::
          stub.ledger.history id := by
  have hr := Unmarshal_valid b item.zero r item_zero_valid hdec
  have hv : item.Valid { r with State := ascii "REMOVED" } :=
    ⟨hr.1, hr.2.1, hr.2.2.1, hr.2.2.2.1, validUTF8_of_ascii (ascii "REMOVED") (by decide)⟩
  have e1 := removeItem_held stub id b r hheld hdec h0
  have e2 := removeItem_held ⟨tx, ts, (removeItem stub [id]).2⟩ id
    (item.json { r with State := ascii "REMOVED" }) { r with State := ascii "REMOVED" }
    (by rw [e1]; simp) (Unmarshal_json _ _ hv) h0
  rw [e2, e1]
  simp [shim.Success]

/-- C15, witness: two calls of `removeItem` for the item `i1`. -/
theorem removeItem_twice_witness :
    (removeItem ⟨ascii "tx3", (2, 0),
        (removeItem ⟨ascii "tx2", (1, 0), widgetLedger⟩ [ascii "i1"]).2⟩ [ascii "i1"]).1 =
      (removeItem ⟨ascii "tx2", (1, 0), widgetLedger⟩ [ascii "i1"]).1 ∧
    ((removeItem ⟨ascii "tx3", (2, 0),
        (removeItem ⟨ascii "tx2", (1, 0), widgetLedger⟩ [ascii "i1"]).2⟩
        [ascii "i1"]).2.history (ascii "i1")).length =
      (widgetLedger.history (ascii "i1")).length + 2 :=
  ⟨(removeItem_twice ⟨ascii "tx2", (1, 0), widgetLedger⟩ (ascii "tx3") (2, 0) (ascii "i1")
      widget.json widget (by decide) (by decide) (by decide)).1,
   by decide⟩

/-- C15, counterexample: the store holds a record of five fields under the key
of one space.  Both calls of `removeItem` fail with the notice that the id must
be non-empty, and the history of the key has no new entry after them. -/
theorem removeItem_twice_counterexample :
    Unmarshal (item.json ⟨ascii " ", ascii "Widget", ascii "A widget", ascii "9.99",
      ascii "ACTIVE"⟩) item.zero =
      .ok ⟨ascii " ", ascii "Widget", ascii "A widget", ascii "9.99", ascii "ACTIVE"⟩ ∧
    (removeItem ⟨ascii "tx2", (1, 0),
        ⟨fun k => if k = ascii " " then some (item.json ⟨ascii " ", ascii "Widget",
          ascii "A widget", ascii "9.99", ascii "ACTIVE"⟩) else none, fun _ => []⟩⟩
        [ascii " "]).1.Status = 500 ∧
    (removeItem ⟨ascii "tx3", (2, 0), (removeItem ⟨ascii "tx2", (1, 0),
        ⟨fun k => if k = ascii " " then some (item.json ⟨ascii " ", ascii "Widget",
          ascii "A widget", ascii "9.99", ascii "ACTIVE"⟩) else none, fun _ => []⟩⟩
        [ascii " "]).2⟩ [ascii " "]).1.Status = 500 ∧
    (removeItem ⟨ascii "tx3", (2, 0), (removeItem ⟨ascii "tx2", (1, 0),
        ⟨fun k => if k = ascii " " then some (item.json ⟨ascii " ", ascii "Widget",
          ascii "A widget", ascii "9.99", ascii "ACTIVE"⟩) else none, fun _ => []⟩⟩
        [ascii " "]).2⟩ [ascii " "]).2.history (ascii " ") = [] := by
  decide

/-! ## The codec on strings that are not well-formed UTF-8 -/

theorem decodeSeq_valid (n sz lo hi p0 b1 b2 b3 : Nat) (h2 : 2 ≤ sz) (h4 : sz ≤ 4)
    (hne : decodeSeq n sz lo hi p0 b1 b2 b3 ≠ (RuneError, 1)) :
    (decodeSeq n sz lo hi p0 b1 b2 b3).2 = sz ∧ sz ≤ n ∧ lo ≤ b1 ∧ b1 ≤ hi ∧
    (3 ≤ sz → 0x80 ≤ b2 ∧ b2 ≤ 0xBF) ∧ (4 ≤ sz → 0x80 ≤ b3 ∧ b3 ≤ 0xBF) := by
  rw [decodeSeq] at hne ⊢
  by_cases c1 : n < sz
  · rw [if_pos c1] at hne; exact absurd rfl hne
  rw [if_neg c1] at hne ⊢
  by_cases c2 : b1 < lo ∨ hi < b1
  · rw [if_pos c2] at hne; exact absurd rfl hne
  rw [if_neg c2] at hne ⊢
  by_cases c3 : sz ≤ 2
  · rw [if_pos c3]
    exact ⟨by show 2 = sz; omega, by omega, by omega, by omega, by omega, by omega⟩
  rw [if_neg c3] at hne ⊢
  by_cases c4 : b2 < 0x80 ∨ 0xBF < b2
  · rw [if_pos c4] at hne; exact absurd rfl hne
  rw [if_neg c4] at hne ⊢
  by_cases c5 : sz ≤ 3
  · rw [if_pos c5]
    exact ⟨by show 3 = sz; omega, by omega, by omega, by omega, fun _ => by omega, by omega⟩
  rw [if_neg c5] at hne ⊢
  by_cases c6 : b3 < 0x80 ∨ 0xBF < b3
  · rw [if_pos c6] at hne; exact absurd rfl hne
  rw [if_neg c6]
  exact ⟨by show 4 = sz; omega, by omega, by omega, by omega, fun _ => by omega,
    fun _ => by omega⟩

theorem decodeSeq_congr (n n' sz lo hi p0 b1 b2 b3 b2' b3' : Nat) (h2 : 2 ≤ sz) (h4 : sz ≤ 4)
    (hne : decodeSeq n sz lo hi p0 b1 b2 b3 ≠ (RuneError, 1)) (hn : sz ≤ n')
    (e2 : 3 ≤ sz → b2' = b2) (e3 : 4 ≤ sz → b3' = b3) :
    decodeSeq n' sz lo hi p0 b1 b2' b3' = decodeSeq n sz lo hi p0 b1 b2 b3 := by
  obtain ⟨_, hn0, hl, hh, hc2, hc3⟩ := decodeSeq_valid n sz lo hi p0 b1 b2 b3 h2 h4 hne
  have hsz : sz = 2 ∨ sz = 3 ∨ sz = 4 := by omega
  rcases hsz with rfl | rfl | rfl
  · rw [decodeSeq_two _ _ _ _ _ _ _ hn hl hh, decodeSeq_two _ _ _ _ _ _ _ hn0 hl hh]
  · have := hc2 (by omega)
    rw [e2 (by omega), decodeSeq_three _ _ _ _ _ _ _ hn hl hh this.1 this.2,
      decodeSeq_three _ _ _ _ _ _ _ hn0 hl hh this.1 this.2]
  · have h2' := hc2 (by omega)
    have h3' := hc3 (by omega)
    rw [e2 (by omega), e3 (by omega),
      decodeSeq_four _ _ _ _ _ _ _ hn hl hh h2'.1 h2'.2 h3'.1 h3'.2,
      decodeSeq_four _ _ _ _ _ _ _ hn0 hl hh h2'.1 h2'.2 h3'.1 h3'.2]

/-- The class of a first byte `b ≥ 0x80`: it is never the start of a rune, or
it announces a width and an accept range that depend on `b` alone. -/
theorem decodeRune_class (b : Nat) (hb : 0x80 ≤ b) :
    (∀ p : Bytes, decodeRune (b :: p) = (RuneError, 1)) ∨
    ∃ sz lo hi, 2 ≤ sz ∧ sz ≤ 4 ∧ 0x80 ≤ lo ∧ ∀ p : Bytes,
      decodeRune (b :: p) =
        decodeSeq (p.length + 1) sz lo hi b (p.getD 0 0) (p.getD 1 0) (p.getD 2 0) := by
  have key : ∀ p : Bytes, decodeRune (b :: p) =
      decodeRuneBytes (p.length + 1) b (p.getD 0 0) (p.getD 1 0) (p.getD 2 0) := fun p => rfl
  by_cases c1 : b < 0xC2
  · left; intro p
    rw [key, decodeRuneBytes, if_neg (by omega), if_neg (by omega), if_pos c1]
  by_cases c2 : b < 0xE0
  · right; refine ⟨2, 0x80, 0xBF, by omega, by omega, by omega, fun p => ?_⟩
    rw [key, decodeRuneBytes, if_neg (by omega), if_neg (by omega), if_neg c1, if_pos c2]
  by_cases c3 : b = 0xE0
  · right; refine ⟨3, 0xA0, 0xBF, by omega, by omega, by omega, fun p => ?_⟩
    rw [key, decodeRuneBytes, if_neg (by omega), if_neg (by omega), if_neg c1, if_neg c2,
      if_pos c3]
  by_cases c4 : b = 0xED
  · right; refine ⟨3, 0x80, 0x9F, by omega, by omega, by omega, fun p => ?_⟩
    rw [key, decodeRuneBytes, if_neg (by omega), if_neg (by omega), if_neg c1, if_neg c2,
      if_neg c3, if_pos c4]
  by_cases c5 : b < 0xF0
  · right; refine ⟨3, 0x80, 0xBF, by omega, by omega, by omega, fun p => ?_⟩
    rw [key, decodeRuneBytes, if_neg (by omega), if_neg (by omega), if_neg c1, if_neg c2,
      if_neg c3, if_neg c4, if_pos c5]
  by_cases c6 : b = 0xF0
  · right; refine ⟨4, 0x90, 0xBF, by omega, by omega, by omega, fun p => ?_⟩
    rw [key, decodeRuneBytes, if_neg (by omega), if_neg (by omega), if_neg c1, if_neg c2,
      if_neg c3, if_neg c4, if_neg c5, if_pos c6]
  by_cases c7 : b < 0xF4
  · right; refine ⟨4, 0x80, 0xBF, by omega, by omega, by omega, fun p => ?_⟩
    rw [key, decodeRuneBytes, if_neg (by omega), if_neg (by omega), if_neg c1, if_neg c2,
      if_neg c3, if_neg c4, if_neg c5, if_neg c6, if_pos c7]
  by_cases c8 : b = 0xF4
  · right; refine ⟨4, 0x80, 0x8F, by omega, by omega, by omega, fun p => ?_⟩
    rw [key, decodeRuneBytes, if_neg (by omega), if_neg (by omega), if_neg c1, if_neg c2,
      if_neg c3, if_neg c4, if_neg c5, if_neg c6, if_neg c7, if_pos c8]
  left; intro p
  rw [key, decodeRuneBytes, if_neg (by omega), if_neg (by omega), if_neg c1, if_neg c2,
    if_neg c3, if_neg c4, if_neg c5, if_neg c6, if_neg c7, if_neg c8]

theorem getD_take_append (l t : Bytes) (i k : Nat) (hi : i < k) (hk : k ≤ l.length) :
    (l.take k ++ t).getD i 0 = l.getD i 0 := by
  have h1 : i < (l.take k).length := by simp; omega
  have h2 : i < l.length := by omega
  rw [List.getD_eq_getElem?_getD, List.getD_eq_getElem?_getD,
    List.getElem?_append_left h1, List.getElem?_take_of_lt hi]

theorem mem_take_getD (l : Bytes) (k x : Nat) (hk : k ≤ l.length) (hx : x ∈ l.take k) :
    ∃ i, i < k ∧ x = l.getD i 0 := by
  obtain ⟨i, hi, rfl⟩ := List.mem_iff_getElem.mp hx
  have hi' : i < k := by simp at hi; omega
  refine ⟨i, hi', ?_⟩
  rw [List.getElem_take, List.getD_eq_getElem?_getD, List.getElem?_eq_getElem (by omega)]
  rfl

/-- A multi-byte rune `decodeRune` accepts at the head of `b :: rest`: its
width is between 2 and 4 and within the input, its bytes are all `0x80` or
above, and they decode to the same rune whatever follows them. -/
theorem decodeRune_accept (b : Nat) (rest : Bytes) (hb : 0x80 ≤ b)
    (hne : decodeRune (b :: rest) ≠ (RuneError, 1)) :
    2 ≤ (decodeRune (b :: rest)).2 ∧ (decodeRune (b :: rest)).2 ≤ rest.length + 1 ∧
    (∀ x ∈ (b :: rest).take (decodeRune (b :: rest)).2, 0x80 ≤ x) ∧
    ∀ t, decodeRune ((b :: rest).take (decodeRune (b :: rest)).2 ++ t) =
      decodeRune (b :: rest) := by
  rcases decodeRune_class b hb with h | ⟨sz, lo, hi, h2, h4, hlo, h⟩
  · exact absurd (h rest) hne
  · have hr := h rest
    rw [hr] at hne
    obtain ⟨hs, hn, hl, hh, hc2, hc3⟩ := decodeSeq_valid _ sz lo hi b _ _ _ h2 h4 hne
    rw [hr, hs]
    obtain ⟨k, rfl⟩ : ∃ k, sz = k + 1 := ⟨sz - 1, by omega⟩
    have hk : k ≤ rest.length := by omega
    refine ⟨h2, hn, ?_, fun t => ?_⟩
    · intro x hx
      rw [List.take_succ_cons, List.mem_cons] at hx
      rcases hx with rfl | hx
      · exact hb
      · obtain ⟨i, hi', rfl⟩ := mem_take_getD rest k x hk hx
        have : i = 0 ∨ i = 1 ∨ i = 2 := by omega
        rcases this with rfl | rfl | rfl
        · omega
        · exact (hc2 (by omega)).1
        · exact (hc3 (by omega)).1
    · rw [List.take_succ_cons, List.cons_append, h (rest.take k ++ t)]
      rw [getD_take_append rest t 0 k (by omega) hk]
      refine decodeSeq_congr _ _ _ lo hi b _ _ _ _ _ h2 h4 hne (by simp; omega) ?_ ?_
      · intro h3
        exact getD_take_append rest t 1 k (by omega) hk
      · intro h3
        exact getD_take_append rest t 2 k (by omega) hk

theorem stringBody_cons_ascii (b : Nat) (rest : Bytes) (hb : b < 0x80) :
    stringBody (b :: rest) = (if htmlSafeSet b = true then [b] else escapeByte b) ++
      stringBody rest := by
  simp only [stringBody, List.length_cons]
  rw [appendString, if_pos hb]
  by_cases h : htmlSafeSet b = true
  · rw [if_pos h, if_pos h]; rfl
  · rw [if_neg h, if_neg h]

theorem runeBody_replacement : runeBody 0xFFFD = [0xEF, 0xBF, 0xBD] := by decide

theorem scanBody_replacement : ScanBody [0xEF, 0xBF, 0xBD] := by
  have h := scanBody_runeBody 0xFFFD
  rw [runeBody_replacement] at h
  exact h

theorem unquoteBody_replacement : UnquoteBody [0xEF, 0xBF, 0xBD] [0xEF, 0xBF, 0xBD] := by
  have h := unquoteBody_runeBody 0xFFFD (by decide)
  rw [runeBody_replacement, show encodeRune 0xFFFD = [0xEF, 0xBF, 0xBD] by decide] at h
  exact h

theorem stringBody_cons_invalid (b : Nat) (rest : Bytes) (hb : ¬ b < 0x80)
    (he : decodeRune (b :: rest) = (RuneError, 1)) :
    stringBody (b :: rest) = [0xEF, 0xBF, 0xBD] ++ stringBody rest := by
  simp only [stringBody, List.length_cons]
  rw [appendString, if_neg hb]
  rw [he]
  simp

theorem stringBody_cons_rune (b : Nat) (rest : Bytes) (hb : ¬ b < 0x80)
    (hne : decodeRune (b :: rest) ≠ (RuneError, 1)) :
    stringBody (b :: rest) =
      (if (decodeRune (b :: rest)).1 = 0x2028 ∨ (decodeRune (b :: rest)).1 = 0x2029 then
        [0x5C, 0x75, 0x32, 0x30, 0x32, hex ((decodeRune (b :: rest)).1 % 16)]
      else (b :: rest).take (decodeRune (b :: rest)).2) ++
      stringBody ((b :: rest).drop (decodeRune (b :: rest)).2) := by
  have hp := decodeRune_size_pos b rest
  have hf : appendString rest.length ((b :: rest).drop (decodeRune (b :: rest)).2) =
      stringBody ((b :: rest).drop (decodeRune (b :: rest)).2) :=
    appendString_fuel _ _ _ (by simp only [List.length_drop, List.length_cons]; omega) le_rfl
  simp only [stringBody, List.length_cons] at hf ⊢
  rw [appendString, if_neg hb]
  simp only
  rw [if_neg (fun h => hne (Prod.ext h.1 h.2)), hf]
  by_cases h : (decodeRune (b :: rest)).1 = 0x2028 ∨ (decodeRune (b :: rest)).1 = 0x2029
  · rw [if_pos h, if_pos h]
  · rw [if_neg h, if_neg h]

/-- What `json.Marshal` writes inside a string literal for any Go string, well
formed or not, is read whole by the string scanner and unquoted by
`unquoteBytes`. -/
theorem stringBody_any : ∀ (n : Nat) (s : Bytes), s.length ≤ n →
    ScanBody (stringBody s) ∧ ∃ out, UnquoteBody (stringBody s) out := by
  intro n
  induction n with
  | zero =>
    intro s hs
    have : s = [] := List.length_eq_zero.mp (by omega)
    subst this
    exact ⟨scanBody_nil, [], unquoteBody_nil⟩
  | succ n ih =>
    intro s hs
    cases s with
    | nil => exact ⟨scanBody_nil, [], unquoteBody_nil⟩
    | cons b rest =>
      simp only [List.length_cons, Nat.add_le_add_iff_right] at hs
      by_cases hb : b < 0x80
      · obtain ⟨h1, out, h2⟩ := ih rest hs
        rw [stringBody_cons_ascii b rest hb]
        by_cases hsafe : htmlSafeSet b = true
        · rw [if_pos hsafe]
          have hs' := hsafe
          simp only [htmlSafeSet, Bool.and_eq_true, decide_eq_true_eq, Bool.not_eq_true',
            Bool.or_eq_false_iff, decide_eq_false_iff_not] at hs'
          exact ⟨scanBody_append (scanBody_plain b (by omega) (by omega) (by omega)) h1,
            [b] ++ out, unquoteBody_append (unquoteBody_step b [] [b]
              (fun t => unquoteStep_ascii b t (by omega) (by omega) (by omega) hb)) h2⟩
        · rw [if_neg hsafe]
          exact ⟨scanBody_append (scanBody_escapeByte b hb) h1, [b] ++ out,
            unquoteBody_append (unquoteBody_escapeByte b hb (by simpa using hsafe)) h2⟩
      · by_cases he : decodeRune (b :: rest) = (RuneError, 1)
        · obtain ⟨h1, out, h2⟩ := ih rest hs
          rw [stringBody_cons_invalid b rest hb he]
          exact ⟨scanBody_append scanBody_replacement h1, [0xEF, 0xBF, 0xBD] ++ out,
            unquoteBody_append unquoteBody_replacement h2⟩
        · obtain ⟨hsz, hle, hhigh, hloc⟩ := decodeRune_accept b rest (by omega) he
          have hd : ((b :: rest).drop (decodeRune (b :: rest)).2).length ≤ n := by
            simp only [List.length_drop, List.length_cons]; omega
          obtain ⟨h1, out, h2⟩ := ih _ hd
          rw [stringBody_cons_rune b rest hb he]
          by_cases hu : (decodeRune (b :: rest)).1 = 0x2028 ∨ (decodeRune (b :: rest)).1 = 0x2029
          · rw [if_pos hu]
            refine ⟨scanBody_append (scanBody_hex _ _ _ _ (by decide) (by decide) (by decide)
              (hex_isHex _ (by omega))) h1, encodeRune (decodeRune (b :: rest)).1 ++ out,
              unquoteBody_append ?_ h2⟩
            refine unquoteBody_step _ _ _ (fun t => ?_)
            rcases hu with hu | hu
            · rw [hu]
              have := unquoteStep_hex 0x32 0x30 0x32 0x38 t (by decide) (by decide) (by decide)
                (by decide) (by decide)
              simpa using this
            · rw [hu]
              have := unquoteStep_hex 0x32 0x30 0x32 0x39 t (by decide) (by decide) (by decide)
                (by decide) (by decide)
              simpa using this
          · rw [if_neg hu]
            refine ⟨scanBody_append (scanBody_all_plain _ (fun c hc => by
                have := hhigh c hc; omega)) h1,
              encodeRune (decodeRune (b :: rest)).1 ++ out, unquoteBody_append ?_ h2⟩
            obtain ⟨k, hk⟩ : ∃ k, (decodeRune (b :: rest)).2 = k + 1 :=
              ⟨(decodeRune (b :: rest)).2 - 1, by omega⟩
            rw [hk] at hloc ⊢
            rw [List.take_succ_cons] at hloc ⊢
            refine unquoteBody_step _ _ _ (fun t => ?_)
            have hl := hloc t
            rw [List.cons_append] at hl
            rw [unquoteStep, if_neg (by omega), if_neg (by omega), if_neg hb, hl, hk]
            simp only [List.drop_succ_cons]
            have : (rest.take k).length = k := by simp; omega
            rw [List.drop_append_eq_append_drop, this]
            simp

theorem scanLiteral_stringBody_any (s t : Bytes) :
    scanLiteral (stringBody s ++ 0x22 :: t) = some (stringBody s, t) :=
  scanBody_closed (stringBody_any s.length s le_rfl).1 t

theorem unquoteBytes_stringBody_any (s : Bytes) :
    unquoteBytes (stringBody s) = some (toValid s) := by
  obtain ⟨out, h⟩ := (stringBody_any s.length s le_rfl).2
  have := unquoteBody_closed h
  rw [toValid, this]
  rfl

theorem toValid_of_valid (s : Bytes) (h : ValidUTF8 s) : toValid s = s := by
  rw [toValid, unquoteBytes_stringBody s h]
  rfl

theorem toValid_valid (s : Bytes) : ValidUTF8 (toValid s) :=
  unquoteBytes_valid _ _ (unquoteBytes_stringBody_any s)

theorem item_toValid_of_valid (v : item) (h : v.Valid) : v.toValid = v := by
  obtain ⟨h1, h2, h3, h4, h5⟩ := h
  simp only [item.toValid, toValid_of_valid _ h1, toValid_of_valid _ h2, toValid_of_valid _ h3,
    toValid_of_valid _ h4, toValid_of_valid _ h5]

theorem item_toValid_valid (v : item) : v.toValid.Valid :=
  ⟨toValid_valid _, toValid_valid _, toValid_valid _, toValid_valid _, toValid_valid _⟩

theorem scanValue_quote_any (s t : Bytes) (n depth : Nat) :
    scanValue (n + 1) depth (0x22 :: (stringBody s ++ 0x22 :: t)) =
      some (Kind.str (toValid s), t) := by
  rw [scanValue, if_pos rfl, scanLiteral_stringBody_any s t]
  simp only
  rw [unquoteBytes_stringBody_any s]
  rfl

theorem scanMembers_key_any (key s more : Bytes) (n depth : Nat) (hk : PlainKey key) :
    scanMembers (n + 2) depth
        (0x22 :: (key ++ 0x22 :: 0x3A :: 0x22 :: (stringBody s ++ 0x22 :: 0x2C :: 0x22 :: more))) =
      (scanMembers (n + 1) depth (0x22 :: more)).map
        (fun p => ((key, Kind.str (toValid s)) :: p.1, p.2)) := by
  rw [scanMembers, if_neg (by simp),
    scanBody_closed (scanBody_all_plain key (fun c hc => ⟨(hk c hc).1, (hk c hc).2.1, (hk c hc).2.2.1⟩))]
  simp only
  rw [unquoteBody_closed (unquoteBody_plain key hk)]
  simp only
  rw [skipSpace_cons _ _ (by decide)]
  simp only
  rw [if_neg (by simp), skipSpace_cons _ _ (by decide), scanValue_quote_any s _ n depth]
  simp only
  rw [skipSpace_cons _ _ (by decide)]
  simp only [if_true]
  rw [skipSpace_cons _ _ (by decide)]

theorem scanMembers_last_any (key s more : Bytes) (n depth : Nat) (hk : PlainKey key) :
    scanMembers (n + 2) depth
        (0x22 :: (key ++ 0x22 :: 0x3A :: 0x22 :: (stringBody s ++ 0x22 :: 0x7D :: more))) =
      some ([(key, Kind.str (toValid s))], more) := by
  rw [scanMembers, if_neg (by simp),
    scanBody_closed (scanBody_all_plain key (fun c hc => ⟨(hk c hc).1, (hk c hc).2.1, (hk c hc).2.2.1⟩))]
  simp only
  rw [unquoteBody_closed (unquoteBody_plain key hk)]
  simp only
  rw [skipSpace_cons _ _ (by decide)]
  simp only
  rw [if_neg (by simp), skipSpace_cons _ _ (by decide), scanValue_quote_any s _ n depth]
  simp only
  rw [skipSpace_cons _ _ (by decide)]
  simp

theorem scanMembers_json_any (v : item) (n : Nat) :
    scanMembers (n + 6) 1 (v.json.drop 1) =
      some ([([0x69, 0x64], Kind.str (toValid v.Id)),
        ([0x6E, 0x61, 0x6D, 0x65], Kind.str (toValid v.Name)),
        ([0x64, 0x65, 0x73, 0x63, 0x72, 0x69, 0x70, 0x74, 0x69, 0x6F, 0x6E],
          Kind.str (toValid v.Description)),
        ([0x70, 0x72, 0x69, 0x63, 0x65], Kind.str (toValid v.Price)),
        ([0x73, 0x74, 0x61, 0x74, 0x65], Kind.str (toValid v.State))], []) := by
  rw [json_eq, List.drop_one, List.tail_cons,
    scanMembers_key_any _ _ _ _ _ (by decide), scanMembers_key_any _ _ _ _ _ (by decide),
    scanMembers_key_any _ _ _ _ _ (by decide), scanMembers_key_any _ _ _ _ _ (by decide),
    scanMembers_last_any _ _ _ _ _ (by decide)]
  rfl

/-- Decoding what `json.Marshal` wrote for any item succeeds, and gives the item
with every field read back through `json`. -/
theorem Unmarshal_json_any (v w : item) : Unmarshal v.json w = .ok v.toValid := by
  obtain ⟨n, hn⟩ := json_length v
  have hm : scanMembers (n + 7) 1 (v.json.drop 1) = _ := scanMembers_json_any v (n + 1)
  have hd : v.json = 0x7B :: 0x22 :: (v.json.drop 2) := by rw [json_eq]; rfl
  have hd1 : v.json.drop 1 = 0x22 :: (v.json.drop 2) := by rw [json_eq]; rfl
  rw [hd1] at hm
  have hc : checkValid v.json = true := by
    rw [checkValid, hn]
    rw [hd, skipSpace_cons _ _ (by decide), scanValue, if_neg (by decide), if_pos rfl,
      if_neg (by decide), skipSpace_cons _ _ (by decide)]
    simp only
    rw [if_neg (by decide), show (0 : Nat) + 1 = 1 from rfl, hm]
    rfl
  rw [Unmarshal, hc]
  simp only [Bool.not_true, Bool.false_eq_true, if_false]
  rw [hn]
  rw [hd, skipSpace_cons _ _ (by decide)]
  simp only [if_true]
  rw [skipSpace_cons _ _ (by decide)]
  simp only
  rw [if_neg (by decide), hm]
  simp only [List.foldl, decodeMember]
  have f1 : findField [0x69, 0x64] = some Field.Id := by decide
  have f2 : findField [0x6E, 0x61, 0x6D, 0x65] = some Field.Name := by decide
  have f3 : findField [0x64, 0x65, 0x73, 0x63, 0x72, 0x69, 0x70, 0x74, 0x69, 0x6F, 0x6E] =
      some Field.Description := by decide
  have f4 : findField [0x70, 0x72, 0x69, 0x63, 0x65] = some Field.Price := by decide
  have f5 : findField [0x73, 0x74, 0x61, 0x74, 0x65] = some Field.State := by decide
  simp only [f1, f2, f3, f4, f5, item.set, item.toValid]

/-! ## Sequences of invocations -/

theorem addItem_detail (stub : Stub) (args : List Bytes) :
    (∃ msg, addItem stub args = (shim.Error msg, stub.ledger)) ∨
    (∃ v : item, addItem stub args = (shim.Success v.json,
        stub.ledger.put stub.TxID stub.TxTimestamp (args.getD 0 []) v.json) ∧
      blank (args.getD 0 []) = false ∧ WriteKind stub args v) := by
  by_cases h : args.length ≠ 5
  · rw [addItem, if_pos h]; exact Or.inl ⟨_, rfl⟩
  obtain ⟨a0, a1, a2, a3, a4, rfl⟩ := length_five args (by omega)
  by_cases h0t : blank a0 = true
  · exact Or.inl ⟨_, by simp [addItem, h0t]; rfl⟩
  have h0 : blank a0 = false := by simpa using h0t
  by_cases h1t : blank a1 = true
  · exact Or.inl ⟨_, by simp [addItem, h0, h1t]; rfl⟩
  have h1 : blank a1 = false := by simpa using h1t
  by_cases h2t : blank a2 = true
  · exact Or.inl ⟨_, by simp [addItem, h0, h1, h2t]; rfl⟩
  have h2 : blank a2 = false := by simpa using h2t
  by_cases h3t : blank a3 = true
  · exact Or.inl ⟨_, by simp [addItem, h0, h1, h2, h3t]; rfl⟩
  have h3 : blank a3 = false := by simpa using h3t
  by_cases h4t : blank a4 = true
  · exact Or.inl ⟨_, by simp [addItem, h0, h1, h2, h3, h4t]; rfl⟩
  have h4 : blank a4 = false := by simpa using h4t
  cases hs : stub.ledger.state a0 with
  | some b => exact Or.inl ⟨_, by simp [addItem, h0, h1, h2, h3, h4, Stub.GetState, hs]; rfl⟩
  | none =>
    refine Or.inr ⟨⟨a0, a1, a2, a3, a4⟩, ?_, h0, Or.inl ⟨hs, a0, a1, a2, a3, a4, rfl, rfl, h1, h2,
      h3, h4⟩⟩
    rw [addItem_absent stub a0 a1 a2 a3 a4 hs h0 h1 h2 h3 h4]
    rfl

theorem modifyPrice_detail (stub : Stub) (args : List Bytes) :
    (∃ msg, modifyPrice stub args = (shim.Error msg, stub.ledger)) ∨
    (∃ v : item, modifyPrice stub args = (shim.Success v.json,
        stub.ledger.put stub.TxID stub.TxTimestamp (args.getD 0 []) v.json) ∧
      blank (args.getD 0 []) = false ∧ WriteKind stub args v) := by
  by_cases h : args.length < 2
  · rw [modifyPrice, if_pos h]; exact Or.inl ⟨_, rfl⟩
  obtain ⟨a0, a1, more, rfl⟩ := length_two args (by omega)
  have hm : ¬ (more.length + 1 + 1 < 2) := by omega
  by_cases h0t : blank a0 = true
  · exact Or.inl ⟨_, by simp [modifyPrice, h0t, hm]; rfl⟩
  have h0 : blank a0 = false := by simpa using h0t
  by_cases h1t : blank a1 = true
  · exact Or.inl ⟨_, by simp [modifyPrice, h0, h1t, hm]; rfl⟩
  have h1 : blank a1 = false := by simpa using h1t
  cases hs : stub.ledger.state a0 with
  | none => exact Or.inl ⟨_, by simp [modifyPrice, h0, h1, hm, Stub.GetState, hs]; rfl⟩
  | some b =>
    cases hu : Unmarshal b item.zero with
    | error e => exact Or.inl ⟨_, by simp [modifyPrice, h0, h1, hm, Stub.GetState, hs, hu]; rfl⟩
    | ok r =>
      refine Or.inr ⟨{ r with Price := a1 }, ?_, h0, Or.inr ⟨b, r, hs, hu,
        Or.inl ⟨a1, by simp, h1, rfl⟩⟩⟩
      rw [modifyPrice_held stub a0 a1 b more r hs hu h0 h1]
      rfl

theorem removeItem_detail (stub : Stub) (args : List Bytes) :
    (∃ msg, removeItem stub args = (shim.Error msg, stub.ledger)) ∨
    (∃ v : item, removeItem stub args = (shim.Success v.json,
        stub.ledger.put stub.TxID stub.TxTimestamp (args.getD 0 []) v.json) ∧
      blank (args.getD 0 []) = false ∧ WriteKind stub args v) := by
  by_cases h : args.length ≠ 1
  · rw [removeItem, if_pos h]; exact Or.inl ⟨_, rfl⟩
  obtain ⟨a0, rfl⟩ := length_one args (by omega)
  by_cases h0t : blank a0 = true
  · exact Or.inl ⟨_, by simp [removeItem, h0t]; rfl⟩
  have h0 : blank a0 = false := by simpa using h0t
  cases hs : stub.ledger.state a0 with
  | none => exact Or.inl ⟨_, by simp [removeItem, h0, Stub.GetState, hs]; rfl⟩
  | some b =>
    cases hu : Unmarshal b item.zero with
    | error e => exact Or.inl ⟨_, by simp [removeItem, h0, Stub.GetState, hs, hu]; rfl⟩
    | ok r =>
      refine Or.inr ⟨{ r with State := ascii "REMOVED" }, ?_, h0, Or.inr ⟨b, r, hs, hu,
        Or.inr rfl⟩⟩
      rw [removeItem_held stub a0 b r hs hu h0]
      rfl

/-- What any invocation can do, with the item written: return the ledger as it
was, or, for a writing function and a non-blank key `args[0]`, succeed and
write under that key the encoding of the item `WriteKind` describes. -/
theorem Invoke_detail (timeString : Int → Int → Bytes) (stub : Stub) (function : Bytes)
    (args : List Bytes) :
    ((Invoke timeString stub function args).2 = stub.ledger ∧
      (isWrite function = true → (Invoke timeString stub function args).1.Status = 500)) ∨
    (∃ v : item, Invoke timeString stub function args =
        (shim.Success v.json,
          stub.ledger.put stub.TxID stub.TxTimestamp (args.getD 0 []) v.json) ∧
      isWrite function = true ∧ blank (args.getD 0 []) = false ∧ WriteKind stub args v) := by
  rcases Invoke_outcome timeString stub function args with h | ⟨hw, _⟩
  · exact Or.inl h
  · rw [Invoke]
    by_cases h1 : function = ascii "addItem"
    · rw [if_pos h1]
      rcases addItem_detail stub args with ⟨m, h⟩ | ⟨v, h, hb, hk⟩
      · exact Or.inl (by rw [h]; exact ⟨rfl, fun _ => rfl⟩)
      · exact Or.inr ⟨v, h, hw, hb, hk⟩
    rw [if_neg h1]
    by_cases h2 : function = ascii "modifyPrice"
    · rw [if_pos h2]
      rcases modifyPrice_detail stub args with ⟨m, h⟩ | ⟨v, h, hb, hk⟩
      · exact Or.inl (by rw [h]; exact ⟨rfl, fun _ => rfl⟩)
      · exact Or.inr ⟨v, h, hw, hb, hk⟩
    rw [if_neg h2]
    by_cases h3 : function = ascii "removeItem"
    · rw [if_pos h3]
      rcases removeItem_detail stub args with ⟨m, h⟩ | ⟨v, h, hb, hk⟩
      · exact Or.inl (by rw [h]; exact ⟨rfl, fun _ => rfl⟩)
      · exact Or.inr ⟨v, h, hw, hb, hk⟩
    exfalso
    simp [isWrite, h1, h2, h3] at hw

theorem step_removed (timeString : Int → Int → Bytes) (l : Ledger) (id : Bytes) (c : Call)
    (h : Removed l id) : Removed (step timeString l c).2 id := by
  obtain ⟨b, r, hb, hr, hst⟩ := h
  rw [step]
  rcases Invoke_detail timeString ⟨c.TxID, c.TxTimestamp, l⟩ c.function c.args with
    ⟨h, _⟩ | ⟨v, h, _, _, hk⟩
  · rw [h]; exact ⟨b, r, hb, hr, hst⟩
  · rw [h]
    by_cases hid : id = c.args.getD 0 []
    · have hv : v.State = ascii "REMOVED" := by
        rcases hk with ⟨hn, _⟩ | ⟨b', r', hb', hr', hv | hv⟩
        · rw [← hid] at hn
          rw [show (Stub.mk c.TxID c.TxTimestamp l).ledger = l from rfl, hb] at hn
          exact absurd hn (by simp)
        · rw [← hid, show (Stub.mk c.TxID c.TxTimestamp l).ledger = l from rfl, hb] at hb'
          simp only [Option.some.injEq] at hb'
          subst hb'
          rw [hr] at hr'
          simp only [Except.ok.injEq] at hr'
          subst hr'
          obtain ⟨p, _, _, rfl⟩ := hv
          exact hst
        · rw [hv]
      refine ⟨v.json, v.toValid, ?_, Unmarshal_json_any v item.zero, ?_⟩
      · simp only [Ledger.put]
        rw [if_pos hid]
      · show toValid v.State = ascii "REMOVED"
        rw [hv]
        exact toValid_of_valid _ (validUTF8_of_ascii (ascii "REMOVED") (by decide))
    · refine ⟨b, r, ?_, hr, hst⟩
      simp only [Ledger.put]
      rw [if_neg hid]
      exact hb

/-- C17: once the value stored under `id` decodes to an item with the state
`REMOVED`, after every sequence of invocations, of any function names with any
arguments, the value stored under `id` decodes to an item with the state
`REMOVED`. -/
theorem removed_stays_removed (timeString : Int → Int → Bytes) (l : Ledger) (id : Bytes)
    (calls : List Call) (h : Removed l id) : Removed (run timeString l calls) id := by
  induction calls generalizing l with
  | nil => exact h
  | cons c cs ih => exact ih _ (step_removed timeString l id c h)

/-- C17, witness: after `removeItem` for `i1`, a `modifyPrice`, an `addItem` and
another `removeItem` for `i1` leave the state `REMOVED`. -/
theorem removed_stays_removed_witness :
    Removed (run (fun _ _ => []) (removeItem ⟨ascii "tx2", (1, 0), widgetLedger⟩ [ascii "i1"]).2
      [⟨ascii "tx3", (2, 0), ascii "modifyPrice", [ascii "i1", [0xFF]]⟩,
       ⟨ascii "tx4", (3, 0), ascii "addItem", widgetArgs⟩,
       ⟨ascii "tx5", (4, 0), ascii "removeItem", [ascii "i1"]⟩]) (ascii "i1") :=
  removed_stays_removed _ _ _ _
    ⟨item.json { widget with State := ascii "REMOVED" }, { widget with State := ascii "REMOVED" },
      by decide, by decide, rfl⟩

/-- One invocation puts at most one entry at the head of the history of `id`:
the entry of its write when it is a successful write to `id`. -/
theorem step_history (timeString : Int → Int → Bytes) (l : Ledger) (id : Bytes) (c : Call) :
    (step timeString l c).2.history id =
      (if isWrite c.function ∧ (step timeString l c).1.Status = 200 ∧ c.args.getD 0 [] = id then
        [⟨c.TxID, (step timeString l c).1.Payload, c.TxTimestamp, false⟩]
      else []) ++ l.history id := by
  rcases Invoke_outcome timeString ⟨c.TxID, c.TxTimestamp, l⟩ c.function c.args with
    ⟨h, hs⟩ | ⟨hw, v, h⟩
  · have hl : (step timeString l c).2 = l := h
    rw [if_neg, hl]
    · rfl
    · rintro ⟨h1, h2, _⟩
      have h3 : (step timeString l c).1.Status = 500 := hs h1
      omega
  · have hl : step timeString l c =
        (shim.Success v.json, l.put c.TxID c.TxTimestamp (c.args.getD 0 []) v.json) := h
    rw [hl]
    by_cases hid : id = c.args.getD 0 []
    · rw [if_pos ⟨hw, rfl, hid.symm⟩]
      simp only [Ledger.put]
      rw [if_pos hid]
      rfl
    · rw [if_neg (fun hh => hid hh.2.2.symm)]
      simp only [Ledger.put]
      rw [if_neg hid]
      rfl

/-- The history of `id` after a run of invocations: the entries of the
successful writes to `id`, the last one first, before the history at the
start. -/
theorem run_history (timeString : Int → Int → Bytes) (id : Bytes) (calls : List Call) :
    ∀ l : Ledger, (run timeString l calls).history id =
      (writesTo timeString id l calls).reverse ++ l.history id := by
  induction calls with
  | nil => intro l; rfl
  | cons c cs ih =>
    intro l
    rw [run, ih, step_history, writesTo, List.reverse_append, List.append_assoc]
    congr 2
    split <;> rfl

theorem writesTo_isDelete (timeString : Int → Int → Bytes) (id : Bytes) (calls : List Call) :
    ∀ l : Ledger, ∀ e ∈ writesTo timeString id l calls, e.IsDelete = false := by
  induction calls with
  | nil => intro l e he; simp [writesTo] at he
  | cons c cs ih =>
    intro l e he
    rw [writesTo, List.mem_append] at he
    rcases he with he | he
    · split at he
      · rw [List.mem_singleton] at he; rw [he]
      · simp at he
    · exact ih _ e he

/-- A successful write stores its payload under `args[0]`. -/
theorem step_stores_payload (timeString : Int → Int → Bytes) (l : Ledger) (c : Call)
    (hw : isWrite c.function = true) (hs : (step timeString l c).1.Status = 200) :
    (step timeString l c).2.state (c.args.getD 0 []) = some (step timeString l c).1.Payload := by
  rcases Invoke_outcome timeString ⟨c.TxID, c.TxTimestamp, l⟩ c.function c.args with
    ⟨_, h5⟩ | ⟨_, v, h⟩
  · have h3 : (step timeString l c).1.Status = 500 := h5 hw
    omega
  · have hl : step timeString l c =
        (shim.Success v.json, l.put c.TxID c.TxTimestamp (c.args.getD 0 []) v.json) := h
    rw [hl]
    simp only [Ledger.put, if_true]
    rfl

/-- C11, as amended (the id is not blank): on a ledger with no history for
`id`, after any run of invocations `history` of `id` succeeds with the array of
one object per successful write to `id` made by `addItem`, `modifyPrice` or
`removeItem` in the run (`writesTo`), the last write first; every one of these
entries has `IsDelete` false, and its value is the payload of its write, which
is the value that write stored; with no such write the array is `[]`. -/
theorem history_after_writes (timeString : Int → Int → Bytes) (l : Ledger) (id : Bytes)
    (calls : List Call) (tx : Bytes) (ts : Int × Int)
    (hid : blank id = false) (h0 : l.history id = []) :
    history timeString ⟨tx, ts, run timeString l calls⟩ [id] =
      (shim.Success (historyArray timeString (writesTo timeString id l calls).reverse),
        run timeString l calls) ∧
    (∀ e ∈ writesTo timeString id l calls, e.IsDelete = false) ∧
    (writesTo timeString id l calls = [] →
      history timeString ⟨tx, ts, run timeString l calls⟩ [id] =
        (shim.Success (ascii "[]"), run timeString l calls)) ∧
    (∀ (l1 : Ledger) (c : Call), isWrite c.function = true →
      (step timeString l1 c).1.Status = 200 →
      (step timeString l1 c).2.state (c.args.getD 0 []) =
        some (step timeString l1 c).1.Payload) := by
  have h1 : history timeString ⟨tx, ts, run timeString l calls⟩ [id] =
      (shim.Success (historyArray timeString (writesTo timeString id l calls).reverse),
        run timeString l calls) := by
    rw [history_success timeString ⟨tx, ts, run timeString l calls⟩ id hid]
    show (shim.Success (historyArray timeString ((run timeString l calls).history id)), _) = _
    rw [run_history, h0, List.append_nil]
  refine ⟨h1, writesTo_isDelete timeString id calls l, fun he => ?_,
    fun l1 c => step_stores_payload timeString l1 c⟩
  rw [h1, he]
  rfl

/-- C11, witness: the scenario.  After the create, the price update and the
soft delete of `i1`, `history` gives three entries: the item with the state
`REMOVED`, the item with the price `12.50`, the item as created. -/
theorem history_after_writes_witness :
    blank (ascii "i1") = false ∧ Ledger.empty.history (ascii "i1") = [] ∧
    (writesTo (fun _ _ => ascii "T") (ascii "i1") Ledger.empty scenario).reverse =
      [⟨ascii "tx3", item.json { widget with Price := ascii "12.50", State := ascii "REMOVED" },
          (3, 0), false⟩,
       ⟨ascii "tx2", item.json { widget with Price := ascii "12.50" }, (2, 0), false⟩,
       ⟨ascii "tx1", item.json widget, (1, 0), false⟩] ∧
    history (fun _ _ => ascii "T")
        ⟨ascii "tx4", (4, 0), run (fun _ _ => ascii "T") Ledger.empty scenario⟩ [ascii "i1"] =
      (shim.Success (historyArray (fun _ _ => ascii "T")
          (writesTo (fun _ _ => ascii "T") (ascii "i1") Ledger.empty scenario).reverse),
        run (fun _ _ => ascii "T") Ledger.empty scenario) :=
  ⟨by decide, rfl, by decide,
    (history_after_writes (fun _ _ => ascii "T") Ledger.empty (ascii "i1") scenario (ascii "tx4")
      (4, 0) (by decide) rfl).1⟩

/-- C11, counterexample: no write was made to the empty id, nor to the id of
one space, and `history` of it fails with the notice that the id must be
non-empty instead of succeeding with `[]`. -/
theorem history_after_writes_counterexample :
    Ledger.empty.history [] = [] ∧
    (history (fun _ _ => []) ⟨ascii "tx1", (1, 0), Ledger.empty⟩ [[]]).1 =
      shim.Error (ascii "The Item ID must be a non-empty string.") ∧
    Ledger.empty.history (ascii " ") = [] ∧
    (history (fun _ _ => []) ⟨ascii "tx1", (1, 0), Ledger.empty⟩ [ascii " "]).1 =
      shim.Error (ascii "The Item ID must be a non-empty string.") :=
  ⟨rfl, by decide, rfl, by decide⟩

/-! ## `TrimSpace` and the coercion to well-formed UTF-8 -/

theorem isSpace_ascii : ∀ c, c < 0x80 → IsSpace c = asciiSpace c := by decide

theorem decodeRune_cons_ascii (c : Nat) (rest : Bytes) (h : c < 0x80) :
    decodeRune (c :: rest) = (c, 1) := by
  rw [decodeRune, decodeRuneBytes, if_neg (by simp), List.getD_cons_zero, if_pos h]

theorem allSpace_inv (s : Bytes) (hne : s ≠ []) (h : AllSpace s) :
    IsSpace (decodeRune s).1 = true ∧ AllSpace (s.drop (decodeRune s).2) := by
  cases h with
  | nil => exact absurd rfl hne
  | cons _ _ hsp hrest => exact ⟨hsp, hrest⟩

/-- A white-space rune at the head of `p` is the rune at the head of every
string that starts with `p`. -/
theorem decodeRune_space_append (p u : Bytes) (hne : p ≠ [])
    (hsp : IsSpace (decodeRune p).1 = true) : decodeRune (p ++ u) = decodeRune p := by
  cases p with
  | nil => exact absurd rfl hne
  | cons b rest =>
    by_cases hb : b < 0x80
    · rw [List.cons_append, decodeRune_cons_ascii b _ hb, decodeRune_cons_ascii b _ hb]
    · have hne1 : decodeRune (b :: rest) ≠ (RuneError, 1) := by
        intro h
        rw [h] at hsp
        exact absurd hsp (by decide)
      obtain ⟨_, _, _, hloc⟩ := decodeRune_accept b rest (by omega) hne1
      have h := hloc ((b :: rest).drop (decodeRune (b :: rest)).2 ++ u)
      rw [← List.append_assoc, List.take_append_drop] at h
      exact h

theorem drop_last_one (t : Bytes) (hne : t ≠ []) :
    t.drop (t.length - 1) = [t.getD (t.length - 1) 0] := by
  induction t with
  | nil => exact absurd rfl hne
  | cons a t ih =>
    cases t with
    | nil => rfl
    | cons b t =>
      have := ih (by simp)
      simp only [List.length_cons, Nat.add_sub_cancel] at this ⊢
      rw [List.drop_succ_cons, List.getD_cons_succ]
      exact this

/-- A white-space rune that `DecodeLastRune` finds at the end of `t` is what
`DecodeRune` reads at its width from the end. -/
theorem decodeLastRune_space (t : Bytes) (hne : t ≠ [])
    (hsp : IsSpace (decodeLastRune t).1 = true) :
    1 ≤ (decodeLastRune t).2 ∧ (decodeLastRune t).2 ≤ t.length ∧
    decodeRune (t.drop (t.length - (decodeLastRune t).2)) = decodeLastRune t := by
  have hlen : t.length ≠ 0 := fun h => hne (List.length_eq_zero.mp h)
  rw [decodeLastRune] at hsp ⊢
  simp only [if_neg hlen] at hsp ⊢
  by_cases h1 : t.getD (t.length - 1) 0 < 0x80
  · simp only [if_pos h1] at hsp ⊢
    refine ⟨le_rfl, by omega, ?_⟩
    rw [drop_last_one t hne, decodeRune_cons_ascii _ _ h1]
  · simp only [if_neg h1] at hsp ⊢
    generalize (((List.filter (fun j => decide (j ≤ t.length)) [2, 3, 4]).map
      (fun j => t.length - j)).find? (fun p => !isCont (t.getD p 0))).getD
        (t.length - 4 - 1) = start at hsp ⊢
    by_cases h2 : start + (decodeRune (t.drop start)).2 ≠ t.length
    · rw [if_pos h2] at hsp
      exact absurd hsp (by decide)
    · rw [if_neg h2] at hsp ⊢
      have h3 : start + (decodeRune (t.drop start)).2 = t.length := by omega
      have h4 : 1 ≤ (decodeRune (t.drop start)).2 := by
        by_contra h
        have h5 : start = t.length := by omega
        rw [h5, List.drop_length] at hsp
        exact absurd hsp (by decide)
      refine ⟨h4, by simp only; omega, ?_⟩
      simp only
      rw [show t.length - (decodeRune (t.drop start)).2 = start by omega]

/-- `TrimRightFunc` keeps a string whose first rune is not white space. -/
theorem trimRightSpace_ne_nil : ∀ (fuel : Nat) (t : Bytes), t ≠ [] →
    IsSpace (decodeRune t).1 = false → trimRightSpace fuel t ≠ [] := by
  intro fuel
  induction fuel with
  | zero => intro t hne _; rw [trimRightSpace]; exact hne
  | succ fuel ih =>
    intro t hne h1
    rw [trimRightSpace, if_neg hne]
    by_cases hsp : IsSpace (decodeLastRune t).1 = true
    · simp only [hsp, if_true]
      obtain ⟨hpos, hle, hd⟩ := decodeLastRune_space t hne hsp
      have hlt : (decodeLastRune t).2 < t.length := by
        by_contra h
        have h0 : t.length - (decodeLastRune t).2 = 0 := by omega
        rw [h0, List.drop_zero] at hd
        rw [hd, hsp] at h1
        exact absurd h1 (by decide)
      have hne1 : t.take (t.length - (decodeLastRune t).2) ≠ [] := by
        intro h
        have := congrArg List.length h
        simp only [List.length_take, List.length_nil] at this
        omega
      refine ih _ hne1 ?_
      by_contra h
      have h2 : IsSpace (decodeRune (t.take (t.length - (decodeLastRune t).2))).1 = true := by
        simpa using h
      have h3 := decodeRune_space_append _ (t.drop (t.length - (decodeLastRune t).2)) hne1 h2
      rw [List.take_append_drop] at h3
      rw [h3, h2] at h1
      exact absurd h1 (by decide)
    · have hsp1 : IsSpace (decodeLastRune t).1 = false := by simpa using hsp
      simp only [hsp1]
      exact hne

/-- The second loop of `TrimSpace` keeps a string that starts with an ASCII
byte that is not white space. -/
theorem trimSpaceRight_ne_nil (c : Nat) (hc : c < 0x80) (hs : asciiSpace c = false) :
    ∀ (fuel : Nat) (rest : Bytes), trimSpaceRight fuel (c :: rest) ≠ [] := by
  intro fuel
  induction fuel with
  | zero => intro rest; rw [trimSpaceRight]; simp
  | succ fuel ih =>
    intro rest
    rw [trimSpaceRight, if_neg (by simp)]
    by_cases h1 : 0x80 ≤ (c :: rest).getD ((c :: rest).length - 1) 0
    · simp only [if_pos h1]
      refine trimRightSpace_ne_nil _ _ (by simp) ?_
      rw [decodeRune_cons_ascii c rest hc, isSpace_ascii c hc]
      exact hs
    · simp only [if_neg h1]
      by_cases h2 : asciiSpace ((c :: rest).getD ((c :: rest).length - 1) 0) = true
      · simp only [if_pos h2]
        cases rest with
        | nil =>
          have h3 : asciiSpace c = true := h2
          rw [hs] at h3
          exact absurd h3 (by decide)
        | cons d rest1 =>
          rw [List.dropLast_cons₂]
          exact ih _
      · simp only [if_neg h2]
        simp

theorem trimLeftSpace_zero (s : Bytes) : trimLeftSpace 0 s = s := by
  cases s <;> rfl

theorem trimLeftSpace_nil (fuel : Nat) : trimLeftSpace fuel [] = [] := by
  cases fuel <;> rfl

theorem trimLeftSpace_succ (fuel c : Nat) (rest : Bytes) :
    trimLeftSpace (fuel + 1) (c :: rest) =
      if IsSpace (decodeRune (c :: rest)).1 = true then
        trimLeftSpace fuel ((c :: rest).drop (decodeRune (c :: rest)).2)
      else c :: rest := rfl

/-- What `TrimLeftFunc` returns: nothing when the string is white space only,
and otherwise a string whose first rune is not white space. -/
theorem trimLeftSpace_spec : ∀ (fuel : Nat) (s : Bytes), s.length ≤ fuel →
    (trimLeftSpace fuel s = [] → AllSpace s) ∧
    (trimLeftSpace fuel s ≠ [] → IsSpace (decodeRune (trimLeftSpace fuel s)).1 = false) ∧
    (AllSpace s → trimLeftSpace fuel s = []) := by
  intro fuel
  induction fuel with
  | zero =>
    intro s hs
    have : s = [] := List.length_eq_zero.mp (by omega)
    subst this
    rw [trimLeftSpace_nil]
    exact ⟨fun _ => AllSpace.nil, fun h => absurd rfl h, fun _ => rfl⟩
  | succ fuel ih =>
    intro s hs
    cases s with
    | nil =>
      rw [trimLeftSpace_nil]
      exact ⟨fun _ => AllSpace.nil, fun h => absurd rfl h, fun _ => rfl⟩
    | cons c rest =>
      rw [trimLeftSpace_succ]
      have hp := decodeRune_size_pos c rest
      have hl : ((c :: rest).drop (decodeRune (c :: rest)).2).length ≤ fuel := by
        simp only [List.length_drop, List.length_cons] at hs ⊢
        omega
      obtain ⟨i1, i2, i3⟩ := ih _ hl
      by_cases hsp : IsSpace (decodeRune (c :: rest)).1 = true
      · rw [if_pos hsp]
        exact ⟨fun h => AllSpace.cons _ (by simp) hsp (i1 h), i2,
          fun h => i3 (allSpace_inv _ (by simp) h).2⟩
      · have hsp1 : IsSpace (decodeRune (c :: rest)).1 = false := by simpa using hsp
        rw [if_neg hsp]
        refine ⟨fun h => absurd h (by simp), fun _ => hsp1, fun h => ?_⟩
        have := (allSpace_inv _ (by simp) h).1
        rw [hsp1] at this
        exact absurd this (by decide)

/-- `TrimSpace` leaves nothing exactly of the strings of white-space runes. -/
theorem trimSpace_nil_iff : ∀ s : Bytes, TrimSpace s = [] ↔ AllSpace s := by
  intro s
  induction s with
  | nil => exact ⟨fun _ => AllSpace.nil, fun _ => by rw [TrimSpace]⟩
  | cons c rest ih =>
    rw [TrimSpace]
    by_cases h1 : 0x80 ≤ c
    · simp only [if_pos h1]
      obtain ⟨i1, i2, i3⟩ := trimLeftSpace_spec (c :: rest).length (c :: rest) le_rfl
      constructor
      · intro h
        by_cases ht : trimLeftSpace (c :: rest).length (c :: rest) = []
        · exact i1 ht
        · exact absurd h (trimRightSpace_ne_nil _ _ ht (i2 ht))
      · intro h
        rw [i3 h]
        rfl
    · simp only [if_neg h1]
      have hc : c < 0x80 := by omega
      have hd := decodeRune_cons_ascii c rest hc
      by_cases h2 : asciiSpace c = true
      · simp only [if_pos h2]
        rw [ih]
        constructor
        · intro h
          refine AllSpace.cons _ (by simp) ?_ ?_
          · rw [hd, isSpace_ascii c hc]; exact h2
          · rw [hd]; exact h
        · intro h
          have := (allSpace_inv _ (by simp) h).2
          rw [hd] at this
          exact this
      · simp only [if_neg h2]
        have h3 : asciiSpace c = false := by simpa using h2
        constructor
        · intro h
          exact absurd h (trimSpaceRight_ne_nil c hc h3 _ rest)
        · intro h
          have := (allSpace_inv _ (by simp) h).1
          rw [hd, isSpace_ascii c hc, h3] at this
          exact absurd this (by decide)

theorem blank_iff (s : Bytes) : blank s = true ↔ AllSpace s := by
  rw [← trimSpace_nil_iff, blank]
  simp

theorem unquoteBody_toValid (s : Bytes) : UnquoteBody (stringBody s) (toValid s) := by
  obtain ⟨out, h⟩ := (stringBody_any s.length s le_rfl).2
  have e : toValid s = out := by
    rw [toValid, unquoteBody_closed h]
    rfl
  rw [e]
  exact h

theorem toValid_of_body {s X x rest : Bytes} (h1 : stringBody s = X ++ stringBody rest)
    (h2 : UnquoteBody X x) : toValid s = x ++ toValid rest := by
  have h := unquoteBody_closed (unquoteBody_append h2 (unquoteBody_toValid rest))
  rw [toValid, h1, h]
  rfl

theorem toValid_nil : toValid [] = [] := by decide

theorem toValid_cons_ascii (b : Nat) (rest : Bytes) (hb : b < 0x80) :
    toValid (b :: rest) = b :: toValid rest := by
  show toValid (b :: rest) = [b] ++ toValid rest
  refine toValid_of_body (stringBody_cons_ascii b rest hb) ?_
  by_cases hsafe : htmlSafeSet b = true
  · rw [if_pos hsafe]
    have hs1 := hsafe
    simp only [htmlSafeSet, Bool.and_eq_true, decide_eq_true_eq, Bool.not_eq_true',
      Bool.or_eq_false_iff, decide_eq_false_iff_not] at hs1
    exact unquoteBody_step b [] [b]
      (fun t => unquoteStep_ascii b t (by omega) (by omega) (by omega) hb)
  · rw [if_neg hsafe]
    exact unquoteBody_escapeByte b hb (by simpa using hsafe)

theorem toValid_cons_invalid (b : Nat) (rest : Bytes) (hb : ¬ b < 0x80)
    (he : decodeRune (b :: rest) = (RuneError, 1)) :
    toValid (b :: rest) = [0xEF, 0xBF, 0xBD] ++ toValid rest := by
  exact toValid_of_body (stringBody_cons_invalid b rest hb he) unquoteBody_replacement

theorem toValid_cons_rune (b : Nat) (rest : Bytes) (hb : ¬ b < 0x80)
    (hne : decodeRune (b :: rest) ≠ (RuneError, 1)) :
    toValid (b :: rest) = encodeRune (decodeRune (b :: rest)).1 ++
      toValid ((b :: rest).drop (decodeRune (b :: rest)).2) := by
  obtain ⟨hsz, hle, hhigh, hloc⟩ := decodeRune_accept b rest (by omega) hne
  refine toValid_of_body (stringBody_cons_rune b rest hb hne) ?_
  by_cases hu : (decodeRune (b :: rest)).1 = 0x2028 ∨ (decodeRune (b :: rest)).1 = 0x2029
  · rw [if_pos hu]
    refine unquoteBody_step _ _ _ (fun t => ?_)
    rcases hu with hu | hu
    · rw [hu]
      have := unquoteStep_hex 0x32 0x30 0x32 0x38 t (by decide) (by decide) (by decide)
        (by decide) (by decide)
      simpa using this
    · rw [hu]
      have := unquoteStep_hex 0x32 0x30 0x32 0x39 t (by decide) (by decide) (by decide)
        (by decide) (by decide)
      simpa using this
  · rw [if_neg hu]
    obtain ⟨k, hk⟩ : ∃ k, (decodeRune (b :: rest)).2 = k + 1 :=
      ⟨(decodeRune (b :: rest)).2 - 1, by omega⟩
    rw [hk] at hloc ⊢
    rw [List.take_succ_cons] at hloc ⊢
    refine unquoteBody_step _ _ _ (fun t => ?_)
    have hl := hloc t
    rw [List.cons_append] at hl
    rw [unquoteStep, if_neg (by omega), if_neg (by omega), if_neg hb, hl, hk]
    simp only [List.drop_succ_cons]
    have : (rest.take k).length = k := by simp; omega
    rw [List.drop_append_eq_append_drop, this]
    simp

theorem encodeRune_not_scalar (r : Nat) (h : ¬ isScalar r) : encodeRune r = [0xEF, 0xBF, 0xBD] := by
  unfold isScalar at h
  rw [encodeRune, if_neg (by omega), if_neg (by omega), if_pos (by omega)]

/-- The first rune of `encodeRune r ++ t` is white space only when `r` is, and
then the rest is `t`. -/
theorem allSpace_encodeRune (r : Nat) (t : Bytes) (h : AllSpace (encodeRune r ++ t)) :
    IsSpace r = true ∧ AllSpace t := by
  by_cases hr : isScalar r
  · have hd := decodeRune_encodeRune r hr t
    have hne : encodeRune r ++ t ≠ [] := by
      intro h0
      have h1 := congrArg Prod.snd hd
      rw [h0] at h1
      have h2 := congrArg List.length h0
      simp only [List.length_append, List.length_nil] at h2
      have h3 : (decodeRune ([] : Bytes)).2 = 0 := by decide
      have h4 : (encodeRune r).length = 0 := by omega
      rw [h3] at h1
      cases hr1 : encodeRune r with
      | nil =>
        rw [encodeRune] at hr1
        split at hr1 <;> try simp at hr1
        split at hr1 <;> try simp at hr1
        split at hr1 <;> try simp at hr1
        split at hr1 <;> simp at hr1
      | cons a l => rw [hr1] at h4; simp at h4
    obtain ⟨h1, h2⟩ := allSpace_inv _ hne h
    rw [hd] at h1 h2
    simp only [List.drop_left] at h2
    exact ⟨h1, h2⟩
  · rw [encodeRune_not_scalar r hr] at h
    have h1 := (allSpace_inv _ (by simp) h).1
    have hd : decodeRune ([0xEF, 0xBF, 0xBD] ++ t) = (0xFFFD, 3) :=
      decodeRune_encodeRune 0xFFFD (by decide) t
    rw [hd] at h1
    exact absurd h1 (by decide)

/-- The coercion of `json.Marshal` does not turn a string into white space. -/
theorem allSpace_of_toValid : ∀ (n : Nat) (s : Bytes), s.length ≤ n →
    AllSpace (toValid s) → AllSpace s := by
  intro n
  induction n with
  | zero =>
    intro s hs _
    have : s = [] := List.length_eq_zero.mp (by omega)
    rw [this]
    exact AllSpace.nil
  | succ n ih =>
    intro s hs h
    cases s with
    | nil => exact AllSpace.nil
    | cons b rest =>
      simp only [List.length_cons, Nat.add_le_add_iff_right] at hs
      by_cases hb : b < 0x80
      · rw [toValid_cons_ascii b rest hb] at h
        obtain ⟨h1, h2⟩ := allSpace_inv _ (by simp) h
        rw [decodeRune_cons_ascii b _ hb] at h1 h2
        refine AllSpace.cons _ (by simp) ?_ ?_
        · rw [decodeRune_cons_ascii b _ hb]; exact h1
        · rw [decodeRune_cons_ascii b _ hb]; exact ih rest hs h2
      · by_cases he : decodeRune (b :: rest) = (RuneError, 1)
        · rw [toValid_cons_invalid b rest hb he] at h
          have h1 := (allSpace_encodeRune 0xFFFD (toValid rest) h).1
          exact absurd h1 (by decide)
        · rw [toValid_cons_rune b rest hb he] at h
          obtain ⟨h1, h2⟩ := allSpace_encodeRune _ _ h
          have hp := decodeRune_size_pos b rest
          refine AllSpace.cons _ (by simp) h1 (ih _ ?_ h2)
          simp only [List.length_drop, List.length_cons]
          omega

/-- A string that is not blank is not blank after the coercion of
`json.Marshal` to well-formed UTF-8. -/
theorem blank_toValid (s : Bytes) (h : blank s = false) : blank (toValid s) = false := by
  by_contra hc
  have h1 : blank (toValid s) = true := by simpa using hc
  have h2 := (blank_iff s).mpr (allSpace_of_toValid s.length s le_rfl ((blank_iff _).mp h1))
  rw [h] at h2
  exact absurd h2 (by decide)

/-! ## The stored items on every reachable ledger -/

theorem wellKept_put_any (l : Ledger) (tx : Bytes) (ts : Int × Int) (key : Bytes) (v : item)
    (h : WellKept l) (hid : toValid v.Id = key) (h0 : blank key = false)
    (h1 : blank v.Name = false) (h2 : blank v.Description = false)
    (h3 : blank v.Price = false) (h4 : blank v.State = false) :
    WellKept (l.put tx ts key v.json) := by
  intro k b hb
  simp only [Ledger.put] at hb
  by_cases hk : k = key
  · rw [if_pos hk, Option.some.injEq] at hb
    rw [← hb, hk]
    refine ⟨v.toValid, Unmarshal_json_any v item.zero, hid, ?_, blank_toValid _ h1,
      blank_toValid _ h2, blank_toValid _ h3, blank_toValid _ h4⟩
    show blank (toValid v.Id) = false
    rw [hid]
    exact h0
  · rw [if_neg hk] at hb
    exact h k b hb

/-- One invocation whose first argument is well-formed UTF-8 keeps every stored
value the encoding of an item filed under its own id, with no blank field. -/
theorem step_wellKept_any (timeString : Int → Int → Bytes) (l : Ledger) (c : Call)
    (hv : ValidUTF8 (c.args.getD 0 [])) (h : WellKept l) :
    WellKept (step timeString l c).2 := by
  rcases Invoke_detail timeString ⟨c.TxID, c.TxTimestamp, l⟩ c.function c.args with
    ⟨h1, _⟩ | ⟨v, h1, _, hb, hk⟩
  · have hl : (step timeString l c).2 = l := h1
    rw [hl]; exact h
  · have hl : step timeString l c =
        (shim.Success v.json, l.put c.TxID c.TxTimestamp (c.args.getD 0 []) v.json) := h1
    rw [hl]
    show WellKept (l.put c.TxID c.TxTimestamp (c.args.getD 0 []) v.json)
    rcases hk with ⟨_, a0, a1, a2, a3, a4, ha, rfl, b1, b2, b3, b4⟩ | ⟨b, r, hs, hr, hp⟩
    · rw [ha] at hb hv ⊢
      exact wellKept_put_any l _ _ a0 ⟨a0, a1, a2, a3, a4⟩ h (toValid_of_valid a0 hv) hb
        b1 b2 b3 b4
    · obtain ⟨r1, hr1, i0, c0, c1, c2, c3, c4⟩ := h _ b hs
      rw [hr] at hr1
      simp only [Except.ok.injEq] at hr1
      subst hr1
      obtain ⟨v0, v1, v2, v3, v4⟩ := Unmarshal_valid b item.zero r item_zero_valid hr
      rcases hp with ⟨p, hp, bp, rfl⟩ | rfl
      · exact wellKept_put_any l _ _ _ { r with Price := p } h
          (by rw [← i0]; exact toValid_of_valid r.Id v0) hb c1 c2 bp c4
      · exact wellKept_put_any l _ _ _ { r with State := ascii "REMOVED" } h
          (by rw [← i0]; exact toValid_of_valid r.Id v0) hb c1 c2 c3
          (show blank (ascii "REMOVED") = false by decide)

theorem run_wellKept_any (timeString : Int → Int → Bytes) (calls : List Call) :
    ∀ l : Ledger, (∀ c ∈ calls, ValidUTF8 (c.args.getD 0 [])) → WellKept l →
      WellKept (run timeString l calls) := by
  induction calls with
  | nil => intro l _ h; exact h
  | cons c cs ih =>
    intro l hv h
    exact ih _ (fun c1 hc1 => hv c1 (by simp [hc1]))
      (step_wellKept_any timeString l c (hv c (by simp)) h)

theorem wellKept_empty : WellKept Ledger.empty := by
  intro k b h
  exact absurd h (by simp [Ledger.empty])

/-- C19, as amended (the ids are well-formed UTF-8): in every ledger reached
from the empty ledger by a sequence of invocations, of any function names,
whose first arguments are all well-formed UTF-8, every value stored under a key
`k` decodes to an item whose id is `k` and whose five fields are non-empty
after trimming white space.  The other arguments are arbitrary bytes. -/
theorem ids_kept (timeString : Int → Int → Bytes) (calls : List Call)
    (hv : ∀ c ∈ calls, ValidUTF8 (c.args.getD 0 [])) :
    WellKept (run timeString Ledger.empty calls) :=
  run_wellKept_any timeString calls Ledger.empty hv wellKept_empty

/-- C19, witness: the three writes of the scenario, then a price that is not
well-formed UTF-8 and a call without arguments. -/
theorem ids_kept_witness :
    (∀ c ∈ scenario ++ [⟨ascii "tx4", (4, 0), ascii "modifyPrice", [ascii "i1", [0xFF]]⟩,
        ⟨ascii "tx5", (5, 0), ascii "history", []⟩],
      ValidUTF8 (c.args.getD 0 [])) ∧
    WellKept (run (fun _ _ => []) Ledger.empty
      (scenario ++ [⟨ascii "tx4", (4, 0), ascii "modifyPrice", [ascii "i1", [0xFF]]⟩,
        ⟨ascii "tx5", (5, 0), ascii "history", []⟩])) :=
  have h : ∀ c ∈ scenario ++ [⟨ascii "tx4", (4, 0), ascii "modifyPrice", [ascii "i1", [0xFF]]⟩,
        ⟨ascii "tx5", (5, 0), ascii "history", []⟩],
      ∀ x ∈ c.args.getD 0 [], x < 0x80 := by decide
  ⟨fun c hc => validUTF8_of_ascii _ (h c hc),
    ids_kept (fun _ _ => []) _ (fun c hc => validUTF8_of_ascii _ (h c hc))⟩

/-- C19, counterexample: `addItem` with the id of the single byte `0xFF`, which
is not blank.  The value is stored under the key `0xFF` and decodes to an item
whose id is `EF BF BD`, the encoding of U+FFFD, not the key. -/
theorem ids_kept_counterexample :
    (run (fun _ _ => []) Ledger.empty
      [⟨ascii "tx1", (1, 0), ascii "addItem",
        [[0xFF], ascii "n", ascii "d", ascii "p", ascii "s"]⟩]).state [0xFF] =
      some (item.json ⟨[0xFF], ascii "n", ascii "d", ascii "p", ascii "s"⟩) ∧
    Unmarshal (item.json ⟨[0xFF], ascii "n", ascii "d", ascii "p", ascii "s"⟩) item.zero =
      .ok ⟨[0xEF, 0xBF, 0xBD], ascii "n", ascii "d", ascii "p", ascii "s"⟩ ∧
    ¬ WellKept (run (fun _ _ => []) Ledger.empty
      [⟨ascii "tx1", (1, 0), ascii "addItem",
        [[0xFF], ascii "n", ascii "d", ascii "p", ascii "s"]⟩]) := by
  have h1 : (run (fun _ _ => []) Ledger.empty
      [⟨ascii "tx1", (1, 0), ascii "addItem",
        [[0xFF], ascii "n", ascii "d", ascii "p", ascii "s"]⟩]).state [0xFF] =
      some (item.json ⟨[0xFF], ascii "n", ascii "d", ascii "p", ascii "s"⟩) := by decide
  have h2 : Unmarshal (item.json ⟨[0xFF], ascii "n", ascii "d", ascii "p", ascii "s"⟩) item.zero =
      .ok ⟨[0xEF, 0xBF, 0xBD], ascii "n", ascii "d", ascii "p", ascii "s"⟩ := by decide
  refine ⟨h1, h2, fun h => ?_⟩
  obtain ⟨r, hr, hid, _⟩ := h _ _ h1
  rw [h2] at hr
  simp only [Except.ok.injEq] at hr
  rw [← hr] at hid
  exact absurd hid (by decide)

/-! ## The round trip of the codec -/

theorem encodeRune_two (p0 b1 : Nat) (h1 : 0xC2 ≤ p0) (h2 : p0 < 0xE0) (h3 : 0x80 ≤ b1)
    (h4 : b1 ≤ 0xBF) :
    isScalar ((p0 - 0xC0) * 0x40 + (b1 - 0x80)) ∧
    encodeRune ((p0 - 0xC0) * 0x40 + (b1 - 0x80)) = [p0, b1] := by
  obtain ⟨r, hr⟩ : ∃ r, r = (p0 - 0xC0) * 0x40 + (b1 - 0x80) := ⟨_, rfl⟩
  rw [← hr]
  refine ⟨Or.inl (by omega), ?_⟩
  have e1 : 0xC0 + r / 0x40 = p0 := by omega
  have e2 : 0x80 + r % 0x40 = b1 := by omega
  rw [encodeRune, if_neg (by omega), if_pos (by omega), e1, e2]

theorem encodeRune_three (p0 b1 b2 : Nat) (h1 : 0xE0 ≤ p0) (h2 : p0 < 0xF0) (h3 : 0x80 ≤ b1)
    (h4 : b1 ≤ 0xBF) (h5 : p0 = 0xE0 → 0xA0 ≤ b1) (h6 : p0 = 0xED → b1 ≤ 0x9F)
    (h7 : 0x80 ≤ b2) (h8 : b2 ≤ 0xBF) :
    isScalar ((p0 - 0xE0) * 0x1000 + (b1 - 0x80) * 0x40 + (b2 - 0x80)) ∧
    encodeRune ((p0 - 0xE0) * 0x1000 + (b1 - 0x80) * 0x40 + (b2 - 0x80)) = [p0, b1, b2] := by
  obtain ⟨r, hr⟩ : ∃ r, r = (p0 - 0xE0) * 0x1000 + (b1 - 0x80) * 0x40 + (b2 - 0x80) := ⟨_, rfl⟩
  rw [← hr]
  have hs : isScalar r := by
    unfold isScalar
    by_cases h : p0 = 0xED
    · have := h6 h; omega
    · omega
  refine ⟨hs, ?_⟩
  unfold isScalar at hs
  have hlo : 0x800 ≤ r := by
    by_cases h : p0 = 0xE0
    · have := h5 h; omega
    · omega
  have e1 : 0xE0 + r / 0x1000 = p0 := by omega
  have e2 : 0x80 + r / 0x40 % 0x40 = b1 := by omega
  have e3 : 0x80 + r % 0x40 = b2 := by omega
  rw [encodeRune, if_neg (by omega), if_neg (by omega), if_neg (by omega), if_pos (by omega),
    e1, e2, e3]

theorem encodeRune_four (p0 b1 b2 b3 : Nat) (h1 : 0xF0 ≤ p0) (h2 : p0 ≤ 0xF4) (h3 : 0x80 ≤ b1)
    (h4 : b1 ≤ 0xBF) (h5 : p0 = 0xF0 → 0x90 ≤ b1) (h6 : p0 = 0xF4 → b1 ≤ 0x8F)
    (h7 : 0x80 ≤ b2) (h8 : b2 ≤ 0xBF) (h9 : 0x80 ≤ b3) (h10 : b3 ≤ 0xBF) :
    isScalar ((p0 - 0xF0) * 0x40000 + (b1 - 0x80) * 0x1000 + (b2 - 0x80) * 0x40 + (b3 - 0x80)) ∧
    encodeRune ((p0 - 0xF0) * 0x40000 + (b1 - 0x80) * 0x1000 + (b2 - 0x80) * 0x40 + (b3 - 0x80)) =
      [p0, b1, b2, b3] := by
  obtain ⟨r, hr⟩ : ∃ r, r =
      (p0 - 0xF0) * 0x40000 + (b1 - 0x80) * 0x1000 + (b2 - 0x80) * 0x40 + (b3 - 0x80) := ⟨_, rfl⟩
  rw [← hr]
  have hlo : 0x10000 ≤ r := by
    by_cases h : p0 = 0xF0
    · have := h5 h; omega
    · omega
  have hhi : r < 0x110000 := by
    by_cases h : p0 = 0xF4
    · have := h6 h; omega
    · omega
  refine ⟨Or.inr ⟨by omega, hhi⟩, ?_⟩
  have e1 : 0xF0 + r / 0x40000 = p0 := by omega
  have e2 : 0x80 + r / 0x1000 % 0x40 = b1 := by omega
  have e3 : 0x80 + r / 0x40 % 0x40 = b2 := by omega
  have e4 : 0x80 + r % 0x40 = b3 := by omega
  rw [encodeRune, if_neg (by omega), if_neg (by omega), if_neg (by omega), if_neg (by omega),
    e1, e2, e3, e4]

theorem take_two (b : Nat) (rest : Bytes) (h : 2 ≤ rest.length + 1) :
    (b :: rest).take 2 = [b, rest.getD 0 0] := by
  match rest, h with
  | c :: _, _ => rfl

theorem take_three (b : Nat) (rest : Bytes) (h : 3 ≤ rest.length + 1) :
    (b :: rest).take 3 = [b, rest.getD 0 0, rest.getD 1 0] := by
  match rest, h with
  | c :: d :: _, _ => rfl

theorem take_four (b : Nat) (rest : Bytes) (h : 4 ≤ rest.length + 1) :
    (b :: rest).take 4 = [b, rest.getD 0 0, rest.getD 1 0, rest.getD 2 0] := by
  match rest, h with
  | c :: d :: e :: _, _ => rfl

/-- What `decodeSeq` accepts is the encoding of the rune it returns. -/
theorem encodeRune_decodeSeq (sz lo hi b : Nat) (rest : Bytes) (h2 : 2 ≤ sz) (h4 : sz ≤ 4)
    (hne : decodeSeq (rest.length + 1) sz lo hi b (rest.getD 0 0) (rest.getD 1 0)
      (rest.getD 2 0) ≠ (RuneError, 1))
    (hlo : 0x80 ≤ lo) (hhi : hi ≤ 0xBF)
    (c2 : sz = 2 → 0xC2 ≤ b ∧ b < 0xE0)
    (c3 : sz = 3 → 0xE0 ≤ b ∧ b < 0xF0 ∧ (b = 0xE0 → 0xA0 ≤ lo) ∧ (b = 0xED → hi ≤ 0x9F))
    (c4 : sz = 4 → 0xF0 ≤ b ∧ b ≤ 0xF4 ∧ (b = 0xF0 → 0x90 ≤ lo) ∧ (b = 0xF4 → hi ≤ 0x8F)) :
    isScalar (decodeSeq (rest.length + 1) sz lo hi b (rest.getD 0 0) (rest.getD 1 0)
      (rest.getD 2 0)).1 ∧
    encodeRune (decodeSeq (rest.length + 1) sz lo hi b (rest.getD 0 0) (rest.getD 1 0)
      (rest.getD 2 0)).1 =
      (b :: rest).take (decodeSeq (rest.length + 1) sz lo hi b (rest.getD 0 0) (rest.getD 1 0)
        (rest.getD 2 0)).2 := by
  obtain ⟨_, hn, hl, hh, hc2, hc3⟩ := decodeSeq_valid _ sz lo hi b _ _ _ h2 h4 hne
  have hsz : sz = 2 ∨ sz = 3 ∨ sz = 4 := by omega
  rcases hsz with rfl | rfl | rfl
  · obtain ⟨a1, a2⟩ := c2 rfl
    rw [decodeSeq_two _ _ _ _ _ _ _ hn hl hh, take_two b rest hn]
    exact encodeRune_two b _ a1 a2 (by omega) (by omega)
  · obtain ⟨a1, a2, a3, a4⟩ := c3 rfl
    have q := hc2 (by omega)
    rw [decodeSeq_three _ _ _ _ _ _ _ hn hl hh q.1 q.2, take_three b rest hn]
    exact encodeRune_three b _ _ a1 a2 (by omega) (by omega)
      (fun h => by have := a3 h; omega) (fun h => by have := a4 h; omega) q.1 q.2
  · obtain ⟨a1, a2, a3, a4⟩ := c4 rfl
    have q := hc2 (by omega)
    have q3 := hc3 (by omega)
    rw [decodeSeq_four _ _ _ _ _ _ _ hn hl hh q.1 q.2 q3.1 q3.2, take_four b rest hn]
    exact encodeRune_four b _ _ _ a1 a2 (by omega) (by omega)
      (fun h => by have := a3 h; omega) (fun h => by have := a4 h; omega) q.1 q.2 q3.1 q3.2

/-- A multi-byte rune `decodeRune` accepts is a Unicode scalar value, and the
bytes it was read from are its encoding. -/
theorem encodeRune_decodeRune (b : Nat) (rest : Bytes) (hb : 0x80 ≤ b)
    (hne : decodeRune (b :: rest) ≠ (RuneError, 1)) :
    isScalar (decodeRune (b :: rest)).1 ∧
    encodeRune (decodeRune (b :: rest)).1 = (b :: rest).take (decodeRune (b :: rest)).2 := by
  have key : decodeRune (b :: rest) =
      decodeRuneBytes (rest.length + 1) b (rest.getD 0 0) (rest.getD 1 0) (rest.getD 2 0) := rfl
  rw [key] at hne ⊢
  rw [decodeRuneBytes] at hne ⊢
  rw [if_neg (by omega), if_neg (by omega)] at hne ⊢
  by_cases c1 : b < 0xC2
  · rw [if_pos c1] at hne; exact absurd rfl hne
  rw [if_neg c1] at hne ⊢
  by_cases c2 : b < 0xE0
  · rw [if_pos c2] at hne ⊢
    exact encodeRune_decodeSeq 2 _ _ b rest (by omega) (by omega) hne (by omega) (by omega)
      (fun _ => ⟨by omega, c2⟩) (fun h => by omega) (fun h => by omega)
  rw [if_neg c2] at hne ⊢
  by_cases c3 : b = 0xE0
  · rw [if_pos c3] at hne ⊢
    exact encodeRune_decodeSeq 3 _ _ b rest (by omega) (by omega) hne (by omega) (by omega)
      (fun h => by omega) (fun _ => ⟨by omega, by omega, fun _ => by omega, fun h => by omega⟩)
      (fun h => by omega)
  rw [if_neg c3] at hne ⊢
  by_cases c4 : b = 0xED
  · rw [if_pos c4] at hne ⊢
    exact encodeRune_decodeSeq 3 _ _ b rest (by omega) (by omega) hne (by omega) (by omega)
      (fun h => by omega) (fun _ => ⟨by omega, by omega, fun h => by omega, fun _ => by omega⟩)
      (fun h => by omega)
  rw [if_neg c4] at hne ⊢
  by_cases c5 : b < 0xF0
  · rw [if_pos c5] at hne ⊢
    exact encodeRune_decodeSeq 3 _ _ b rest (by omega) (by omega) hne (by omega) (by omega)
      (fun h => by omega) (fun _ => ⟨by omega, by omega, fun h => by omega, fun h => by omega⟩)
      (fun h => by omega)
  rw [if_neg c5] at hne ⊢
  by_cases c6 : b = 0xF0
  · rw [if_pos c6] at hne ⊢
    exact encodeRune_decodeSeq 4 _ _ b rest (by omega) (by omega) hne (by omega) (by omega)
      (fun h => by omega) (fun h => by omega)
      (fun _ => ⟨by omega, by omega, fun _ => by omega, fun h => by omega⟩)
  rw [if_neg c6] at hne ⊢
  by_cases c7 : b < 0xF4
  · rw [if_pos c7] at hne ⊢
    exact encodeRune_decodeSeq 4 _ _ b rest (by omega) (by omega) hne (by omega) (by omega)
      (fun h => by omega) (fun h => by omega)
      (fun _ => ⟨by omega, by omega, fun h => by omega, fun h => by omega⟩)
  rw [if_neg c7] at hne ⊢
  by_cases c8 : b = 0xF4
  · rw [if_pos c8] at hne ⊢
    exact encodeRune_decodeSeq 4 _ _ b rest (by omega) (by omega) hne (by omega) (by omega)
      (fun h => by omega) (fun h => by omega)
      (fun _ => ⟨by omega, by omega, fun h => by omega, fun _ => by omega⟩)
  rw [if_neg c8] at hne
  exact absurd rfl hne

theorem stringBody_replacement (t : Bytes) :
    stringBody ([0xEF, 0xBF, 0xBD] ++ t) = [0xEF, 0xBF, 0xBD] ++ stringBody t := by
  have h := stringBody_encodeRune 0xFFFD (by decide) t
  rw [runeBody_replacement, show encodeRune 0xFFFD = [0xEF, 0xBF, 0xBD] by decide] at h
  exact h

/-- Encoding a string after its coercion to well-formed UTF-8 gives what
encoding the string itself gives. -/
theorem stringBody_toValid : ∀ (n : Nat) (s : Bytes), s.length ≤ n →
    stringBody (toValid s) = stringBody s := by
  intro n
  induction n with
  | zero =>
    intro s hs
    have : s = [] := List.length_eq_zero.mp (by omega)
    rw [this, toValid_nil]
  | succ n ih =>
    intro s hs
    cases s with
    | nil => rw [toValid_nil]
    | cons b rest =>
      simp only [List.length_cons, Nat.add_le_add_iff_right] at hs
      by_cases hb : b < 0x80
      · rw [toValid_cons_ascii b rest hb, stringBody_cons_ascii b _ hb,
          stringBody_cons_ascii b rest hb, ih rest hs]
      · by_cases he : decodeRune (b :: rest) = (RuneError, 1)
        · rw [toValid_cons_invalid b rest hb he, stringBody_replacement,
            stringBody_cons_invalid b rest hb he, ih rest hs]
        · obtain ⟨hsz, hle, _, _⟩ := decodeRune_accept b rest (by omega) he
          obtain ⟨hsc, henc⟩ := encodeRune_decodeRune b rest (by omega) he
          have hp := decodeRune_size_pos b rest
          have hd : ((b :: rest).drop (decodeRune (b :: rest)).2).length ≤ n := by
            simp only [List.length_drop, List.length_cons]; omega
          have hr : ¬ (decodeRune (b :: rest)).1 < 0x80 := by
            intro h
            have h1 := congrArg List.length henc
            rw [encodeRune_ascii _ h] at h1
            simp only [List.length_cons, List.length_nil, List.length_take] at h1
            omega
          rw [toValid_cons_rune b rest hb he, stringBody_encodeRune _ hsc, ih _ hd,
            stringBody_cons_rune b rest hb he, runeBody, if_neg hr, henc]

theorem quote_toValid (s : Bytes) : quote (toValid s) = quote s := by
  rw [quote, quote, stringBody_toValid s.length s le_rfl]

theorem json_toValid (v : item) : v.toValid.json = v.json := by
  simp only [item.json, Marshal, item.toValid, quote_toValid]

/-- C16: for every item `r`, whatever bytes its five fields hold,
`json.Unmarshal` into an `item` succeeds on what `json.Marshal` wrote for `r`,
and `json.Marshal` of the item it returns writes the same bytes again. -/
theorem marshal_roundtrip (r : item) :
    ∃ r1, Unmarshal r.json item.zero = .ok r1 ∧ r1.json = r.json :=
  ⟨r.toValid, Unmarshal_json_any r item.zero, json_toValid r⟩

/-- The round trip at an item whose id is the single byte `0xFF`: the decoded
id is `EF BF BD`, and both items have the same encoding. -/
theorem roundtrip_at_invalid_byte :
    Unmarshal (item.json ⟨[0xFF], ascii "n", ascii "d", ascii "p", ascii "s"⟩) item.zero =
      .ok ⟨[0xEF, 0xBF, 0xBD], ascii "n", ascii "d", ascii "p", ascii "s"⟩ ∧
    item.json ⟨[0xEF, 0xBF, 0xBD], ascii "n", ascii "d", ascii "p", ascii "s"⟩ =
      item.json ⟨[0xFF], ascii "n", ascii "d", ascii "p", ascii "s"⟩ := by
  decide

end DemoChaincode
